import Mathlib

/-!
# Steeler logbook: the port Directory, the name filter and the write paths

A shallow embedding of the port-handling core of `src/app.js`.

* A JavaScript string is a `List Char`.  `String.prototype.length` counts UTF-16 code
  units, so `jsLength` counts a character above U+FFFF twice.
* A JavaScript number in a coordinate position is a `JsNum`: `NaN`, or a finite value
  held as a scaled integer (units of one millionth of a degree).  The Directory code
  stores and compares coordinates and never computes with them.  A `JsVal` is what a
  coordinate argument or field can hold: `undefined`, `null` or a number.
* The module-level variables `knownPorts` and `recentPorts` are passed explicitly, as
  lists or as the pair `Ports`.  Writing to storage and to the page is left out.
* `String.prototype.localeCompare` is supplied by the host; it enters as a `Collation`,
  a three-way comparison that is reflexive, antisymmetric in sign and transitive.
  `toLowerCase` enters through `Host` in the same way.
* `Array.prototype.sort` is stable; it is `List.insertionSort`, the stable sort.
* The network, the dialogs and the floating-point test `saneForSteeler` enter through
  a `World`; an asynchronous function is run to completion as one step.
-/

namespace Steeler

/-! ## Strings -/

/-- JavaScript strings. -/
abbrev Str := List Char

/-- Code points that `trim()` strips and that `\s` matches in a regular expression:
WhiteSpace and LineTerminator of ECMAScript. -/
def isWhite (c : Char) : Bool :=
  let n := c.toNat
  n == 0x09 || n == 0x0A || n == 0x0B || n == 0x0C || n == 0x0D || n == 0x20 ||
  n == 0xA0 || n == 0x1680 || (0x2000 ≤ n && n ≤ 0x200A) || n == 0x2028 ||
  n == 0x2029 || n == 0x202F || n == 0x205F || n == 0x3000 || n == 0xFEFF

/-- The method `String.prototype.trim`. -/
def trim (s : Str) : Str :=
  ((s.dropWhile isWhite).reverse.dropWhile isWhite).reverse

/-- The property `length` of a string: the number of UTF-16 code units. -/
def jsLength (s : Str) : Nat :=
  (s.map (fun c => if c.toNat < 0x10000 then 1 else 2)).sum

/-! ## Port records -/

/-- A JavaScript number in a coordinate position. -/
inductive JsNum where
  | nan
  | num (v : Int)
  deriving DecidableEq, Repr

/-- The global `isNaN` on a number. -/
def JsNum.isNaN : JsNum → Bool
  | .nan => true
  | .num _ => false

/-- A value in a coordinate position: an omitted argument or absent field
(`undefined`), `null`, or a number. -/
inductive JsVal where
  | undefined
  | null
  | number (x : JsNum)
  deriving DecidableEq, Repr

/-- The number `v` millionths of a degree, as a value. -/
def deg (v : Int) : JsVal := JsVal.number (JsNum.num v)

/-- The conversion `Number(v)`. -/
def JsVal.toNumber : JsVal → JsNum
  | .undefined => JsNum.nan
  | .null => JsNum.num 0
  | .number x => x

/-- The global `isNaN(v)`, which converts its argument with `Number`. -/
def JsVal.isNaN (v : JsVal) : Bool := v.toNumber.isNaN

/-- The test `v != null`, false for `null` and for `undefined`. -/
def JsVal.neNull : JsVal → Bool
  | .undefined => false
  | .null => false
  | .number _ => true

/-- An element of `knownPorts`: a bare name (a string), or an object
`{name, lat, lon}`. -/
inductive PortItem where
  | bare (name : Str)
  | obj (name : Str) (lat lon : JsVal)
  deriving DecidableEq, Repr

/-- The function `portName(p)`: the string itself, or the `name` of the object. -/
def portName : PortItem → Str
  | .bare s => s
  | .obj n _ _ => n

/-- The function `portHasCoords(p)`: an object whose `lat` and `lon` are both not `NaN`. -/
def portHasCoords : PortItem → Bool
  | .bare _ => false
  | .obj _ lat lon => !lat.isNaN && !lon.isNaN

/-- The function `findPortItemByName(name)`: the first element of `knownPorts` whose `portName`
is strictly equal to the trimmed argument; `null` for a blank argument. -/
def findPortItemByName (knownPorts : List PortItem) (name : Str) : Option PortItem :=
  let n := trim name
  if n = [] then none
  else knownPorts.find? (fun p => portName p == n)

/-! ## Collation and sorting -/

/-- The host function `localeCompare`, as a consistent three-way comparison. -/
structure Collation where
  localeCompare : Str → Str → Ordering
  refl : ∀ a, localeCompare a a = Ordering.eq
  swap : ∀ a b, localeCompare a b = Ordering.gt ↔ localeCompare b a = Ordering.lt
  trans : ∀ a b c, localeCompare a b ≠ Ordering.gt → localeCompare b c ≠ Ordering.gt →
    localeCompare a c ≠ Ordering.gt

/-- Comparison of two strings by code point, shorter prefix first. -/
def cmpCodePoints : Str → Str → Ordering
  | [], [] => Ordering.eq
  | [], _ :: _ => Ordering.lt
  | _ :: _, [] => Ordering.gt
  | a :: as, b :: bs =>
    if a.toNat < b.toNat then Ordering.lt
    else if b.toNat < a.toNat then Ordering.gt
    else cmpCodePoints as bs

/-- The code point comparison is a collation; it stands for `localeCompare` wherever
a concrete comparison is evaluated. -/
def codePointCollation : Collation where
  localeCompare := cmpCodePoints
  refl := by
    intro a
    induction a with
    | nil => rfl
    | cons c cs ih => simp [cmpCodePoints, ih]
  swap := by
    intro a b
    induction a generalizing b with
    | nil => cases b <;> simp [cmpCodePoints]
    | cons c cs ih =>
      cases b with
      | nil => simp [cmpCodePoints]
      | cons d ds =>
        simp only [cmpCodePoints]
        by_cases h1 : c.toNat < d.toNat
        · have h2 : ¬ d.toNat < c.toNat := by omega
          simp [h1, h2]
        · by_cases h2 : d.toNat < c.toNat
          · simp [h1, h2]
          · simp only [h1, h2, if_false]
            exact ih ds
  trans := by
    intro a b c hab hbc
    induction a generalizing b c with
    | nil => cases c <;> simp [cmpCodePoints]
    | cons x xs ih =>
      cases b with
      | nil => simp [cmpCodePoints] at hab
      | cons y ys =>
        cases c with
        | nil => simp [cmpCodePoints] at hbc
        | cons z zs =>
          simp only [cmpCodePoints] at hab hbc ⊢
          by_cases h1 : x.toNat < y.toNat
          · by_cases h2 : y.toNat < z.toNat
            · have : x.toNat < z.toNat := by omega
              simp [this]
            · by_cases h3 : z.toNat < y.toNat
              · simp [h2, h3] at hbc
              · have : x.toNat < z.toNat := by omega
                simp [this]
          · by_cases h1b : y.toNat < x.toNat
            · simp [h1, h1b] at hab
            · simp only [h1, h1b, if_false] at hab
              by_cases h2 : y.toNat < z.toNat
              · have : x.toNat < z.toNat := by omega
                simp [this]
              · by_cases h3 : z.toNat < y.toNat
                · simp [h2, h3] at hbc
                · simp only [h2, h3, if_false] at hbc
                  have e1 : ¬ x.toNat < z.toNat := by omega
                  have e2 : ¬ z.toNat < x.toNat := by omega
                  simp only [e1, e2, if_false]
                  exact ih ys zs hab hbc

/-- The order `a` before-or-level-with `b` that the comparator
`(a, b) => portName(a).localeCompare(portName(b))` induces on port items. -/
def portLe (C : Collation) (a b : PortItem) : Prop :=
  C.localeCompare (portName a) (portName b) ≠ Ordering.gt

instance (C : Collation) : DecidableRel (portLe C) :=
  fun a b => inferInstanceAs (Decidable (C.localeCompare (portName a) (portName b) ≠ Ordering.gt))

/-- The statement `knownPorts.sort((a,b) => portName(a).localeCompare(portName(b)))`. -/
def sortPorts (C : Collation) (ports : List PortItem) : List PortItem :=
  ports.insertionSort (portLe C)

/-! ## Directory mutation -/

/-- The function `upsertPortItem(name, lat=null, lon=null)`. -/
def upsertPortItem (C : Collation) (knownPorts : List PortItem) (name : Str)
    (lat lon : JsVal) : List PortItem :=
  let n := trim name
  if n = [] then knownPorts
  else
    let updated :=
      match knownPorts.findIdx? (fun p => portName p == n) with
      | some existingIdx =>
        if lat.neNull && lon.neNull then
          knownPorts.set existingIdx
            (PortItem.obj n (JsVal.number lat.toNumber) (JsVal.number lon.toNumber))
        else knownPorts
      | none =>
        knownPorts ++
          [if lat.neNull && lon.neNull then
             PortItem.obj n (JsVal.number lat.toNumber) (JsVal.number lon.toNumber)
           else PortItem.bare n]
    sortPorts C updated

/-- What a call `upsertPortItem(name, lat, lon)` leaves in the slot of the name `n`:
the object `{ name: n, lat: Number(lat), lon: Number(lon) }` when neither is `null`, and otherwise
`slot`, which is the element found there, or the bare name `n` for a new slot. -/
def storedItem (n : Str) (lat lon : JsVal) (slot : PortItem) : PortItem :=
  if lat.neNull && lon.neNull then
    PortItem.obj n (JsVal.number lat.toNumber) (JsVal.number lon.toNumber)
  else slot

/-- The letters A to Z in lower case, every other character unchanged: the action of
`toLowerCase` on unaccented Latin text. -/
def lowerAscii (s : Str) : Str := s.map Char.toLower

/-- The normalised name of a record: trimmed, letter case ignored. -/
def normName (p : PortItem) : Str := lowerAscii (trim (portName p))

/-- A sequence of `upsertPortItem` calls, oldest first, run from `knownPorts`. -/
def upsertAll (C : Collation) (knownPorts : List PortItem)
    (calls : List (Str × JsVal × JsVal)) : List PortItem :=
  calls.foldl (fun ports call => upsertPortItem C ports call.1 call.2.1 call.2.2) knownPorts

/-! ## The Directory with its MRU list -/

/-- The two module-level variables that hold the ports. -/
structure Ports where
  knownPorts : List PortItem
  recentPorts : List Str
  deriving DecidableEq, Repr

/-- The constant `PORTS_RECENT_LIMIT`. -/
def PORTS_RECENT_LIMIT : Nat := 20

/-- The function `deletePort(name)`; `savePorts()` and `refreshPortUI()` write to storage
and to the page and leave the two lists as they are. -/
def deletePort (s : Ports) (name : Str) : Ports :=
  let trimmed := trim name
  if trimmed = [] then s
  else
    { knownPorts := s.knownPorts.filter (fun p => portName p != trimmed)
      recentPorts := s.recentPorts.filter (fun p => p != trimmed) }

/-! ## The name filter -/

/-- The class `[A-Za-z]`. -/
def isAsciiLetter (c : Char) : Bool :=
  (0x41 ≤ c.toNat && c.toNat ≤ 0x5A) || (0x61 ≤ c.toNat && c.toNat ≤ 0x7A)

/-- The class `[A-Za-zÀ-ÿ]` that the filter counts as letters: the Basic Latin letters
and the code points U+00C0 to U+00FF. -/
def isLetter (c : Char) : Bool :=
  isAsciiLetter c || (0xC0 ≤ c.toNat && c.toNat ≤ 0xFF)

/-- The class `[\s\-’'\.]` that the filter counts as separators: white space, hyphen,
the apostrophes U+2019 and U+0027, and the full stop. -/
def isSeparator (c : Char) : Bool :=
  isWhite c || c.toNat == 0x2D || c.toNat == 0x2019 || c.toNat == 0x27 || c.toNat == 0x2E

/-- A word character `\w` of a regular expression: `[A-Za-z0-9_]`. -/
def isWordChar (c : Char) : Bool :=
  isAsciiLetter c || (0x30 ≤ c.toNat && c.toNat ≤ 0x39) || c.toNat == 0x5F

/-- The test `/^[A-Za-z]$/`: the string is one Basic Latin letter. -/
def isLoneLetter : Str → Bool
  | [c] => isAsciiLetter c
  | _ => false

/-- The test `/^st\b/i`: the string starts with `s` or `S`, then `t` or `T`, and then
ends or goes on with a character that is not a word character. -/
def startsWithSt : Str → Bool
  | c0 :: c1 :: rest =>
    (c0 == 's' || c0 == 'S') && (c1 == 't' || c1 == 'T') &&
      (match rest with
       | [] => true
       | c2 :: _ => !isWordChar c2)
  | _ => false

/-- The function `isLikelyRealPortName(name)`. -/
def isLikelyRealPortName (name : Str) : Bool :=
  let n := trim name
  if n = [] then false
  else if jsLength n < 2 then false
  else if isLoneLetter n then false
  else
    let letters := (n.filter isLetter).length
    if letters < 2 then false
    else
      let hasSep := n.any isSeparator
      let isSt := startsWithSt n
      if jsLength n < 4 && !hasSep && !isSt then false
      else true

/-- The function `cleanPortsInPlace()`. -/
def cleanPortsInPlace (s : Ports) : Ports :=
  { knownPorts := s.knownPorts.filter (fun p => isLikelyRealPortName (portName p))
    recentPorts := s.recentPorts.filter (fun p => isLikelyRealPortName p) }

/-- The function `rememberPort(name)`. -/
def rememberPort (s : Ports) (name : Str) : Ports :=
  let trimmed := trim name
  if !isLikelyRealPortName trimmed then s
  else
    match findPortItemByName s.knownPorts trimmed with
    | none => s
    | some _ =>
      let recent := trimmed :: s.recentPorts.filter (fun p => p != trimmed)
      let recent := if recent.length > PORTS_RECENT_LIMIT then recent.take PORTS_RECENT_LIMIT
        else recent
      cleanPortsInPlace { knownPorts := s.knownPorts, recentPorts := recent }

/-! ## Name normalisation and the offline gazetteer -/

/-- The host, beyond `localeCompare`: `String.prototype.toLowerCase`, which on text of
Basic Latin only puts the letters A to Z in lower case and changes nothing else, and
`String.prototype.toUpperCase`, which on text below U+00B5 (the first character above
Basic Latin that has an upper case form) puts the letters a to z in upper case and
changes nothing else. -/
structure Host extends Collation where
  toLowerCase : Str → Str
  toLowerCase_ascii : ∀ s : Str, (∀ c ∈ s, c.toNat < 128) → toLowerCase s = lowerAscii s
  toUpperCase : Str → Str
  toUpperCase_low : ∀ s : Str, (∀ c ∈ s, c.toNat < 181) → toUpperCase s = s.map Char.toUpper

/-- A host that compares by code point and changes the case of the letters A to Z
only. -/
def codePointHost : Host where
  toCollation := codePointCollation
  toLowerCase := lowerAscii
  toLowerCase_ascii := fun _ _ => rfl
  toUpperCase := fun s => s.map Char.toUpper
  toUpperCase_low := fun _ _ => rfl

/-- The replacement `.replace(/\s+/g, " ")`, with `inRun` set while the scan is inside a
run of white space that has already produced its space. -/
def collapseWhiteFrom (inRun : Bool) : Str → Str
  | [] => []
  | c :: cs =>
    if isWhite c then
      if inRun then collapseWhiteFrom true cs else ' ' :: collapseWhiteFrom true cs
    else c :: collapseWhiteFrom false cs

/-- The replacement `.replace(/\s+/g, " ")`. -/
def collapseWhite (s : Str) : Str := collapseWhiteFrom false s

/-- The replacement `.replace(/[,]/g, "")`. -/
def removeCommas (s : Str) : Str := s.filter (fun c => c != ',')

/-- The words of the pattern `(harbour|harbor|marina|port)`, in the order tried. -/
def strippedWords : List Str :=
  ["harbour".toList, "harbor".toList, "marina".toList, "port".toList]

/-- Whether `w` (in lower case) matches at the head of `s` under the flag `i`, with the
boundary `\b` after it: the next character is absent or is not a word character. -/
def wordMatchesAt (w s : Str) : Bool :=
  (lowerAscii (s.take w.length) == w) &&
    (match s.drop w.length with
     | [] => true
     | c :: _ => !isWordChar c)

/-- The length of the match of `(harbour|harbor|marina|port)\b` at the head of `s`. -/
def wordAt (s : Str) : Option Nat :=
  (strippedWords.find? (fun w => wordMatchesAt w s)).map List.length

/-- The replacement `.replace(/\b(harbour|harbor|marina|port)\b/ig, "")`, scanning from
the left.  `prevWord` tells whether the character before the scan position is a word
character; `skip` counts the characters of the current match still to be dropped. -/
def stripWordsFrom (prevWord : Bool) (skip : Nat) : Str → Str
  | [] => []
  | c :: cs =>
    match skip with
    | k + 1 => stripWordsFrom (isWordChar c) k cs
    | 0 =>
      match (if prevWord then none else wordAt (c :: cs)) with
      | some len => stripWordsFrom (isWordChar c) (len - 1) cs
      | none => c :: stripWordsFrom (isWordChar c) 0 cs

/-- The replacement `.replace(/\b(harbour|harbor|marina|port)\b/ig, "")`. -/
def stripWords (s : Str) : Str := stripWordsFrom false 0 s

/-- The function `normalisePortQuery(name)`. -/
def normalisePortQuery (H : Host) (name : Str) : Str :=
  H.toLowerCase (trim (collapseWhite (stripWords (removeCommas (collapseWhite (trim name))))))

/-- The function `normalisePortDisplay(name)`. -/
def normalisePortDisplay (name : Str) : Str := collapseWhite (trim name)

/-- The table `OFFLINE_PORTS`, in source order: key, latitude and longitude in
millionths of a degree. -/
def OFFLINE_PORTS : List (Str × Int × Int) :=
  [("lymington".toList, 50758000, -1540000),
   ("cowes".toList, 50763000, -1297000),
   ("yarmouth".toList, 50705000, -1498000),
   ("portsmouth".toList, 50802000, -1109000),
   ("gosport".toList, 50795000, -1125000),
   ("port solent".toList, 50845000, -1138000),
   ("poole".toList, 50714000, -1985000),
   ("weymouth".toList, 50613000, -2455000),
   ("dartmouth".toList, 50351000, -3579000),
   ("salcombe".toList, 50237000, -3769000),
   ("plymouth".toList, 50366000, -4143000),
   ("falmouth".toList, 50155000, -5073000),
   ("fowey".toList, 50336000, -4638000),
   ("padstow".toList, 50544000, -4936000),
   ("st vaast".toList, 49590000, -1267000),
   ("cherbourg".toList, 49642000, -1622000),
   ("st helier".toList, 49183000, -2105000),
   ("st malo".toList, 48649000, -2025000),
   ("le havre".toList, 49494000, 107000),
   ("honfleur".toList, 49419000, 232000),
   ("dieppe".toList, 49925000, 1078000),
   ("fecamp".toList, 49757000, 374000),
   ("granville".toList, 48839000, -1596000),
   ("roscoff".toList, 48724000, -3984000),
   ("brest".toList, 48390000, -4487000),
   ("concarneau".toList, 47875000, -3917000),
   ("lorient".toList, 47748000, -3366000),
   ("les sables d'olonne".toList, 46496000, -1794000),
   ("la rochelle".toList, 46155000, -1151000),
   ("la rochelle-pallice".toList, 46159000, -1223000),
   ("dunkerque".toList, 51049000, 2377000),
   ("calais".toList, 50958000, 1851000),
   ("deauville".toList, 49363000, 78000),
   ("brighton".toList, 50820000, -142000),
   ("newhaven".toList, 50793000, 55000),
   ("eastbourne".toList, 50770000, 293000),
   ("chichester".toList, 50814000, -876000),
   ("langstone".toList, 50824000, -1012000)]

/-- A result `{name, lat, lon}` of a lookup. -/
structure Coords where
  name : Str
  lat : JsVal
  lon : JsVal
  deriving DecidableEq, Repr

/-- The property read `OFFLINE_PORTS[q]` followed by `.lat` and `.lon`: an own key gives
its entry; the lower-case names `constructor` and `__proto__`, inherited from
`Object.prototype`, give a truthy value without `lat` and `lon`; any other key gives
`undefined`. -/
def offlineEntry (q : Str) : Option (JsVal × JsVal) :=
  match OFFLINE_PORTS.find? (fun e => e.1 == q) with
  | some e => some (deg e.2.1, deg e.2.2)
  | none =>
    if q == "constructor".toList || q == "__proto__".toList then
      some (JsVal.undefined, JsVal.undefined)
    else none

/-- The function `getPortCoords(name)`. -/
def getPortCoords (H : Host) (knownPorts : List PortItem) (name : Str) : Option Coords :=
  let q := normalisePortQuery H name
  if q = [] then none
  else
    let stored := knownPorts.findSome? (fun p =>
      match p with
      | PortItem.bare _ => none
      | PortItem.obj pname lat lon =>
        if lat.neNull && lon.neNull then
          let pn := normalisePortQuery H pname
          if pn != [] && pn == q then
            some { name := if pname = [] then name else pname
                   lat := JsVal.number lat.toNumber
                   lon := JsVal.number lon.toNumber : Coords }
          else none
        else none)
    match stored with
    | some r => some r
    | none =>
      match offlineEntry q with
      | some (la, lo) => some { name := name, lat := la, lon := lo }
      | none =>
        match OFFLINE_PORTS.find? (fun e =>
            q == e.1 || (e.1 ++ [' ']).isPrefixOf q || (q ++ [' ']).isPrefixOf e.1) with
        | some e => some { name := name, lat := deg e.2.1, lon := deg e.2.2 }
        | none => none

/-! ## Online lookup and the flows that save a port

The asynchronous functions are run to completion in one step: what the network and the
user answer is read from a `World`, and no other handler runs between two `await`s. -/

/-- A candidate of a geocoder response after `parseFloat(item.lat)` and
`parseFloat(item.lon)`; `broken` is an element whose fields cannot be read (the read
throws). -/
inductive GeoItem where
  | broken
  | item (lat lon : JsNum)
  deriving DecidableEq, Repr

/-- The outcome of a dialog of the new-port flow: `{action: "save", lat, lon}`, or
anything else (skip). -/
inductive Decision where
  | save (lat lon : JsVal)
  | skip
  deriving DecidableEq, Repr

/-- What lies outside the program during one call: the network, the user, and the
floating-point test `saneForSteeler`, whose trigonometry is not part of this model.
`fetchJson limit q` is the parsed body of the search request for the query text `q`
with `limit` results, and `none` when the request fails, the response is not ok, or
the body is empty or not a list. -/
structure World where
  onLine : Bool
  fetchJson : Nat → Str → Option (List GeoItem)
  saneForSteeler : JsNum → JsNum → Bool
  confirm : Bool
  noMatchModal : Decision
  confirmModal : Decision

/-- The outcome of the loop that picks the first sane candidate. -/
inductive Pick where
  | hit (lat lon : JsNum)
  | miss
  | threw
  deriving DecidableEq, Repr

/-- The loop `for (const item of data)`: the first candidate with both coordinates
not `NaN` and `saneForSteeler` true. -/
def pickSane (sane : JsNum → JsNum → Bool) : List GeoItem → Pick
  | [] => Pick.miss
  | GeoItem.broken :: _ => Pick.threw
  | GeoItem.item la lo :: rest =>
    if !la.isNaN && !lo.isNaN && sane la lo then Pick.hit la lo
    else pickSane sane rest

/-- The argument `opts` of `ensurePortCoords`: `save` is `none` when the property is
absent, and `confirm` is the truth value of `opts.confirm`. -/
structure Opts where
  save : Option Bool
  confirm : Bool
  deriving DecidableEq, Repr

/-- The function `ensurePortCoords(name, opts)`: the state it leaves and the value it
resolves to. -/
def ensurePortCoords (H : Host) (w : World) (s : Ports) (name : Str) (opts : Opts) :
    Ports × Option Coords :=
  let n := trim name
  if n = [] then (s, none)
  else
    match getPortCoords H s.knownPorts n with
    | some existing => (s, some existing)
    | none =>
      if !w.onLine then (s, none)
      else
        match w.fetchJson 3 (normalisePortQuery H n ++ " harbour".toList) with
        | none => (s, none)
        | some [] => (s, none)
        | some data =>
          match pickSane w.saneForSteeler data with
          | Pick.threw => (s, none)
          | Pick.miss => (s, none)
          | Pick.hit lat lon =>
            let shouldSave := opts.save != some false
            let wantConfirm := opts.confirm
            let existingItem := findPortItemByName s.knownPorts n
            let existingHasCoords :=
              match existingItem with
              | some p => portHasCoords p
              | none => false
            let needsConfirm := wantConfirm && (existingItem.isNone || !existingHasCoords)
            let result : Coords :=
              { name := n, lat := JsVal.number lat, lon := JsVal.number lon }
            if shouldSave then
              if needsConfirm then
                if w.confirm then
                  (cleanPortsInPlace
                    { knownPorts := upsertPortItem H.toCollation s.knownPorts n
                        (JsVal.number lat) (JsVal.number lon)
                      recentPorts := s.recentPorts }, some result)
                else (s, some result)
              else
                (cleanPortsInPlace
                  { knownPorts := upsertPortItem H.toCollation s.knownPorts n
                      (JsVal.number lat) (JsVal.number lon)
                    recentPorts := s.recentPorts }, some result)
            else (s, some result)

/-- The query variants of `lookupPortCoordsOnline`, trimmed, the empty ones dropped. -/
def lookupQueries (q0 : Str) : List Str :=
  ([q0 ++ " harbour".toList, q0 ++ " port".toList, "port de ".toList ++ q0,
    q0 ++ " marina".toList, q0 ++ ", france".toList, q0 ++ ", uk".toList].map trim).filter
    (fun q => q != [])

/-- The loop over the query variants: the first sane candidate of the first query that
has one. -/
def lookupLoop (w : World) : List Str → Option (JsNum × JsNum)
  | [] => none
  | q :: rest =>
    match w.fetchJson 5 q with
    | none => lookupLoop w rest
    | some data =>
      match pickSane w.saneForSteeler data with
      | Pick.hit la lo => some (la, lo)
      | _ => lookupLoop w rest

/-- The function `lookupPortCoordsOnline(name)`, without the display name. -/
def lookupPortCoordsOnline (H : Host) (w : World) (name : Str) : Option (JsNum × JsNum) :=
  let n := normalisePortDisplay name
  if n = [] || !w.onLine then none
  else lookupLoop w (lookupQueries (normalisePortQuery H n))

/-- The tail that both saving branches of `maybeSaveNewPort` share:
`upsertPortItem(n, lat, lon); cleanPortsInPlace(); savePorts(); rememberPort(n)`. -/
def saveAndRemember (C : Collation) (s : Ports) (n : Str) (lat lon : JsVal) : Ports :=
  rememberPort
    (cleanPortsInPlace
      { knownPorts := upsertPortItem C s.knownPorts n lat lon
        recentPorts := s.recentPorts }) n

/-- The function `maybeSaveNewPort(name)`: the state it leaves and the value it
resolves to. -/
def maybeSaveNewPort (H : Host) (w : World) (s : Ports) (name : Str) : Ports × Option Coords :=
  let n := normalisePortDisplay name
  if !isLikelyRealPortName n then (s, none)
  else
    let existing := findPortItemByName s.knownPorts n
    match (match existing with
           | some (PortItem.obj pname lat lon) =>
             if portHasCoords (PortItem.obj pname lat lon) then some (lat, lon) else none
           | _ => none) with
    | some (lat, lon) =>
      (rememberPort s n,
        some { name := n, lat := JsVal.number lat.toNumber, lon := JsVal.number lon.toNumber })
    | none =>
      match lookupPortCoordsOnline H w n with
      | none =>
        match w.noMatchModal with
        | Decision.save lat lon =>
          (saveAndRemember H.toCollation s n lat lon, some { name := n, lat := lat, lon := lon })
        | Decision.skip => (s, none)
      | some _ =>
        match w.confirmModal with
        | Decision.save lat lon =>
          (saveAndRemember H.toCollation s n lat lon, some { name := n, lat := lat, lon := lon })
        | Decision.skip => (s, none)

/-! ## The automatic sunrise and sunset preview, as far as it touches the ports -/

/-- The function `isLocalDestination(val)`. -/
def isLocalDestination (H : Host) (val : Str) : Bool :=
  let s := H.toLowerCase (trim val)
  s == [] || s == "local".toList

/-- The function `autoComputeSunriseSetForCurrent()`, reduced to what it does to the two
port lists.  `plan` is `none` when there is no current passage, and otherwise holds the
texts of the date, of the origin and of the destination before trimming.  The two
lookups meet the network one after the other, hence two worlds. -/
def autoComputeSunriseSetForCurrent (H : Host) (wOrigin wDest : World) (s : Ports)
    (plan : Option (Str × Str × Str)) : Ports :=
  match plan with
  | none => s
  | some (dateText, originText, destText) =>
    let date := trim dateText
    let origin := trim originText
    let dest := trim destText
    if date == [] || !isLikelyRealPortName origin then s
    else
      let afterOrigin :=
        (ensurePortCoords H wOrigin s origin { save := some false, confirm := false }).1
      if isLikelyRealPortName dest then
        if isLocalDestination H dest then afterOrigin
        else
          (ensurePortCoords H wDest afterOrigin dest { save := some false, confirm := false }).1
      else afterOrigin

/-! ## The tiers of `getPortCoords`, named -/

/-- Whether the element `p` of `knownPorts` answers the normalised query `q` in the
first tier of `getPortCoords`: an object whose `lat` and `lon` are not `null` and whose
normalised name is not empty and equals `q`. -/
def storedHit (H : Host) (q : Str) (p : PortItem) : Bool :=
  match p with
  | PortItem.bare _ => false
  | PortItem.obj pname lat lon =>
    lat.neNull && lon.neNull && normalisePortQuery H pname != [] &&
      normalisePortQuery H pname == q

/-- The test of the third tier: the key `k` and the query `q` are equal, or one starts
with the other followed by a space. -/
def fuzzyHit (q k : Str) : Bool :=
  q == k || (k ++ [' ']).isPrefixOf q || (q ++ [' ']).isPrefixOf k

/-! ## The sanity radius -/

/-- The comparison `a <= b` of two numbers, false when one of them is `NaN`. -/
def JsNum.le : JsNum → JsNum → Bool
  | JsNum.num a, JsNum.num b => decide (a ≤ b)
  | _, _ => false

/-- The constant `refLat` of `saneForSteeler`, 50.76. -/
def refLat : JsNum := JsNum.num 50760000

/-- The constant `refLon` of `saneForSteeler`, -1.54. -/
def refLon : JsNum := JsNum.num (-1540000)

/-- The function `saneForSteeler(lat, lon)` over a given `distanceKm`.  The haversine
formula of `distanceKm` is double-precision trigonometry and enters as a function; its
result is held in millionths of a kilometre, so that 1500 km is 1500000000. -/
def saneForSteelerOf (distanceKm : JsNum → JsNum → JsNum → JsNum → JsNum)
    (lat lon : JsNum) : Bool :=
  (distanceKm refLat refLon lat lon).le (JsNum.num 1500000000)

/-- A candidate that the loops accept: both coordinates are numbers and the point is
sane. -/
def qualifies (sane : JsNum → JsNum → Bool) (la lo : JsNum) : Bool :=
  !la.isNaN && !lo.isNaN && sane la lo

/-! ## Manual entry of coordinates

In the three handlers `parsed` is the value of `parseLatLon(latIn, lonIn)` for the two
input fields, `none` for `null`. -/

/-- The click handler of the buttons `pcManualSave` (confirm dialog) and `pnmSave`
(no-match dialog): the decision the dialog resolves to, or `none` when the handler
alerts and leaves the dialog open. -/
def dialogManualSave (sane : JsNum → JsNum → Bool) (parsed : Option (JsNum × JsNum)) :
    Option Decision :=
  match parsed with
  | none => none
  | some (lat, lon) =>
    if !sane lat lon then none
    else some (Decision.save (JsVal.number lat) (JsVal.number lon))

/-- The click handler of "Save coords" in the Manage-ports list (`saveBtn`), for the
row of the port `name`: what it leaves in `knownPorts`. -/
def managerSaveCoords (C : Collation) (knownPorts : List PortItem) (name : Str)
    (parsed : Option (JsNum × JsNum)) : List PortItem :=
  match parsed with
  | none => knownPorts
  | some (lat, lon) => upsertPortItem C knownPorts name (JsVal.number lat) (JsVal.number lon)

/-- A distance for the worked examples: 100 km for a latitude between 40 and 60
degrees, 5000 km for any other, `NaN` for `NaN`. -/
def exampleDistanceKm : JsNum → JsNum → JsNum → JsNum → JsNum :=
  fun _ _ lat _ =>
    match lat with
    | JsNum.nan => JsNum.nan
    | JsNum.num v =>
      if 40000000 ≤ v ∧ v ≤ 60000000 then JsNum.num 100000000 else JsNum.num 5000000000

/-- A world for the worked examples of the sanity radius: on line, every search answers
with a candidate at 10 N 10 E followed by one at the position of Poole. -/
def radiusWorld : World where
  onLine := true
  fetchJson := fun _ _ =>
    some [GeoItem.item (JsNum.num 10000000) (JsNum.num 10000000),
          GeoItem.item (JsNum.num 50714000) (JsNum.num (-1985000))]
  saneForSteeler := saneForSteelerOf exampleDistanceKm
  confirm := true
  noMatchModal := Decision.skip
  confirmModal := Decision.skip

/-! ## Parsing of coordinates and dates

A number that a parser returns is a fraction `num / den`.  For a text in decimal
notation it is the exact value of the text, where the code has the double nearest to
it; nothing is computed from that double and it is compared with nothing.  For a text
of degrees and minutes the code computes `deg + (mins/60)` and compares the sum with the
bounds; there the doubles are the doubles of the code, each operation rounded to the
nearest double (ties to even), and a double is held as the fraction it is. -/

/-- The letters a to z in upper case, every other character unchanged. -/
def upperAscii (s : Str) : Str := s.map Char.toUpper

/-- The class `\d`. -/
def isDigit (c : Char) : Bool := 0x30 ≤ c.toNat && c.toNat ≤ 0x39

/-- The value of a string of decimal digits, as `Number`, `parseInt(_, 10)` and the
digits of `parseFloat` read it. -/
def digitsVal (ds : Str) : Nat := ds.foldl (fun acc c => 10 * acc + (c.toNat - 0x30)) 0

/-- An exact number `num / den`, with `den` positive. -/
structure Frac where
  num : Int
  den : Nat
  deriving DecidableEq, Repr

/-- The rational number that a fraction stands for. -/
def Frac.toRat (f : Frac) : ℚ := (f.num : ℚ) / (f.den : ℚ)

/-- The comparison `val < k` with a whole number `k`. -/
def Frac.ltInt (f : Frac) (k : Int) : Bool := decide (f.num < k * f.den)

/-- The comparison `val > k` with a whole number `k`. -/
def Frac.gtInt (f : Frac) (k : Int) : Bool := decide (k * f.den < f.num)

/-- The value `parseFloat` gives a text `-?\d+(\.\d+)?`: sign, digits before and digits
after the point. -/
def decimalValue (neg : Bool) (intD fracD : Str) : Frac :=
  { num := if neg then -(digitsVal (intD ++ fracD) : Int) else (digitsVal (intD ++ fracD) : Int)
    den := 10 ^ fracD.length }

/-- The test `/^-?\d+(\.\d+)?$/` with the parts it finds: whether there is a minus sign,
the digits before the point and the digits after it. -/
def matchDecimal (t : Str) : Option (Bool × Str × Str) :=
  let neg := t.head? == some '-'
  let r := if neg then t.tail else t
  let intD := r.takeWhile isDigit
  if intD == [] then none
  else
    match r.dropWhile isDigit with
    | [] => some (neg, intD, [])
    | c :: fracD =>
      if c == '.' && fracD != [] && fracD.all isDigit then some (neg, intD, fracD)
      else none

/-- A character of the separator `\s*(?:°|\s)\s*` between degrees and minutes. -/
def isSepChar (c : Char) : Bool := isWhite c || c == '°'

/-- A character of the stretch `\s*(?:'|\s)?\s*` between minutes and hemisphere. -/
def isTailChar (c : Char) : Bool := isWhite c || c == '\''

/-- The class `[NSEW]`. -/
def isHemi (c : Char) : Bool := c == 'N' || c == 'S' || c == 'E' || c == 'W'

/-- The match of
`/^(\d{1,3})\s*(?:°|\s)\s*(\d{1,2}(?:\.\d+)?)\s*(?:'|\s)?\s*([NSEW])$/` with its groups:
the digits of the degrees, the digits of the minutes before and after the point, and
the hemisphere letter.  Each stretch of the pattern ends where the next one must begin
with a character of another class, so each is the longest run of its class. -/
def matchDMM (t : Str) : Option (Str × Str × Str × Char) :=
  let degD := t.takeWhile isDigit
  let r1 := t.dropWhile isDigit
  if degD.length < 1 || degD.length > 3 then none
  else
    let sep := r1.takeWhile isSepChar
    let r2 := r1.dropWhile isSepChar
    if sep == [] || (sep.filter (fun c => c == '°')).length > 1 then none
    else
      let minI := r2.takeWhile isDigit
      let r3 := r2.dropWhile isDigit
      if minI.length < 1 || minI.length > 2 then none
      else
        let hasPoint := r3.head? == some '.'
        let minF := if hasPoint then r3.tail.takeWhile isDigit else []
        let r4 := if hasPoint then r3.tail.dropWhile isDigit else r3
        if hasPoint && minF == [] then none
        else
          let gap := r4.takeWhile isTailChar
          if (gap.filter (fun c => c == '\'')).length > 1 then none
          else
            match r4.dropWhile isTailChar with
            | [h] => if isHemi h then some (degD, minI, minF, h) else none
            | _ => none

/-- The exact number `D + M/60` that the text of degrees `D` and minutes `M` spells,
negated for the hemispheres S and W; the code computes `dmmDouble` for it. -/
def dmmValue (degD minI minF : Str) (hemi : Char) : Frac :=
  let n : Int := (digitsVal degD * (60 * 10 ^ minF.length) + digitsVal (minI ++ minF) : Nat)
  { num := if hemi == 'S' || hemi == 'W' then -n else n
    den := 60 * 10 ^ minF.length }

/-- The whole number nearest to `a / b`, the even one of the two when `a / b` lies half
way between them. -/
def roundHalfEven (a b : Nat) : Nat :=
  let q := a / b
  let r := a % b
  if 2 * r < b then q
  else if b < 2 * r then q + 1
  else if q % 2 = 0 then q else q + 1

/-- The search for the number of binary places of the doubles next to `n / d`: the
least `j` from the given one on with `2 ^ 52 ≤ (n / d) * 2 ^ j`, and at most `fuel`
beyond the given one. -/
def binaryPlacesFrom (n d : Nat) : Nat → Nat → Nat
  | 0, j => j
  | fuel + 1, j => if 2 ^ 52 * d ≤ n * 2 ^ j then j else binaryPlacesFrom n d fuel (j + 1)

/-- The number of binary places `k` of the doubles next to a positive `n / d` below
`2 ^ 53`: these doubles are the multiples of `2 ^ (-k)`, where `k` is least with
`2 ^ 52 ≤ (n / d) * 2 ^ k`, and 1074 in the subnormal range. -/
def binaryPlaces (n d : Nat) : Nat := binaryPlacesFrom n d 1074 0

/-- The search for the spacing of the doubles next to `n / d` from `2 ^ 53` on: the
least `s` from the given one on with `n / d < 2 ^ 53 * 2 ^ s`, and at most `fuel` beyond
the given one. -/
def binaryShiftFrom (n d : Nat) : Nat → Nat → Nat
  | 0, s => s
  | fuel + 1, s => if n < 2 ^ 53 * d * 2 ^ s then s else binaryShiftFrom n d fuel (s + 1)

/-- The double nearest to `n / d` (round to nearest, ties to even), as a fraction in
lowest terms, for `n / d` below `2 ^ 1024`, where a double is finite.  Below `2 ^ 53`
the doubles next to `n / d` are the multiples of `2 ^ (-k)` with `k` the number of
binary places; from `2 ^ 53` on they are the multiples of `2 ^ s`. -/
def doubleOfRatio (n d : Nat) : Frac :=
  if n = 0 then { num := 0, den := 1 }
  else if n < 2 ^ 53 * d then
    let k := binaryPlaces n d
    let m := roundHalfEven (n * 2 ^ k) d
    let g := Nat.gcd m (2 ^ k)
    { num := (m / g : Nat), den := 2 ^ k / g }
  else
    let s := binaryShiftFrom n d 1024 1
    { num := (roundHalfEven n (d * 2 ^ s) * 2 ^ s : Nat), den := 1 }

/-- The value `deg + (mins/60)` as the code computes it in double precision:
`parseInt` of the degrees is exact, `parseFloat` of the minutes is the nearest double,
and the quotient and the sum are rounded to the nearest double. -/
def dmmSum (degD minI minF : Str) : Frac :=
  let mins := doubleOfRatio (digitsVal (minI ++ minF)) (10 ^ minF.length)
  let q := doubleOfRatio mins.num.toNat (mins.den * 60)
  doubleOfRatio (digitsVal degD * q.den + q.num.toNat) q.den

/-- The value `val` of `parseCoordPart` after `if (hemi === "S" || hemi === "W") val *= -1`:
the double `dmmSum`, negated for the hemispheres S and W (the `-0` that the code has for
a zero sum is the fraction 0). -/
def dmmDouble (degD minI minF : Str) (hemi : Char) : Frac :=
  let v := dmmSum degD minI minF
  if hemi == 'S' || hemi == 'W' then { num := -v.num, den := v.den } else v

/-- The function `parseCoordPart(s, isLat)`; `none` is `NaN`. -/
def parseCoordPart (H : Host) (s : Str) (isLat : Bool) : Option Frac :=
  if s == [] then none
  else
    let t := H.toUpperCase (trim s)
    match matchDecimal t with
    | some (neg, intD, fracD) => some (decimalValue neg intD fracD)
    | none =>
      match matchDMM t with
      | none => none
      | some (degD, minI, minF, hemi) =>
        let val := dmmDouble degD minI minF hemi
        if isLat && (val.ltInt (-90) || val.gtInt 90) then none
        else if !isLat && (val.ltInt (-180) || val.gtInt 180) then none
        else some val

/-- The function `parseLatLon(latStr, lonStr)`. -/
def parseLatLon (H : Host) (latStr lonStr : Str) : Option (Frac × Frac) :=
  match parseCoordPart H latStr true, parseCoordPart H lonStr false with
  | some lat, some lon => some (lat, lon)
  | _, _ => none

/-- The function `parseISODate(iso)`: the test
`/^\s*(\d{4})-(\d{2})-(\d{2})\s*$/`, then `Number` of the three groups, none of which
may be zero. -/
def parseISODate (iso : Str) : Option (Nat × Nat × Nat) :=
  match iso.dropWhile isWhite with
  | y1 :: y2 :: y3 :: y4 :: h1 :: m1 :: m2 :: h2 :: d1 :: d2 :: rest =>
    if [y1, y2, y3, y4, m1, m2, d1, d2].all isDigit && h1 == '-' && h2 == '-' &&
        rest.all isWhite then
      let y := digitsVal [y1, y2, y3, y4]
      let mo := digitsVal [m1, m2]
      let d := digitsVal [d1, d2]
      if y == 0 || mo == 0 || d == 0 then none else some (y, mo, d)
    else none
  | _ => none

/-- The function `calcSunTimes(isoDate, lat, lon)`.  `sunMinutes` stands for
`calcSunTimeUtcMinutes(isRise, y, mo, d, lat, lon)`, which is double-precision
trigonometry: `none` is its `null`.  The result holds the minutes of sunrise and of
sunset after 00:00 UTC, from which the two clock times are formatted. -/
def calcSunTimes (sunMinutes : Bool → Nat → Nat → Nat → JsVal → JsVal → Option JsNum)
    (isoDate : Str) (lat lon : JsVal) : Option (JsNum × JsNum) :=
  match parseISODate isoDate with
  | none => none
  | some (y, mo, d) =>
    match sunMinutes true y mo d lat lon, sunMinutes false y mo d lat lon with
    | some riseMin, some setMin => some (riseMin, setMin)
    | _, _ => none

/-- The text `pre ys-ms-ds post` of a date in the form YYYY-MM-DD: four, two and two
digits, with white space allowed around it; `y`, `mo` and `d` are the numbers the digits
spell. -/
def IsoDateText (iso : Str) (y mo d : Nat) : Prop :=
  ∃ pre ys ms ds post : Str,
    iso = pre ++ ys ++ '-' :: ms ++ '-' :: ds ++ post ∧
    (∀ c ∈ pre, isWhite c = true) ∧ (∀ c ∈ post, isWhite c = true) ∧
    ys.length = 4 ∧ ms.length = 2 ∧ ds.length = 2 ∧
    (∀ c ∈ ys ++ ms ++ ds, isDigit c = true) ∧
    y = digitsVal ys ∧ mo = digitsVal ms ∧ d = digitsVal ds

/-- The text of a signed decimal: an optional minus sign, digits, and optionally a
point followed by digits. -/
def decimalText (neg : Bool) (intD fracD : Str) : Str :=
  (if neg then ['-'] else []) ++ intD ++ (if fracD = [] then [] else '.' :: fracD)

/-- The parts of a signed decimal: at least one digit before the point, digits only. -/
def IsDecimalParts (intD fracD : Str) : Prop :=
  intD ≠ [] ∧ ∀ c ∈ intD ++ fracD, isDigit c = true

/-- The text of degrees and minutes with a hemisphere letter: digits of the degrees, a
separator, the minutes with an optional decimal part, an optional gap, the letter. -/
def dmmText (degD sep minI minF gap : Str) (hemi : Char) : Str :=
  degD ++ sep ++ minI ++ (if minF = [] then [] else '.' :: minF) ++ gap ++ [hemi]

/-- The parts of such a text: 1 to 3 digits of degrees; a separator that is one degree
sign or white space, with white space allowed around it; 1 or 2 digits of minutes and
any number of decimals; a gap of white space with at most one apostrophe; one of the
letters N, S, E, W. -/
def IsDmmParts (degD sep minI minF gap : Str) (hemi : Char) : Prop :=
  1 ≤ degD.length ∧ degD.length ≤ 3 ∧ (∀ c ∈ degD, isDigit c = true) ∧
  sep ≠ [] ∧ (∀ c ∈ sep, isSepChar c = true) ∧ (sep.filter (fun c => c == '°')).length ≤ 1 ∧
  1 ≤ minI.length ∧ minI.length ≤ 2 ∧ (∀ c ∈ minI ++ minF, isDigit c = true) ∧
  (∀ c ∈ gap, isTailChar c = true) ∧ (gap.filter (fun c => c == '\'')).length ≤ 1 ∧
  isHemi hemi = true

/-- The range test of `parseCoordPart` on a value: within 90 of zero for a latitude,
within 180 for a longitude. -/
def inRange (isLat : Bool) (val : Frac) : Bool :=
  if isLat then !(val.ltInt (-90) || val.gtInt 90)
  else !(val.ltInt (-180) || val.gtInt 180)

/-! ## Suggestions for the port fields -/

/-- The method `s.startsWith(q)`. -/
def startsWith : Str → Str → Bool
  | _, [] => true
  | [], _ :: _ => false
  | c :: cs, d :: ds => c == d && startsWith cs ds

/-- The method `s.includes(q)`: `q` starts at some position of `s`. -/
def includes : Str → Str → Bool
  | [], q => startsWith [] q
  | c :: cs, q => startsWith (c :: cs) q || includes cs q

/-- The comparator of the sort in `getPortSuggestions`, as the sign of the number it
returns: names that start with `q` first, then `localeCompare` of the lower-cased
names. -/
def suggestCompare (H : Host) (q : Str) (a b : PortItem) : Ordering :=
  let an := H.toLowerCase (portName a)
  let bn := H.toLowerCase (portName b)
  let aStart : Nat := if startsWith an q then 0 else 1
  let bStart : Nat := if startsWith bn q then 0 else 1
  if aStart ≠ bStart then (if aStart < bStart then Ordering.lt else Ordering.gt)
  else H.localeCompare an bn

/-- The order `a` before-or-level-with `b` that the comparator induces. -/
def suggestLe (H : Host) (q : Str) (a b : PortItem) : Prop :=
  suggestCompare H q a b ≠ Ordering.gt

instance (H : Host) (q : Str) : DecidableRel (suggestLe H q) :=
  fun a b => inferInstanceAs (Decidable (suggestCompare H q a b ≠ Ordering.gt))

/-- The loop `for (const p of list)` of `getPortSuggestions`, from the state `seen`,
`out`: a name not yet seen is added to both, and the loop ends when `out` holds 6
names. -/
def collectUnique : List PortItem → List Str → List Str → List Str
  | [], _, out => out
  | p :: rest, seen, out =>
    let name := portName p
    let fresh := !seen.contains name
    let seen1 := if fresh then name :: seen else seen
    let out1 := if fresh then out ++ [name] else out
    if out1.length ≥ 6 then out1 else collectUnique rest seen1 out1

/-- The function `getPortSuggestions(query)`.  The elements of `recentPorts` are strings,
which as elements of `list` are bare names. -/
def getPortSuggestions (H : Host) (s : Ports) (query : Str) : List Str :=
  let q := H.toLowerCase (trim query)
  let list :=
    if q = [] then
      (if s.recentPorts.length ≠ 0 then s.recentPorts.map PortItem.bare else s.knownPorts)
    else
      (s.knownPorts.filter (fun p => includes (H.toLowerCase (portName p)) q)).insertionSort
        (suggestLe H q)
  collectUnique list [] []

/-- The distinct names of a list, each at the place of its first occurrence. -/
def firstDistinct : List Str → List Str
  | [] => []
  | x :: xs => x :: (firstDistinct xs).filter (fun y => y != x)

/-- The name `x` ranks before or level with the name `y` for the query `q`: `x` starts
with `q` and `y` does not, or both do or both do not and the lower-cased `x` is not
after the lower-cased `y` in the collation. -/
def ranksBefore (H : Host) (q x y : Str) : Prop :=
  (startsWith (H.toLowerCase x) q = true ∧ startsWith (H.toLowerCase y) q = false) ∨
  (startsWith (H.toLowerCase x) q = startsWith (H.toLowerCase y) q ∧
    H.localeCompare (H.toLowerCase x) (H.toLowerCase y) ≠ Ordering.gt)

/-- The list that the loop of `getPortSuggestions` runs over, for a query that is not
blank: the matching records, sorted. -/
def matchesSorted (H : Host) (s : Ports) (q : Str) : List PortItem :=
  (s.knownPorts.filter (fun p => includes (H.toLowerCase (portName p)) q)).insertionSort
    (suggestLe H q)

/-- A sequence of `rememberPort` calls, oldest first, run from the state `s`. -/
def rememberAll (s : Ports) (names : List Str) : Ports :=
  names.foldl rememberPort s

/-- Every name in `recentPorts` is the name of some record in `knownPorts`. -/
def recentWithinDirectory (s : Ports) : Prop :=
  ∀ r ∈ s.recentPorts, ∃ p ∈ s.knownPorts, portName p = r

instance (s : Ports) : Decidable (recentWithinDirectory s) :=
  inferInstanceAs (Decidable (∀ r ∈ s.recentPorts, ∃ p ∈ s.knownPorts, portName p = r))

/-! ## Predicates used in the statements -/

/-- Every name in `knownPorts` and in `recentPorts` passes `isLikelyRealPortName`. -/
def namesLikely (s : Ports) : Prop :=
  (∀ p ∈ s.knownPorts, isLikelyRealPortName (portName p) = true) ∧
  (∀ r ∈ s.recentPorts, isLikelyRealPortName r = true)

instance (s : Ports) : Decidable (namesLikely s) :=
  inferInstanceAs (Decidable (_ ∧ _))

/-- A world for the worked examples: on line, every search answers with one candidate
at the position of Poole, every candidate counts as sane, and the user agrees to save. -/
def exampleWorld : World where
  onLine := true
  fetchJson := fun _ _ => some [GeoItem.item (JsNum.num 50714000) (JsNum.num (-1985000))]
  saneForSteeler := fun _ _ => true
  confirm := true
  noMatchModal := Decision.save (deg 50714000) (deg (-1985000))
  confirmModal := Decision.save (deg 50714000) (deg (-1985000))

/-- Twenty-one names, "Port A" to "Port U", for the worked examples. -/
def exampleNames : List Str :=
  (List.range 21).map (fun i => "Port ".toList ++ [Char.ofNat (65 + i)])

/-! ## Lemmas on trimming -/

theorem dropWhile_white_append (pre x : Str) (h : ∀ c ∈ pre, isWhite c = true) :
    (pre ++ x).dropWhile isWhite = x.dropWhile isWhite := by
  induction pre with
  | nil => rfl
  | cons c cs ih =>
    have hc : isWhite c = true := h c (List.mem_cons_self _ _)
    simp only [List.cons_append, List.dropWhile_cons, hc, if_true]
    exact ih (fun d hd => h d (List.mem_cons_of_mem _ hd))

theorem dropWhile_white_all (x : Str) (h : ∀ c ∈ x, isWhite c = true) :
    x.dropWhile isWhite = [] := by
  have := dropWhile_white_append x [] h
  simpa using this

theorem dropWhile_append_cases (a post : Str) :
    (a.dropWhile isWhite = [] ∧ (a ++ post).dropWhile isWhite = post.dropWhile isWhite) ∨
    (a.dropWhile isWhite ≠ [] ∧
      (a ++ post).dropWhile isWhite = a.dropWhile isWhite ++ post) := by
  induction a with
  | nil => left; exact ⟨rfl, rfl⟩
  | cons c cs ih =>
    by_cases hc : isWhite c = true
    · simpa only [List.cons_append, List.dropWhile_cons, hc, if_true] using ih
    · right
      simp only [List.cons_append, List.dropWhile_cons, hc]
      simp

/-- Trimming is blind to white space added in front of and behind a string. -/
theorem trim_pad (pre a post : Str) (hpre : ∀ c ∈ pre, isWhite c = true)
    (hpost : ∀ c ∈ post, isWhite c = true) : trim (pre ++ a ++ post) = trim a := by
  unfold trim
  rw [List.append_assoc, dropWhile_white_append pre _ hpre]
  rcases dropWhile_append_cases a post with ⟨h1, h2⟩ | ⟨_, h2⟩
  · rw [h2, h1, dropWhile_white_all post hpost]
  · rw [h2, List.reverse_append,
      dropWhile_white_append post.reverse _ (fun c hc => hpost c (List.mem_reverse.mp hc))]

theorem dropWhile_white_fix (l : Str) (h : ∀ c ∈ l.head?, isWhite c = false) :
    l.dropWhile isWhite = l := by
  cases l with
  | nil => rfl
  | cons c cs =>
    have hc : isWhite c = false := h c (by simp)
    simp [List.dropWhile_cons, hc]

theorem trim_trim (s : Str) : trim (trim s) = trim s := by
  unfold trim
  set d := s.dropWhile isWhite with hd
  set e := d.reverse.dropWhile isWhite with he
  have hsuf : e <:+ d.reverse := List.dropWhile_suffix _
  obtain ⟨w, hw⟩ := hsuf
  have hdw : d = e.reverse ++ w.reverse := by
    have := congrArg List.reverse hw
    simpa using this.symm
  have hhead : ∀ c ∈ e.reverse.head?, isWhite c = false := by
    intro c hc
    cases hr : e.reverse with
    | nil => rw [hr] at hc; simp at hc
    | cons x xs =>
      rw [hr] at hc hdw
      have hx : x = c := by simpa using hc
      have h1 := List.head?_dropWhile_not isWhite s
      rw [← hd, hdw] at h1
      simp at h1
      rw [← hx]; simpa using h1
  rw [dropWhile_white_fix _ hhead, List.reverse_reverse]
  have h2 : ∀ c ∈ e.head?, isWhite c = false := by
    intro c hc
    have h1 := List.head?_dropWhile_not isWhite d.reverse
    rw [← he] at h1
    cases hr : e with
    | nil => rw [hr] at hc; simp at hc
    | cons x xs =>
      rw [hr] at hc h1
      have hx : x = c := by simpa using hc
      simp at h1
      rw [← hx]; simpa using h1
  rw [dropWhile_white_fix _ h2]

/-! ## Lemmas on searching and sorting -/

theorem findIdx?_some_split {α : Type} (p : α → Bool) (l : List α) (i : Nat)
    (h : l.findIdx? p = some i) :
    ∃ pre x post, l = pre ++ x :: post ∧ pre.length = i ∧ p x = true ∧
      ∀ y ∈ pre, p y = false := by
  induction l generalizing i with
  | nil => simp at h
  | cons a as ih =>
    rw [List.findIdx?_cons] at h
    by_cases hp : p a = true
    · simp only [hp, if_true, Option.some.injEq] at h
      exact ⟨[], a, as, rfl, by simpa using h, hp, by simp⟩
    · simp only [hp] at h
      rw [List.findIdx?_succ] at h
      cases hq : as.findIdx? p with
      | none => rw [hq] at h; simp at h
      | some j =>
        rw [hq] at h
        simp at h
        obtain ⟨pre, x, post, hl, hlen, hx, hpre⟩ := ih j hq
        refine ⟨a :: pre, x, post, by simp [hl], by simp [hlen, h], hx, ?_⟩
        intro y hy
        rcases List.mem_cons.mp hy with rfl | hy
        · simpa using hp
        · exact hpre y hy

theorem portLe_total (C : Collation) (a b : PortItem) : portLe C a b ∨ portLe C b a := by
  unfold portLe
  by_cases h : C.localeCompare (portName a) (portName b) = Ordering.gt
  · right
    rw [(C.swap _ _).mp h]
    decide
  · left; exact h

instance (C : Collation) : IsTotal PortItem (portLe C) := ⟨portLe_total C⟩

instance (C : Collation) : IsTrans PortItem (portLe C) :=
  ⟨fun _ _ _ hab hbc => C.trans _ _ _ hab hbc⟩

theorem portLe_of_name_eq (C : Collation) (a b : PortItem) (h : portName a = portName b) :
    portLe C a b := by
  unfold portLe
  rw [h, C.refl]
  decide

theorem sortPorts_perm (C : Collation) (l : List PortItem) : (sortPorts C l).Perm l :=
  List.perm_insertionSort _ l

theorem sortPorts_sorted (C : Collation) (l : List PortItem) :
    (sortPorts C l).Sorted (portLe C) :=
  List.sorted_insertionSort _ l

theorem sortPorts_of_sorted (C : Collation) (l : List PortItem) (h : l.Sorted (portLe C)) :
    sortPorts C l = l :=
  List.Sorted.insertionSort_eq h

theorem sortPorts_idem (C : Collation) (l : List PortItem) :
    sortPorts C (sortPorts C l) = sortPorts C l :=
  sortPorts_of_sorted C _ (sortPorts_sorted C l)

theorem find?_orderedInsert (C : Collation) (n : Str) (x : PortItem) (l : List PortItem) :
    (l.orderedInsert (portLe C) x).find? (fun p => portName p == n)
      = (x :: l).find? (fun p => portName p == n) := by
  induction l with
  | nil => rfl
  | cons y ys ih =>
    rw [List.orderedInsert]
    by_cases hr : portLe C x y
    · rw [if_pos hr]
    · rw [if_neg hr]
      by_cases hx : portName x = n
      · by_cases hy : portName y = n
        · exact absurd (portLe_of_name_eq C x y (hx.trans hy.symm)) hr
        · rw [List.find?_cons_of_neg _ (by simpa using hy), ih]
          simp [List.find?_cons, hx, hy]
      · by_cases hy : portName y = n
        · simp [List.find?_cons, hx, hy]
        · rw [List.find?_cons_of_neg _ (by simpa using hy), ih]
          simp [List.find?_cons, hx, hy]

theorem find?_sortPorts (C : Collation) (n : Str) (l : List PortItem) :
    (sortPorts C l).find? (fun p => portName p == n)
      = l.find? (fun p => portName p == n) := by
  induction l with
  | nil => rfl
  | cons x xs ih =>
    show ((xs.insertionSort (portLe C)).orderedInsert (portLe C) x).find? _ = _
    rw [find?_orderedInsert]
    have ih2 : (xs.insertionSort (portLe C)).find? (fun p => portName p == n)
        = xs.find? (fun p => portName p == n) := ih
    simp only [List.find?_cons, ih2]

theorem find?_split (n : Str) (l : List PortItem) (x : PortItem)
    (h : l.find? (fun p => portName p == n) = some x) :
    ∃ pre post, l = pre ++ x :: post ∧ (∀ y ∈ pre, portName y ≠ n) ∧ portName x = n ∧
      l.findIdx? (fun p => portName p == n) = some pre.length := by
  induction l with
  | nil => simp at h
  | cons a as ih =>
    by_cases ha : portName a = n
    · have : a = x := by simpa [List.find?_cons, ha] using h
      subst this
      exact ⟨[], as, rfl, by simp, ha, by simp [List.findIdx?_cons, ha]⟩
    · have h2 : as.find? (fun p => portName p == n) = some x := by
        simpa [List.find?_cons, ha] using h
      obtain ⟨pre, post, hl, hpre, hx, hidx⟩ := ih h2
      refine ⟨a :: pre, post, by simp [hl], ?_, hx, ?_⟩
      · intro y hy
        rcases List.mem_cons.mp hy with rfl | hy
        · exact ha
        · exact hpre y hy
      · rw [List.findIdx?_cons]
        simp only [beq_iff_eq, ha, if_false]
        rw [List.findIdx?_succ, hidx]
        simp

theorem find?_none_findIdx? (n : Str) (l : List PortItem)
    (h : l.find? (fun p => portName p == n) = none) :
    l.findIdx? (fun p => portName p == n) = none := by
  rw [List.findIdx?_eq_none_iff]
  intro x hx
  have := List.find?_eq_none.mp h x hx
  simpa using this

theorem set_split {α : Type} (pre post : List α) (x y : α) :
    (pre ++ x :: post).set pre.length y = pre ++ y :: post := by
  induction pre with
  | nil => rfl
  | cons a as ih => simp [ih]

/-- The effect of `upsertPortItem` when a record of the name is present. -/
theorem upsert_of_find (C : Collation) (l : List PortItem) (name : Str)
    (lat lon : JsVal) (hn : trim name ≠ []) (x : PortItem)
    (hx : l.find? (fun p => portName p == trim name) = some x) :
    ∃ pre post, l = pre ++ x :: post ∧ (∀ y ∈ pre, portName y ≠ trim name) ∧
      portName x = trim name ∧
      upsertPortItem C l name lat lon
        = sortPorts C (pre ++ storedItem (trim name) lat lon x :: post) := by
  obtain ⟨pre, post, hl, hpre, hxn, hidx⟩ := find?_split (trim name) l x hx
  refine ⟨pre, post, hl, hpre, hxn, ?_⟩
  unfold upsertPortItem
  simp only [hn, if_false, hidx, storedItem]
  by_cases hc : (lat.neNull && lon.neNull) = true
  · simp only [hc, if_true]
    rw [hl, set_split]
  · simp only [hc, if_false, Bool.false_eq_true]
    rw [hl]

/-- The effect of `upsertPortItem` when no record of the name is present. -/
theorem upsert_of_not_find (C : Collation) (l : List PortItem) (name : Str)
    (lat lon : JsVal) (hn : trim name ≠ [])
    (hx : l.find? (fun p => portName p == trim name) = none) :
    upsertPortItem C l name lat lon
      = sortPorts C (l ++ [storedItem (trim name) lat lon (PortItem.bare (trim name))]) := by
  unfold upsertPortItem
  simp only [hn, if_false, find?_none_findIdx? _ _ hx, storedItem]

theorem portName_storedItem (n : Str) (lat lon : JsVal) (x : PortItem)
    (hx : portName x = n) : portName (storedItem n lat lon x) = n := by
  unfold storedItem
  split
  · rfl
  · exact hx

theorem storedItem_idem (n : Str) (lat lon : JsVal) (x : PortItem) :
    storedItem n lat lon (storedItem n lat lon x) = storedItem n lat lon x := by
  unfold storedItem
  by_cases hc : (lat.neNull && lon.neNull) = true
  · simp only [hc, if_true]
  · simp only [hc, if_false, Bool.false_eq_true]

/-- After `upsertPortItem` the first record of the name is the stored item. -/
theorem find?_upsert (C : Collation) (l : List PortItem) (name : Str)
    (lat lon : JsVal) (hn : trim name ≠ []) :
    (upsertPortItem C l name lat lon).find? (fun p => portName p == trim name)
      = some (storedItem (trim name) lat lon
          ((l.find? (fun p => portName p == trim name)).getD (PortItem.bare (trim name)))) := by
  cases hx : l.find? (fun p => portName p == trim name) with
  | none =>
    rw [upsert_of_not_find C l name lat lon hn hx, find?_sortPorts, List.find?_append, hx]
    have hs := portName_storedItem (trim name) lat lon (PortItem.bare (trim name)) rfl
    simp [List.find?_cons, hs]
  | some x =>
    obtain ⟨pre, post, _, hpre, hxn, hu⟩ := upsert_of_find C l name lat lon hn x hx
    rw [hu, find?_sortPorts, List.find?_append]
    have h1 : pre.find? (fun p => portName p == trim name) = none := by
      rw [List.find?_eq_none]
      intro y hy
      simpa using hpre y hy
    rw [h1]
    have hs := portName_storedItem (trim name) lat lon x hxn
    simp [List.find?_cons, hs]

theorem findPortItemByName_eq (l : List PortItem) (name : Str) (hn : trim name ≠ []) :
    findPortItemByName l name = l.find? (fun p => portName p == trim name) := by
  simp [findPortItemByName, hn]

theorem findPortItemByName_some (l : List PortItem) (name : Str) (r : PortItem)
    (h : findPortItemByName l name = some r) :
    trim name ≠ [] ∧ l.find? (fun p => portName p == trim name) = some r := by
  unfold findPortItemByName at h
  by_cases hn : trim name = []
  · simp [hn] at h
  · exact ⟨hn, by simpa [hn] using h⟩

theorem names_nodup_upsert (C : Collation) (l : List PortItem) (name : Str)
    (lat lon : JsVal) (h : (l.map portName).Nodup) :
    ((upsertPortItem C l name lat lon).map portName).Nodup := by
  by_cases hn : trim name = []
  · simpa [upsertPortItem, hn] using h
  · cases hx : l.find? (fun p => portName p == trim name) with
    | none =>
      rw [upsert_of_not_find C l name lat lon hn hx]
      rw [((sortPorts_perm C _).map portName).nodup_iff]
      have hs := portName_storedItem (trim name) lat lon (PortItem.bare (trim name)) rfl
      rw [List.map_append, List.map_singleton, hs]
      refine List.Nodup.append h (List.nodup_singleton _) ?_
      intro a ha hb
      have hb2 : a = trim name := by simpa using hb
      obtain ⟨y, hy, hya⟩ := List.mem_map.mp ha
      have := List.find?_eq_none.mp hx y hy
      simp [hya, hb2] at this
    | some x =>
      obtain ⟨pre, post, hl, _, hxn, hu⟩ := upsert_of_find C l name lat lon hn x hx
      rw [hu, ((sortPorts_perm C _).map portName).nodup_iff]
      have hs := portName_storedItem (trim name) lat lon x hxn
      have : (pre ++ storedItem (trim name) lat lon x :: post).map portName
          = l.map portName := by
        rw [hl]; simp [hs, hxn]
      rw [this]; exact h

theorem names_trimmed_upsert (C : Collation) (l : List PortItem) (name : Str)
    (lat lon : JsVal) (h : ∀ p ∈ l, trim (portName p) = portName p) :
    ∀ p ∈ upsertPortItem C l name lat lon, trim (portName p) = portName p := by
  by_cases hn : trim name = []
  · simpa [upsertPortItem, hn] using h
  · intro p hp
    cases hx : l.find? (fun p => portName p == trim name) with
    | none =>
      rw [upsert_of_not_find C l name lat lon hn hx] at hp
      have hp2 := (sortPorts_perm C _).mem_iff.mp hp
      rcases List.mem_append.mp hp2 with hp3 | hp3
      · exact h p hp3
      · have : p = storedItem (trim name) lat lon (PortItem.bare (trim name)) := by
          simpa using hp3
        rw [this, portName_storedItem (trim name) lat lon (PortItem.bare (trim name)) rfl, trim_trim]
    | some x =>
      obtain ⟨pre, post, hl, _, hxn, hu⟩ := upsert_of_find C l name lat lon hn x hx
      rw [hu] at hp
      have hp2 := (sortPorts_perm C _).mem_iff.mp hp
      rcases List.mem_append.mp hp2 with hp3 | hp3
      · exact h p (by rw [hl]; exact List.mem_append_left _ hp3)
      · rcases List.mem_cons.mp hp3 with hp4 | hp4
        · rw [hp4, portName_storedItem (trim name) lat lon x hxn, trim_trim]
        · exact h p (by rw [hl]; exact List.mem_append_right _ (List.mem_cons_of_mem _ hp4))

theorem names_nodup_upsertAll (C : Collation) (calls : List (Str × JsVal × JsVal))
    (l : List PortItem) (h : (l.map portName).Nodup) :
    ((upsertAll C l calls).map portName).Nodup := by
  induction calls generalizing l with
  | nil => exact h
  | cons c cs ih =>
    exact ih _ (names_nodup_upsert C l c.1 c.2.1 c.2.2 h)

theorem names_trimmed_upsertAll (C : Collation)
    (calls : List (Str × JsVal × JsVal)) (l : List PortItem)
    (h : ∀ p ∈ l, trim (portName p) = portName p) :
    ∀ p ∈ upsertAll C l calls, trim (portName p) = portName p := by
  induction calls generalizing l with
  | nil => exact h
  | cons c cs ih =>
    exact ih _ (names_trimmed_upsert C l c.1 c.2.1 c.2.2 h)

/-! ## Claims -/

/-- C1 (as the code has it): `findPortItemByName` matches the trimmed argument exactly
(letter case included), so in every Directory state two names that differ only in white
space in front and behind find the same record. -/
theorem C1_find_ignores_outer_whitespace (knownPorts : List PortItem) (pre a post : Str)
    (hpre : ∀ c ∈ pre, isWhite c = true) (hpost : ∀ c ∈ post, isWhite c = true) :
    findPortItemByName knownPorts (pre ++ a ++ post) = findPortItemByName knownPorts a := by
  unfold findPortItemByName
  rw [trim_pad pre a post hpre hpost]

/-- C1, at a concrete input: with "Le Havre" stored, " Le Havre " finds the record that
"Le Havre" finds. -/
theorem C1_find_ignores_outer_whitespace_witness :
    (∀ c ∈ " ".toList, isWhite c = true) ∧
    findPortItemByName [PortItem.bare "Le Havre".toList] (" ".toList ++ "Le Havre".toList ++ " ".toList)
      = findPortItemByName [PortItem.bare "Le Havre".toList] "Le Havre".toList ∧
    findPortItemByName [PortItem.bare "Le Havre".toList] "Le Havre".toList
      = some (PortItem.bare "Le Havre".toList) :=
  ⟨by decide,
   C1_find_ignores_outer_whitespace [PortItem.bare "Le Havre".toList] " ".toList
     "Le Havre".toList " ".toList (by decide) (by decide),
   by decide⟩

/-- C1 (as stated) fails: with "Le Havre" stored, `findPortItemByName("Le Havre")` returns
the record and `findPortItemByName(" le havre ")` returns `null`, although the two names
differ only in letter case and outer white space. -/
theorem C1_case_counterexample :
    lowerAscii (trim " le havre ".toList) = lowerAscii (trim "Le Havre".toList) ∧
    findPortItemByName [PortItem.bare "Le Havre".toList] "Le Havre".toList
      = some (PortItem.bare "Le Havre".toList) ∧
    findPortItemByName [PortItem.bare "Le Havre".toList] " le havre ".toList = none := by
  decide

/-- C2 (as the code has it): names are compared exactly.  If `knownPorts` holds at most
one record per name, it still does after `upsertPortItem`, for every name and coordinates,
and after every sequence of calls; after any sequence of calls from the empty Directory no
two records have names that are equal after trimming. -/
theorem C2_upsert_keeps_names_unique (C : Collation) (knownPorts : List PortItem)
    (name : Str) (lat lon : JsVal)
    (calls : List (Str × JsVal × JsVal))
    (h : (knownPorts.map portName).Nodup) :
    ((upsertPortItem C knownPorts name lat lon).map portName).Nodup ∧
    ((upsertAll C knownPorts calls).map portName).Nodup ∧
    ((upsertAll C [] calls).map (fun p => trim (portName p))).Nodup := by
  refine ⟨names_nodup_upsert C knownPorts name lat lon h,
    names_nodup_upsertAll C calls knownPorts h, ?_⟩
  have h1 := names_nodup_upsertAll C calls [] (by simp)
  have h2 := names_trimmed_upsertAll C calls [] (by simp)
  have : (upsertAll C [] calls).map (fun p => trim (portName p))
      = (upsertAll C [] calls).map portName :=
    List.map_congr_left h2
  rw [this]; exact h1

/-- C2, at a concrete input: a second call for "Poole" leaves one record of that name. -/
theorem C2_upsert_keeps_names_unique_witness :
    ([PortItem.bare "Poole".toList].map portName).Nodup ∧
    (upsertPortItem codePointCollation [PortItem.bare "Poole".toList] " Poole".toList
      (deg 50714000) (deg (-1985000)))
      = [PortItem.obj "Poole".toList (deg 50714000) (deg (-1985000))] ∧
    ((upsertPortItem codePointCollation [PortItem.bare "Poole".toList] " Poole".toList
      (deg 50714000) (deg (-1985000))).map portName).Nodup :=
  ⟨by decide, by decide,
   (C2_upsert_keeps_names_unique codePointCollation [PortItem.bare "Poole".toList]
      " Poole".toList (deg 50714000) (deg (-1985000)) []
      (by decide)).1⟩

/-- C2 (as stated) fails: the Directory holding "le havre" has one record per normalised
name; after `upsertPortItem("Le Havre")` it holds two records whose names are equal
after trimming and ignoring letter case. -/
theorem C2_case_counterexample :
    ([PortItem.bare "le havre".toList].map normName).Nodup ∧
    (upsertPortItem codePointCollation [PortItem.bare "le havre".toList] "Le Havre".toList
      JsVal.null JsVal.null) = [PortItem.bare "Le Havre".toList, PortItem.bare "le havre".toList] ∧
    ¬ ((upsertPortItem codePointCollation [PortItem.bare "le havre".toList]
      "Le Havre".toList JsVal.null JsVal.null).map normName).Nodup := by
  decide

/-- C3: a call `upsertPortItem(name, lat, lon)` in which a coordinate is missing, made
when a record of the name is present, only re-sorts the list: the record found for the
name afterwards is the record found before, with the same `lat` and `lon`, and is not
replaced by a bare name. -/
theorem C3_upsert_no_downgrade (C : Collation) (knownPorts : List PortItem) (name : Str)
    (lat lon : JsVal) (r : PortItem) (hmiss : lat.neNull = false ∨ lon.neNull = false)
    (hr : findPortItemByName knownPorts name = some r) :
    findPortItemByName (upsertPortItem C knownPorts name lat lon) name = some r ∧
    upsertPortItem C knownPorts name lat lon = sortPorts C knownPorts := by
  obtain ⟨hn, hx⟩ := findPortItemByName_some knownPorts name r hr
  have hst : storedItem (trim name) lat lon r = r := by
    unfold storedItem
    rcases hmiss with h | h <;> simp [h]
  constructor
  · rw [findPortItemByName_eq _ _ hn, find?_upsert C knownPorts name lat lon hn, hx]
    simp [hst]
  · obtain ⟨pre, post, hl, _, _, hu⟩ := upsert_of_find C knownPorts name lat lon hn r hx
    rw [hu, hst, ← hl]

/-- C3, at a concrete input: "Poole" with coordinates, then `upsertPortItem("Poole")`
and `upsertPortItem("Poole", lat)`. -/
theorem C3_upsert_no_downgrade_witness :
    findPortItemByName [PortItem.obj "Poole".toList (deg 50714000) (deg (-1985000))]
      "Poole".toList
      = some (PortItem.obj "Poole".toList (deg 50714000) (deg (-1985000))) ∧
    findPortItemByName
      (upsertPortItem codePointCollation
        [PortItem.obj "Poole".toList (deg 50714000) (deg (-1985000))]
        "Poole".toList (deg 50714000) JsVal.undefined) "Poole".toList
      = some (PortItem.obj "Poole".toList (deg 50714000) (deg (-1985000))) :=
  ⟨by decide,
   (C3_upsert_no_downgrade codePointCollation
      [PortItem.obj "Poole".toList (deg 50714000) (deg (-1985000))]
      "Poole".toList (deg 50714000) JsVal.undefined
      (PortItem.obj "Poole".toList (deg 50714000) (deg (-1985000)))
      (Or.inr rfl) (by decide)).1⟩

/-- C4: calling `upsertPortItem(name, lat, lon)` a second time with the same arguments
leaves `knownPorts` as the first call left it, records and order alike. -/
theorem C4_upsert_idempotent (C : Collation) (knownPorts : List PortItem) (name : Str)
    (lat lon : JsVal) :
    upsertPortItem C (upsertPortItem C knownPorts name lat lon) name lat lon
      = upsertPortItem C knownPorts name lat lon := by
  by_cases hn : trim name = []
  · simp [upsertPortItem, hn]
  · have hf := find?_upsert C knownPorts name lat lon hn
    obtain ⟨pre, post, hl, _, _, hu⟩ :=
      upsert_of_find C (upsertPortItem C knownPorts name lat lon) name lat lon hn _ hf
    rw [hu, storedItem_idem, ← hl]
    -- the list is already sorted
    cases hx : knownPorts.find? (fun p => portName p == trim name) with
    | none =>
      rw [upsert_of_not_find C knownPorts name lat lon hn hx]
      exact sortPorts_idem C _
    | some x =>
      obtain ⟨pre2, post2, _, _, _, hu2⟩ := upsert_of_find C knownPorts name lat lon hn x hx
      rw [hu2]
      exact sortPorts_idem C _

/-- C5: for a name that is not blank, after `upsertPortItem(name, lat, lon)` with both
coordinates given `findPortItemByName(name)` returns `{name: trimmed name, lat, lon}`,
whether or not a record was there; and when no record was there and a coordinate is
missing, the call inserts the bare trimmed name, which `findPortItemByName` then returns. -/
theorem C5_find_after_upsert (C : Collation) (knownPorts : List PortItem) (name : Str)
    (lat lon : JsVal) (hn : trim name ≠ []) :
    (lat.neNull = true → lon.neNull = true →
      findPortItemByName (upsertPortItem C knownPorts name lat lon) name
        = some (PortItem.obj (trim name) (JsVal.number lat.toNumber)
            (JsVal.number lon.toNumber))) ∧
    ((lat.neNull = false ∨ lon.neNull = false) → findPortItemByName knownPorts name = none →
      findPortItemByName (upsertPortItem C knownPorts name lat lon) name
        = some (PortItem.bare (trim name)) ∧
      PortItem.bare (trim name) ∈ upsertPortItem C knownPorts name lat lon ∧
      (upsertPortItem C knownPorts name lat lon).length = knownPorts.length + 1) := by
  constructor
  · intro hla hlo
    rw [findPortItemByName_eq _ _ hn, find?_upsert C knownPorts name _ _ hn]
    simp [storedItem, hla, hlo]
  · intro hmiss hnone
    rw [findPortItemByName_eq _ _ hn] at hnone
    have hst : storedItem (trim name) lat lon (PortItem.bare (trim name))
        = PortItem.bare (trim name) := by
      unfold storedItem
      rcases hmiss with h | h <;> simp [h]
    have hf := find?_upsert C knownPorts name lat lon hn
    rw [hnone] at hf
    simp only [Option.getD_none, hst] at hf
    refine ⟨by rw [findPortItemByName_eq _ _ hn]; exact hf, List.mem_of_find?_eq_some hf, ?_⟩
    rw [upsert_of_not_find C knownPorts name lat lon hn hnone]
    rw [(sortPorts_perm C _).length_eq]
    simp

/-- C5, at a concrete input: "Poole" upserted with coordinates into a Directory that
holds "Cowes". -/
theorem C5_find_after_upsert_witness :
    trim " Poole ".toList ≠ [] ∧
    findPortItemByName
      (upsertPortItem codePointCollation [PortItem.bare "Cowes".toList] " Poole ".toList
        (deg 50714000) (deg (-1985000))) " Poole ".toList
      = some (PortItem.obj (trim " Poole ".toList) (JsVal.number (deg 50714000).toNumber)
          (JsVal.number (deg (-1985000)).toNumber)) :=
  ⟨by decide,
   (C5_find_after_upsert codePointCollation [PortItem.bare "Cowes".toList] " Poole ".toList
      (deg 50714000) (deg (-1985000)) (by decide)).1
      rfl rfl⟩

/-- C6: for every Directory state and every name that is not blank, after
`upsertPortItem` the list is in the order of `localeCompare` on the display names (each
name is before or level with every later one), and it is a rearrangement of the previous
list with the stored item put in the slot of the first record of that name, or added
when there was none. -/
theorem C6_upsert_sorted_perm (C : Collation) (knownPorts : List PortItem) (name : Str)
    (lat lon : JsVal) (hn : trim name ≠ []) :
    (upsertPortItem C knownPorts name lat lon).Sorted (portLe C) ∧
    (findPortItemByName knownPorts name = none →
      (upsertPortItem C knownPorts name lat lon).Perm
        (storedItem (trim name) lat lon (PortItem.bare (trim name)) :: knownPorts)) ∧
    (∀ x, findPortItemByName knownPorts name = some x →
      ∃ pre post, knownPorts = pre ++ x :: post ∧ (∀ y ∈ pre, portName y ≠ trim name) ∧
        (upsertPortItem C knownPorts name lat lon).Perm
          (pre ++ storedItem (trim name) lat lon x :: post)) := by
  refine ⟨?_, ?_, ?_⟩
  · cases hx : knownPorts.find? (fun p => portName p == trim name) with
    | none =>
      rw [upsert_of_not_find C knownPorts name lat lon hn hx]
      exact sortPorts_sorted C _
    | some x =>
      obtain ⟨pre, post, _, _, _, hu⟩ := upsert_of_find C knownPorts name lat lon hn x hx
      rw [hu]
      exact sortPorts_sorted C _
  · intro hnone
    rw [findPortItemByName_eq _ _ hn] at hnone
    rw [upsert_of_not_find C knownPorts name lat lon hn hnone]
    exact (sortPorts_perm C _).trans (List.perm_append_singleton _ _)
  · intro x hx
    rw [findPortItemByName_eq _ _ hn] at hx
    obtain ⟨pre, post, hl, hpre, _, hu⟩ := upsert_of_find C knownPorts name lat lon hn x hx
    exact ⟨pre, post, hl, hpre, by rw [hu]; exact sortPorts_perm C _⟩

/-- C6, at a concrete input: "Cowes" upserted into the unsorted Directory
"Yarmouth", "Poole". -/
theorem C6_upsert_sorted_perm_witness :
    trim "Cowes".toList ≠ [] ∧
    upsertPortItem codePointCollation
      [PortItem.bare "Yarmouth".toList, PortItem.bare "Poole".toList] "Cowes".toList JsVal.undefined JsVal.undefined
      = [PortItem.bare "Cowes".toList, PortItem.bare "Poole".toList,
         PortItem.bare "Yarmouth".toList] ∧
    (upsertPortItem codePointCollation
      [PortItem.bare "Yarmouth".toList, PortItem.bare "Poole".toList] "Cowes".toList JsVal.undefined
      JsVal.undefined).Sorted (portLe codePointCollation) :=
  ⟨by decide, by decide,
   (C6_upsert_sorted_perm codePointCollation
      [PortItem.bare "Yarmouth".toList, PortItem.bare "Poole".toList] "Cowes".toList JsVal.undefined JsVal.undefined
      (by decide)).1⟩

/-! ## Lemmas on the filter and the write paths -/

theorem length_le_jsLength (s : Str) : s.length ≤ jsLength s := by
  unfold jsLength
  induction s with
  | nil => simp
  | cons c cs ih =>
    simp only [List.map_cons, List.sum_cons, List.length_cons]
    split <;> omega

theorem namesLikely_clean (s : Ports) : namesLikely (cleanPortsInPlace s) := by
  constructor
  · intro p hp
    exact (List.mem_filter.mp hp).2
  · intro r hr
    exact (List.mem_filter.mp hr).2

theorem namesLikely_remember (s : Ports) (name : Str) (h : namesLikely s) :
    namesLikely (rememberPort s name) := by
  unfold rememberPort
  simp only
  split
  · exact h
  · split
    · exact h
    · exact namesLikely_clean _

theorem namesLikely_saveAndRemember (C : Collation) (s : Ports) (n : Str) (lat lon : JsVal) :
    namesLikely (saveAndRemember C s n lat lon) :=
  namesLikely_remember _ n (namesLikely_clean _)

theorem namesLikely_ensure (H : Host) (w : World) (s : Ports) (name : Str) (opts : Opts)
    (h : namesLikely s) : namesLikely (ensurePortCoords H w s name opts).1 := by
  unfold ensurePortCoords
  simp only
  repeat' split
  all_goals dsimp only
  all_goals first
    | exact h
    | exact namesLikely_clean _

theorem namesLikely_maybeSave (H : Host) (w : World) (s : Ports) (name : Str)
    (h : namesLikely s) : namesLikely (maybeSaveNewPort H w s name).1 := by
  unfold maybeSaveNewPort
  simp only
  repeat' split
  all_goals dsimp only
  · exact h
  · exact namesLikely_remember _ _ h
  · exact namesLikely_saveAndRemember _ _ _ _ _
  · exact h
  · exact namesLikely_saveAndRemember _ _ _ _ _
  · exact h

/-- C7 (as the code has it): for a name that is not blank, after `deletePort(name)` no
record of `knownPorts` has the trimmed name and `recentPorts` does not contain it; both
lists are the previous ones without those entries: every other record and MRU entry is
kept, as often as it occurred, in the same order. -/
theorem C7_deletePort_removes_only_the_name (s : Ports) (name : Str)
    (hn : trim name ≠ []) :
    (∀ p ∈ (deletePort s name).knownPorts, portName p ≠ trim name) ∧
    trim name ∉ (deletePort s name).recentPorts ∧
    (deletePort s name).knownPorts.Sublist s.knownPorts ∧
    (deletePort s name).recentPorts.Sublist s.recentPorts ∧
    (∀ p, portName p ≠ trim name →
      (deletePort s name).knownPorts.count p = s.knownPorts.count p) ∧
    (∀ r, r ≠ trim name →
      (deletePort s name).recentPorts.count r = s.recentPorts.count r) := by
  have hk : (deletePort s name).knownPorts
      = s.knownPorts.filter (fun p => portName p != trim name) := by
    simp [deletePort, hn]
  have hr : (deletePort s name).recentPorts
      = s.recentPorts.filter (fun p => p != trim name) := by
    simp [deletePort, hn]
  rw [hk, hr]
  refine ⟨?_, ?_, List.filter_sublist _, List.filter_sublist _, ?_, ?_⟩
  · intro p hp
    simpa using (List.mem_filter.mp hp).2
  · intro hmem
    simpa using (List.mem_filter.mp hmem).2
  · intro p hp
    exact List.count_filter (by simpa using hp)
  · intro r hr2
    exact List.count_filter (by simpa using hr2)

/-- C7, at a concrete input: deleting " Poole " from "Cowes", "Poole", "Yarmouth". -/
theorem C7_deletePort_removes_only_the_name_witness :
    trim " Poole ".toList ≠ [] ∧
    deletePort
      { knownPorts := [PortItem.bare "Cowes".toList,
          PortItem.obj "Poole".toList (deg 50714000) (deg (-1985000)),
          PortItem.bare "Yarmouth".toList]
        recentPorts := ["Poole".toList, "Cowes".toList] } " Poole ".toList
      = { knownPorts := [PortItem.bare "Cowes".toList, PortItem.bare "Yarmouth".toList]
          recentPorts := ["Cowes".toList] } ∧
    trim " Poole ".toList ∉ (deletePort
      { knownPorts := [PortItem.bare "Cowes".toList,
          PortItem.obj "Poole".toList (deg 50714000) (deg (-1985000)),
          PortItem.bare "Yarmouth".toList]
        recentPorts := ["Poole".toList, "Cowes".toList] } " Poole ".toList).recentPorts :=
  ⟨by decide, by decide,
   (C7_deletePort_removes_only_the_name
      { knownPorts := [PortItem.bare "Cowes".toList,
          PortItem.obj "Poole".toList (deg 50714000) (deg (-1985000)),
          PortItem.bare "Yarmouth".toList]
        recentPorts := ["Poole".toList, "Cowes".toList] } " Poole ".toList (by decide)).2.1⟩

/-- C7 (as stated) fails for a blank name: `deletePort(" ")` returns at once, so a
record and an MRU entry with the empty name, which is the trimmed argument, are still
there afterwards. -/
theorem C7_blank_name_counterexample :
    trim " ".toList = [] ∧
    (∃ p ∈ (deletePort { knownPorts := [PortItem.bare []], recentPorts := [[]] }
        " ".toList).knownPorts, portName p = trim " ".toList) ∧
    trim " ".toList ∈ (deletePort { knownPorts := [PortItem.bare []], recentPorts := [[]] }
        " ".toList).recentPorts := by
  decide

/-- C8: `isLikelyRealPortName` returns false for every candidate whose trimmed form is
empty, is a single character, has fewer than 2 characters of the letter class, or is
shorter than 4 code units while it holds no separator and does not start with the whole
word "St" (in any letter case). -/
theorem C8_filter_rejects (name : Str)
    (h : trim name = [] ∨ (trim name).length = 1 ∨ jsLength (trim name) < 2 ∨
      ((trim name).filter isLetter).length < 2 ∨
      (jsLength (trim name) < 4 ∧ (trim name).any isSeparator = false ∧
        startsWithSt (trim name) = false)) :
    isLikelyRealPortName name = false := by
  unfold isLikelyRealPortName
  simp only
  by_cases h0 : trim name = []
  · simp [h0]
  by_cases h1 : jsLength (trim name) < 2
  · simp [h0, h1]
  by_cases h2 : isLoneLetter (trim name) = true
  · simp [h0, h1, h2]
  by_cases h3 : ((trim name).filter isLetter).length < 2
  · simp [h0, h1, h2, h3]
  rcases h with h | h | h | h | ⟨ha, hb, hc⟩
  · exact absurd h h0
  · -- one character: at most one character of the letter class
    have : ((trim name).filter isLetter).length ≤ (trim name).length :=
      List.length_filter_le _ _
    omega
  · exact absurd h h1
  · exact absurd h h3
  · simp [h0, h1, h2, h3, ha, hb, hc]

/-- C8, at the inputs "C", "Ca" and "Car". -/
theorem C8_filter_rejects_witness :
    (jsLength (trim "Car".toList) < 4 ∧ (trim "Car".toList).any isSeparator = false ∧
        startsWithSt (trim "Car".toList) = false) ∧
    isLikelyRealPortName "C".toList = false ∧
    isLikelyRealPortName "Ca".toList = false ∧
    isLikelyRealPortName "Car".toList = false :=
  ⟨by decide,
   C8_filter_rejects "C".toList (Or.inr (Or.inl (by decide))),
   C8_filter_rejects "Ca".toList (Or.inr (Or.inr (Or.inr (Or.inr (by decide))))),
   C8_filter_rejects "Car".toList (Or.inr (Or.inr (Or.inr (Or.inr (by decide)))))⟩

/-- C9: `isLikelyRealPortName` returns true exactly for the candidates whose trimmed
form has at least 2 characters of the letter class and is at least 4 code units long, or
holds a separator, or starts with the whole word "St" in any letter case; it returns
true for "St Malo" and for "Poole". -/
theorem C9_filter_accepts_exactly :
    (∀ name : Str, isLikelyRealPortName name = true ↔
      (2 ≤ ((trim name).filter isLetter).length ∧
        (4 ≤ jsLength (trim name) ∨ (trim name).any isSeparator = true ∨
          startsWithSt (trim name) = true))) ∧
    isLikelyRealPortName "St Malo".toList = true ∧
    isLikelyRealPortName "Poole".toList = true := by
  refine ⟨?_, by decide, by decide⟩
  intro name
  unfold isLikelyRealPortName
  simp only
  by_cases h3 : ((trim name).filter isLetter).length < 2
  · have : ¬ 2 ≤ ((trim name).filter isLetter).length := by omega
    simp only [this, false_and, iff_false]
    split
    · simp
    · split
      · simp
      · split
        · simp
        · simp [h3]
  · have hlen : ((trim name).filter isLetter).length ≤ (trim name).length :=
      List.length_filter_le _ _
    have hjs := length_le_jsLength (trim name)
    have h0 : trim name ≠ [] := by
      intro h
      rw [h] at h3
      simp at h3
    have h1 : ¬ jsLength (trim name) < 2 := by omega
    have h2 : isLoneLetter (trim name) = false := by
      cases ht : trim name with
      | nil => exact absurd ht h0
      | cons c cs =>
        cases cs with
        | nil =>
          rw [ht] at h3
          have hc := List.length_filter_le isLetter [c]
          simp only [List.length_singleton] at hc
          omega
        | cons d ds => rfl
    have h3b : 2 ≤ ((trim name).filter isLetter).length := by omega
    simp only [h0, h1, h2, h3, if_false, h3b, true_and, Bool.false_eq_true]
    by_cases ha : jsLength (trim name) < 4
    · have ha2 : ¬ 4 ≤ jsLength (trim name) := by omega
      cases hb : (trim name).any isSeparator <;> cases hc : startsWithSt (trim name) <;>
        simp [ha, ha2]
    · have ha2 : 4 ≤ jsLength (trim name) := by omega
      simp [ha, ha2]

/-- C10: if every name in `knownPorts` and `recentPorts` passes `isLikelyRealPortName`
before the call, then so does every name after `rememberPort(name)`, after
`ensurePortCoords(name, opts)` and after `maybeSaveNewPort(name)`, for every name, every
option set, every answer of the network and every decision of the user. -/
theorem C10_write_paths_keep_names_likely (H : Host) (w : World) (s : Ports) (name : Str)
    (opts : Opts) (h : namesLikely s) :
    namesLikely (rememberPort s name) ∧
    namesLikely (ensurePortCoords H w s name opts).1 ∧
    namesLikely (maybeSaveNewPort H w s name).1 :=
  ⟨namesLikely_remember s name h, namesLikely_ensure H w s name opts h,
   namesLikely_maybeSave H w s name h⟩

/-- C10, at a concrete input: from the Directory "Cowes", `ensurePortCoords("Zq")` finds
a candidate on line and saves it, and the clean-up that follows drops the fragment again;
the flows for "Zennor" leave only names that pass the filter. -/
theorem C10_write_paths_keep_names_likely_witness :
    namesLikely { knownPorts := [PortItem.bare "Cowes".toList],
                  recentPorts := ["Cowes".toList] } ∧
    isLikelyRealPortName "Zq".toList = false ∧
    (ensurePortCoords codePointHost exampleWorld
      { knownPorts := [PortItem.bare "Cowes".toList], recentPorts := ["Cowes".toList] }
      "Zq".toList { save := none, confirm := false })
      = ({ knownPorts := [PortItem.bare "Cowes".toList], recentPorts := ["Cowes".toList] },
         some { name := "Zq".toList, lat := deg 50714000, lon := deg (-1985000) }) ∧
    (maybeSaveNewPort codePointHost exampleWorld
      { knownPorts := [PortItem.bare "Cowes".toList], recentPorts := ["Cowes".toList] }
      "Zennor".toList).1
      = { knownPorts := [PortItem.bare "Cowes".toList,
            PortItem.obj "Zennor".toList (deg 50714000) (deg (-1985000))],
          recentPorts := ["Zennor".toList, "Cowes".toList] } ∧
    namesLikely (maybeSaveNewPort codePointHost exampleWorld
      { knownPorts := [PortItem.bare "Cowes".toList], recentPorts := ["Cowes".toList] }
      "Zennor".toList).1 :=
  ⟨by decide, by decide, by decide, by decide,
   (C10_write_paths_keep_names_likely codePointHost exampleWorld
      { knownPorts := [PortItem.bare "Cowes".toList], recentPorts := ["Cowes".toList] }
      "Zennor".toList { save := none, confirm := false } (by decide)).2.2⟩

/-! ## Lemmas on the resolver -/

theorem ensure_no_save (H : Host) (w : World) (s : Ports) (name : Str) (c : Bool) :
    (ensurePortCoords H w s name { save := some false, confirm := c }).1 = s := by
  unfold ensurePortCoords
  simp only [bne_self_eq_false, Bool.false_eq_true, if_false]
  repeat' split
  all_goals rfl

theorem normalisePortQuery_nil (H : Host) : normalisePortQuery H [] = [] := by
  have h : normalisePortQuery H [] = H.toLowerCase [] := rfl
  rw [h, H.toLowerCase_ascii [] (by simp)]
  rfl

theorem normalisePortQuery_trim (H : Host) (name : Str) :
    normalisePortQuery H (trim name) = normalisePortQuery H name := by
  unfold normalisePortQuery
  rw [trim_trim]

theorem trim_ne_nil_of_query (H : Host) (name : Str) (hq : normalisePortQuery H name ≠ []) :
    trim name ≠ [] := by
  intro h
  apply hq
  rw [← normalisePortQuery_trim, h, normalisePortQuery_nil]

/-- The first tier of `getPortCoords` as a search for the first element with
`storedHit`. -/
theorem stored_tier_eq (H : Host) (name : Str) (l : List PortItem) :
    l.findSome? (fun p =>
      match p with
      | PortItem.bare _ => none
      | PortItem.obj pname lat lon =>
        if lat.neNull && lon.neNull then
          let pn := normalisePortQuery H pname
          if pn != [] && pn == normalisePortQuery H name then
            some { name := if pname = [] then name else pname
                   lat := JsVal.number lat.toNumber
                   lon := JsVal.number lon.toNumber : Coords }
          else none
        else none)
    = (l.find? (storedHit H (normalisePortQuery H name))).bind (fun p =>
        match p with
        | PortItem.bare _ => none
        | PortItem.obj pname lat lon =>
          some { name := if pname = [] then name else pname
                 lat := JsVal.number lat.toNumber
                 lon := JsVal.number lon.toNumber : Coords }) := by
  induction l with
  | nil => rfl
  | cons x xs ih =>
    rw [List.findSome?_cons, List.find?_cons, ih]
    cases x with
    | bare b => rfl
    | obj pname lat lon =>
      cases ha : lat.neNull <;> cases hb : lon.neNull <;>
        cases hc : (normalisePortQuery H pname != []) <;>
        cases hd : (normalisePortQuery H pname == normalisePortQuery H name) <;>
        simp [storedHit, ha, hb, hc, hd]

/-- What `getPortCoords` returns when an element of `knownPorts` answers the query: the
coordinates of the first such element. -/
theorem getPortCoords_stored (H : Host) (knownPorts : List PortItem) (name : Str)
    (pre post : List PortItem) (pname : Str) (lat lon : JsVal)
    (hq : normalisePortQuery H name ≠ [])
    (hkp : knownPorts = pre ++ PortItem.obj pname lat lon :: post)
    (hhit : storedHit H (normalisePortQuery H name) (PortItem.obj pname lat lon) = true)
    (hpre : ∀ x ∈ pre, storedHit H (normalisePortQuery H name) x = false) :
    getPortCoords H knownPorts name
      = some { name := pname, lat := JsVal.number lat.toNumber,
               lon := JsVal.number lon.toNumber } := by
  have hfind : knownPorts.find? (storedHit H (normalisePortQuery H name))
      = some (PortItem.obj pname lat lon) := by
    rw [hkp, List.find?_append]
    have : pre.find? (storedHit H (normalisePortQuery H name)) = none := by
      rw [List.find?_eq_none]
      intro x hx
      simp [hpre x hx]
    rw [this]
    simp [List.find?_cons, hhit]
  have hpn : pname ≠ [] := by
    intro h
    rw [h] at hhit
    simp [storedHit, normalisePortQuery_nil] at hhit
  unfold getPortCoords
  simp only [hq, if_false]
  rw [stored_tier_eq, hfind]
  simp [hpn]

/-- What `getPortCoords` returns when no element of `knownPorts` answers the query: the
entry read from the gazetteer, or else the first key in table order that the third tier
accepts. -/
theorem getPortCoords_offline (H : Host) (knownPorts : List PortItem) (name : Str)
    (hq : normalisePortQuery H name ≠ [])
    (hno : ∀ x ∈ knownPorts, storedHit H (normalisePortQuery H name) x = false) :
    getPortCoords H knownPorts name
      = match offlineEntry (normalisePortQuery H name) with
        | some (la, lo) => some { name := name, lat := la, lon := lo }
        | none =>
          (OFFLINE_PORTS.find? (fun e => fuzzyHit (normalisePortQuery H name) e.1)).map
            (fun e => { name := name, lat := deg e.2.1, lon := deg e.2.2 }) := by
  have hfind : knownPorts.find? (storedHit H (normalisePortQuery H name)) = none := by
    rw [List.find?_eq_none]
    intro x hx
    simp [hno x hx]
  unfold getPortCoords
  simp only [hq, if_false]
  rw [stored_tier_eq, hfind]
  simp only [Option.none_bind]
  cases hoff : offlineEntry (normalisePortQuery H name) with
  | some e => rfl
  | none =>
    simp only
    cases hf : OFFLINE_PORTS.find? (fun e => fuzzyHit (normalisePortQuery H name) e.1) with
    | none =>
      have hf2 : OFFLINE_PORTS.find? (fun e =>
          normalisePortQuery H name == e.1 ||
            (e.1 ++ [' ']).isPrefixOf (normalisePortQuery H name) ||
            (normalisePortQuery H name ++ [' ']).isPrefixOf e.1) = none := hf
      rw [hf2]; rfl
    | some e =>
      have hf2 : OFFLINE_PORTS.find? (fun e =>
          normalisePortQuery H name == e.1 ||
            (e.1 ++ [' ']).isPrefixOf (normalisePortQuery H name) ||
            (normalisePortQuery H name ++ [' ']).isPrefixOf e.1) = some e := hf
      rw [hf2]; rfl

theorem ensure_of_getPortCoords (H : Host) (w : World) (s : Ports) (name : Str) (opts : Opts)
    (r : Coords) (hn : trim name ≠ [])
    (hr : getPortCoords H s.knownPorts (trim name) = some r) :
    ensurePortCoords H w s name opts = (s, some r) := by
  unfold ensurePortCoords
  simp only [hn, if_false, hr]

theorem autoCompute_no_write (H : Host) (wOrigin wDest : World) (s : Ports)
    (plan : Option (Str × Str × Str)) :
    autoComputeSunriseSetForCurrent H wOrigin wDest s plan = s := by
  unfold autoComputeSunriseSetForCurrent
  cases plan with
  | none => rfl
  | some p =>
    obtain ⟨d, o, t⟩ := p
    simp only
    repeat' split
    all_goals simp only [ensure_no_save]

/-- C11: `ensurePortCoords(name, {save: false})` leaves `knownPorts` and `recentPorts`
as they were, for every name, state, option `confirm` and world (every answer of the
network, failure included); and `autoComputeSunriseSetForCurrent`, which calls it in
this mode for origin and destination, leaves them as they were too. -/
theorem C11_no_save_never_writes (H : Host) (w wOrigin wDest : World) (s : Ports)
    (name : Str) (c : Bool) (plan : Option (Str × Str × Str)) :
    (ensurePortCoords H w s name { save := some false, confirm := c }).1 = s ∧
    autoComputeSunriseSetForCurrent H wOrigin wDest s plan = s :=
  ⟨ensure_no_save H w s name c, autoCompute_no_write H wOrigin wDest s plan⟩

/-- C12 (as the code has it): when the normalised form of the name is not empty and
equals the normalised name of a record of `knownPorts` whose `lat` and `lon` are not
`null`, `getPortCoords` returns the name and the coordinates of the first such record,
whatever the gazetteer holds, and `ensurePortCoords` returns this result and leaves the
state alone in every world, so without regard to the network. -/
theorem C12_stored_record_first (H : Host) (w : World) (s : Ports) (name : Str) (opts : Opts)
    (pre post : List PortItem) (pname : Str) (lat lon : JsVal)
    (hq : normalisePortQuery H name ≠ [])
    (hkp : s.knownPorts = pre ++ PortItem.obj pname lat lon :: post)
    (hlat : lat.neNull = true) (hlon : lon.neNull = true)
    (hname : normalisePortQuery H pname = normalisePortQuery H name)
    (hpre : ∀ x ∈ pre, storedHit H (normalisePortQuery H name) x = false) :
    getPortCoords H s.knownPorts name
      = some { name := pname, lat := JsVal.number lat.toNumber,
               lon := JsVal.number lon.toNumber } ∧
    ensurePortCoords H w s name opts
      = (s, some { name := pname, lat := JsVal.number lat.toNumber,
                   lon := JsVal.number lon.toNumber }) := by
  have hhit : storedHit H (normalisePortQuery H name) (PortItem.obj pname lat lon) = true := by
    simp [storedHit, hlat, hlon, hname, hq]
  have h1 := getPortCoords_stored H s.knownPorts name pre post pname lat lon hq hkp hhit hpre
  refine ⟨h1, ?_⟩
  have hn := trim_ne_nil_of_query H name hq
  have hq2 : normalisePortQuery H (trim name) ≠ [] := by
    rw [normalisePortQuery_trim]; exact hq
  have hhit2 : storedHit H (normalisePortQuery H (trim name)) (PortItem.obj pname lat lon)
      = true := by
    rw [normalisePortQuery_trim]; exact hhit
  have hpre2 : ∀ x ∈ pre, storedHit H (normalisePortQuery H (trim name)) x = false := by
    rw [normalisePortQuery_trim]; exact hpre
  exact ensure_of_getPortCoords H w s name opts _ hn
    (getPortCoords_stored H s.knownPorts (trim name) pre post pname lat lon hq2 hkp hhit2 hpre2)

/-- C12, at a concrete input: "Poole" stored with coordinates other than those of the
gazetteer; " poole harbour " resolves to the stored ones. -/
theorem C12_stored_record_first_witness :
    normalisePortQuery codePointHost " poole harbour ".toList = "poole".toList ∧
    offlineEntry "poole".toList = some (deg 50714000, deg (-1985000)) ∧
    getPortCoords codePointHost
      [PortItem.bare "Cowes".toList, PortItem.obj "Poole".toList (deg 50700000) (deg (-1900000))]
      " poole harbour ".toList
      = some { name := "Poole".toList, lat := JsVal.number (deg 50700000).toNumber,
               lon := JsVal.number (deg (-1900000)).toNumber } :=
  ⟨by decide, by decide,
   (C12_stored_record_first codePointHost exampleWorld
      { knownPorts := [PortItem.bare "Cowes".toList,
          PortItem.obj "Poole".toList (deg 50700000) (deg (-1900000))]
        recentPorts := [] }
      " poole harbour ".toList { save := none, confirm := false }
      [PortItem.bare "Cowes".toList] [] "Poole".toList (deg 50700000) (deg (-1900000))
      (by decide) rfl rfl rfl (by decide) (by decide)).1⟩

/-- C12 (as stated) fails when the normalised form is empty: the record "Marina" carries
coordinates and its normalised name equals that of the query "Marina" (both are empty,
the word being stripped), yet `getPortCoords("Marina")` returns `null`. -/
theorem C12_empty_query_counterexample :
    normalisePortQuery codePointHost "Marina".toList
      = normalisePortQuery codePointHost (portName
          (PortItem.obj "Marina".toList (deg 50700000) (deg (-1900000)))) ∧
    portHasCoords (PortItem.obj "Marina".toList (deg 50700000) (deg (-1900000))) = true ∧
    getPortCoords codePointHost
      [PortItem.obj "Marina".toList (deg 50700000) (deg (-1900000))] "Marina".toList = none := by
  decide

theorem normalisePortQuery_of_ascii (H : Host) (name pre : Str)
    (hprep : trim (collapseWhite (stripWords (removeCommas (collapseWhite (trim name))))) = pre)
    (hascii : ∀ c ∈ pre, c.toNat < 128) :
    normalisePortQuery H name = lowerAscii pre := by
  unfold normalisePortQuery
  rw [hprep, H.toLowerCase_ascii pre hascii]

set_option maxRecDepth 100000 in
theorem gazetteer_keys_normal :
    ∀ e ∈ OFFLINE_PORTS, e.1 ≠ "port solent".toList →
      (trim (collapseWhite (stripWords (removeCommas (collapseWhite (trim e.1))))) = e.1 ∧
        (∀ c ∈ e.1, c.toNat < 128) ∧ lowerAscii e.1 = e.1 ∧ e.1 ≠ [] ∧
        offlineEntry e.1 = some (deg e.2.1, deg e.2.2)) := by
  decide

/-- C13: the gazetteer holds the key "port solent", but `normalisePortQuery` strips the
word "port", so the query "port solent" becomes "solent", which no tier matches:
`getPortCoords("port solent")` returns `null` on the empty Directory, for every host.
Every other key of the gazetteer resolves to the coordinates stored under it. -/
theorem C13_port_solent_unreachable (H : Host) :
    ("port solent".toList, (50845000 : Int), (-1138000 : Int)) ∈ OFFLINE_PORTS ∧
    normalisePortQuery H "port solent".toList = "solent".toList ∧
    getPortCoords H [] "port solent".toList = none ∧
    (∀ e ∈ OFFLINE_PORTS, e.1 ≠ "port solent".toList →
      getPortCoords H [] e.1 = some { name := e.1, lat := deg e.2.1, lon := deg e.2.2 }) := by
  have hq : normalisePortQuery H "port solent".toList = "solent".toList :=
    normalisePortQuery_of_ascii H _ "solent".toList (by decide) (by decide)
  refine ⟨by decide, hq, ?_, ?_⟩
  · rw [getPortCoords_offline H [] _ (by rw [hq]; decide) (by simp), hq]
    decide
  · intro e he hne
    obtain ⟨h1, h2, h3, h4, h5⟩ := gazetteer_keys_normal e he hne
    have hqe : normalisePortQuery H e.1 = e.1 := by
      rw [normalisePortQuery_of_ascii H e.1 e.1 h1 h2, h3]
    rw [getPortCoords_offline H [] _ (by rw [hqe]; exact h4) (by simp), hqe, h5]

/-- C14: the query "constructor" is not a key of the gazetteer and stands in no prefix
relation with a key, so the claim has `getPortCoords` return `null`; but the property
read `OFFLINE_PORTS["constructor"]` finds the member inherited from `Object.prototype`,
and `getPortCoords` returns a result whose `lat` and `lon` are `undefined`.  The query
"chich" does yield `null`, and "chichester village" yields Chichester. -/
theorem C14_inherited_key_is_matched (H : Host) :
    (∀ e ∈ OFFLINE_PORTS, e.1 ≠ "constructor".toList ∧
      fuzzyHit "constructor".toList e.1 = false) ∧
    normalisePortQuery H "constructor".toList = "constructor".toList ∧
    getPortCoords H [] "constructor".toList
      = some { name := "constructor".toList, lat := JsVal.undefined,
               lon := JsVal.undefined } ∧
    getPortCoords H [] "chich".toList = none ∧
    getPortCoords H [] "chichester village".toList
      = some { name := "chichester village".toList, lat := deg 50814000,
               lon := deg (-876000) } := by
  have hq : normalisePortQuery H "constructor".toList = "constructor".toList :=
    normalisePortQuery_of_ascii H _ "constructor".toList (by decide) (by decide)
  have hq2 : normalisePortQuery H "chich".toList = "chich".toList :=
    normalisePortQuery_of_ascii H _ "chich".toList (by decide) (by decide)
  have hq3 : normalisePortQuery H "chichester village".toList = "chichester village".toList :=
    normalisePortQuery_of_ascii H _ "chichester village".toList (by decide) (by decide)
  refine ⟨by decide, hq, ?_, ?_, ?_⟩
  · rw [getPortCoords_offline H [] _ (by rw [hq]; decide) (by simp), hq]
    decide
  · rw [getPortCoords_offline H [] _ (by rw [hq2]; decide) (by simp), hq2]
    decide
  · rw [getPortCoords_offline H [] _ (by rw [hq3]; decide) (by simp), hq3]
    decide

/-! ## Lemmas on the choice of a candidate -/

theorem pickSane_hit_iff (sane : JsNum → JsNum → Bool) (data : List GeoItem) (la lo : JsNum) :
    pickSane sane data = Pick.hit la lo ↔
      ∃ pre post, data = pre ++ GeoItem.item la lo :: post ∧ qualifies sane la lo = true ∧
        ∀ x ∈ pre, ∃ a b, x = GeoItem.item a b ∧ qualifies sane a b = false := by
  induction data with
  | nil =>
    constructor
    · intro h; simp [pickSane] at h
    · rintro ⟨pre, post, h, _⟩
      simp at h
  | cons x xs ih =>
    cases x with
    | broken =>
      constructor
      · intro h; simp [pickSane] at h
      · rintro ⟨pre, post, h, _, hpre⟩
        cases pre with
        | nil => simp at h
        | cons y ys =>
          simp only [List.cons_append, List.cons.injEq] at h
          obtain ⟨a, b, hab, _⟩ := hpre y (List.mem_cons_self _ _)
          rw [← h.1] at hab
          cases hab
    | item a b =>
      by_cases hq : qualifies sane a b = true
      · have hp : pickSane sane (GeoItem.item a b :: xs) = Pick.hit a b := by
          unfold qualifies at hq
          simp [pickSane, hq]
        rw [hp]
        constructor
        · intro h
          cases h
          exact ⟨[], xs, rfl, hq, by simp⟩
        · rintro ⟨pre, post, h, _, hpre⟩
          cases pre with
          | nil =>
            simp only [List.nil_append, List.cons.injEq] at h
            cases h.1
            rfl
          | cons y ys =>
            simp only [List.cons_append, List.cons.injEq] at h
            obtain ⟨a2, b2, hab, hnq⟩ := hpre y (List.mem_cons_self _ _)
            rw [← h.1] at hab
            cases hab
            rw [hq] at hnq
            cases hnq
      · have hqf : qualifies sane a b = false := by simpa using hq
        have hp : pickSane sane (GeoItem.item a b :: xs) = pickSane sane xs := by
          unfold qualifies at hqf
          simp [pickSane, hqf]
        rw [hp, ih]
        constructor
        · rintro ⟨pre, post, h, hql, hpre⟩
          refine ⟨GeoItem.item a b :: pre, post, by simp [h], hql, ?_⟩
          intro y hy
          rcases List.mem_cons.mp hy with rfl | hy
          · exact ⟨a, b, rfl, hqf⟩
          · exact hpre y hy
        · rintro ⟨pre, post, h, hql, hpre⟩
          cases pre with
          | nil =>
            simp only [List.nil_append, List.cons.injEq] at h
            cases h.1
            rw [hql] at hqf
            cases hqf
          | cons y ys =>
            simp only [List.cons_append, List.cons.injEq] at h
            exact ⟨ys, post, h.2, hql, fun z hz => hpre z (List.mem_cons_of_mem _ hz)⟩

theorem pickSane_miss (sane : JsNum → JsNum → Bool) (data : List GeoItem)
    (h : ∀ x ∈ data, ∃ a b, x = GeoItem.item a b ∧ qualifies sane a b = false) :
    pickSane sane data = Pick.miss := by
  induction data with
  | nil => rfl
  | cons x xs ih =>
    obtain ⟨a, b, hx, hq⟩ := h x (List.mem_cons_self _ _)
    subst hx
    unfold qualifies at hq
    simp only [pickSane, hq, Bool.false_eq_true, if_false]
    exact ih (fun y hy => h y (List.mem_cons_of_mem _ hy))

theorem ensure_online_result (H : Host) (w : World) (s : Ports) (name : Str) (opts : Opts)
    (hn : trim name ≠ []) (hg : getPortCoords H s.knownPorts (trim name) = none) :
    (ensurePortCoords H w s name opts).2
      = if w.onLine then
          match w.fetchJson 3 (normalisePortQuery H (trim name) ++ " harbour".toList) with
          | none => none
          | some data =>
            match pickSane w.saneForSteeler data with
            | Pick.hit la lo =>
              some { name := trim name, lat := JsVal.number la, lon := JsVal.number lo }
            | _ => none
        else none := by
  unfold ensurePortCoords
  simp only [hn, if_false, hg]
  cases hon : w.onLine with
  | false => rfl
  | true =>
    simp only [Bool.not_true, Bool.false_eq_true, if_false, if_true]
    cases hf : w.fetchJson 3 (normalisePortQuery H (trim name) ++ " harbour".toList) with
    | none => rfl
    | some data =>
      cases data with
      | nil => rfl
      | cons x xs =>
        simp only
        cases hp : pickSane w.saneForSteeler (x :: xs) with
        | threw => rfl
        | miss => rfl
        | hit la lo =>
          simp only
          repeat' split
          all_goals rfl

theorem lookupLoop_some (w : World) (qs : List Str) (la lo : JsNum)
    (h : lookupLoop w qs = some (la, lo)) :
    ∃ q ∈ qs, ∃ data, w.fetchJson 5 q = some data ∧
      pickSane w.saneForSteeler data = Pick.hit la lo := by
  induction qs with
  | nil => simp [lookupLoop] at h
  | cons q rest ih =>
    unfold lookupLoop at h
    cases hf : w.fetchJson 5 q with
    | none =>
      simp only [hf] at h
      obtain ⟨q2, hq2, r⟩ := ih h
      exact ⟨q2, List.mem_cons_of_mem _ hq2, r⟩
    | some data =>
      simp only [hf] at h
      cases hp : pickSane w.saneForSteeler data with
      | hit a b =>
        simp only [hp, Option.some.injEq, Prod.mk.injEq] at h
        rw [h.1, h.2] at hp
        exact ⟨q, List.mem_cons_self _ _, data, hf, hp⟩
      | miss =>
        simp only [hp] at h
        obtain ⟨q2, hq2, r⟩ := ih h
        exact ⟨q2, List.mem_cons_of_mem _ hq2, r⟩
      | threw =>
        simp only [hp] at h
        obtain ⟨q2, hq2, r⟩ := ih h
        exact ⟨q2, List.mem_cons_of_mem _ hq2, r⟩

theorem lookupLoop_none (w : World) (qs : List Str)
    (h : ∀ q ∈ qs, ∀ data, w.fetchJson 5 q = some data →
      ∀ la lo, pickSane w.saneForSteeler data ≠ Pick.hit la lo) :
    lookupLoop w qs = none := by
  induction qs with
  | nil => rfl
  | cons q rest ih =>
    unfold lookupLoop
    have ih2 := ih (fun q2 hq2 => h q2 (List.mem_cons_of_mem _ hq2))
    cases hf : w.fetchJson 5 q with
    | none => simpa only using ih2
    | some data =>
      cases hp : pickSane w.saneForSteeler data with
      | hit a b => exact absurd hp (h q (List.mem_cons_self _ _) data hf a b)
      | miss => simpa only [hp] using ih2
      | threw => simpa only [hp] using ih2

theorem saneForSteelerOf_iff (distanceKm : JsNum → JsNum → JsNum → JsNum → JsNum)
    (lat lon : JsNum) :
    saneForSteelerOf distanceKm lat lon = true ↔
      ∃ km, distanceKm refLat refLon lat lon = JsNum.num km ∧ km ≤ 1500000000 := by
  unfold saneForSteelerOf
  cases hd : distanceKm refLat refLon lat lon with
  | nan => simp [JsNum.le]
  | num v => simp [JsNum.le]

/-- C15: with `saneForSteeler(lat, lon)` true exactly when `distanceKm` from the
reference point (50.76, -1.54) is a number and at most 1500 km, the loop over the
candidates accepts the first candidate whose `lat` and `lon` are numbers and which is
sane, and none when no candidate qualifies; what `ensurePortCoords` returns from the
network is that candidate, or `null`; and what `lookupPortCoordsOnline` returns is the
accepted candidate of one of its queries, hence sane, or `null`. -/
theorem C15_sanity_radius (H : Host) (w : World)
    (distanceKm : JsNum → JsNum → JsNum → JsNum → JsNum) (s : Ports) (name : Str)
    (opts : Opts) (hw : w.saneForSteeler = saneForSteelerOf distanceKm) :
    (∀ lat lon, w.saneForSteeler lat lon = true ↔
      ∃ km, distanceKm refLat refLon lat lon = JsNum.num km ∧ km ≤ 1500000000) ∧
    (∀ data la lo, pickSane w.saneForSteeler data = Pick.hit la lo ↔
      ∃ pre post, data = pre ++ GeoItem.item la lo :: post ∧
        qualifies w.saneForSteeler la lo = true ∧
        ∀ x ∈ pre, ∃ a b, x = GeoItem.item a b ∧ qualifies w.saneForSteeler a b = false) ∧
    (∀ data, (∀ x ∈ data, ∃ a b, x = GeoItem.item a b ∧
        qualifies w.saneForSteeler a b = false) →
      pickSane w.saneForSteeler data = Pick.miss) ∧
    (trim name ≠ [] → getPortCoords H s.knownPorts (trim name) = none →
      (ensurePortCoords H w s name opts).2
        = if w.onLine then
            match w.fetchJson 3 (normalisePortQuery H (trim name) ++ " harbour".toList) with
            | none => none
            | some data =>
              match pickSane w.saneForSteeler data with
              | Pick.hit la lo =>
                some { name := trim name, lat := JsVal.number la, lon := JsVal.number lo }
              | _ => none
          else none) ∧
    (∀ la lo, lookupPortCoordsOnline H w name = some (la, lo) →
      qualifies w.saneForSteeler la lo = true ∧
      ∃ q data, w.fetchJson 5 q = some data ∧
        pickSane w.saneForSteeler data = Pick.hit la lo) ∧
    ((∀ q data, w.fetchJson 5 q = some data →
        ∀ la lo, pickSane w.saneForSteeler data ≠ Pick.hit la lo) →
      lookupPortCoordsOnline H w name = none) := by
  refine ⟨?_, pickSane_hit_iff _, pickSane_miss _, ensure_online_result H w s name opts,
    ?_, ?_⟩
  · intro lat lon
    rw [hw]
    exact saneForSteelerOf_iff distanceKm lat lon
  · intro la lo h
    unfold lookupPortCoordsOnline at h
    simp only at h
    split at h
    · cases h
    · obtain ⟨q, _, data, hf, hp⟩ := lookupLoop_some w _ la lo h
      obtain ⟨_, _, _, hq, _⟩ := (pickSane_hit_iff _ data la lo).mp hp
      exact ⟨hq, q, data, hf, hp⟩
  · intro h
    unfold lookupPortCoordsOnline
    simp only
    split
    · rfl
    · exact lookupLoop_none w _ (fun q _ data hf => h q data hf)

/-- C15, at a concrete input: of a candidate at 10 N 10 E (5000 km) and one at the
position of Poole (100 km), the second is accepted. -/
theorem C15_sanity_radius_witness :
    radiusWorld.saneForSteeler = saneForSteelerOf exampleDistanceKm ∧
    radiusWorld.saneForSteeler (JsNum.num 10000000) (JsNum.num 10000000) = false ∧
    pickSane radiusWorld.saneForSteeler
      [GeoItem.item (JsNum.num 10000000) (JsNum.num 10000000),
       GeoItem.item (JsNum.num 50714000) (JsNum.num (-1985000))]
      = Pick.hit (JsNum.num 50714000) (JsNum.num (-1985000)) ∧
    (ensurePortCoords codePointHost radiusWorld { knownPorts := [], recentPorts := [] }
      "Zennor".toList { save := some false, confirm := false }).2
      = some { name := "Zennor".toList, lat := deg 50714000, lon := deg (-1985000) } :=
  ⟨rfl, by decide,
   ((C15_sanity_radius codePointHost radiusWorld exampleDistanceKm
      { knownPorts := [], recentPorts := [] } "Zennor".toList
      { save := some false, confirm := false } rfl).2.1 _ _ _).mpr
     ⟨[GeoItem.item (JsNum.num 10000000) (JsNum.num 10000000)], [], rfl, by decide,
      fun x hx => ⟨JsNum.num 10000000, JsNum.num 10000000, by simpa using hx, by decide⟩⟩,
   by decide⟩

/-- C16: the two dialogs hand on manually entered coordinates only when
`saneForSteeler` holds for them, but the "Save coords" button of the Manage-ports list
stores whatever `parseLatLon` returns: with nothing counted as sane, the dialog handler
stores nothing for 10 N 10 E, and the list handler stores it for "Poole". -/
theorem C16_manager_save_skips_sanity :
    (∀ (sane : JsNum → JsNum → Bool) (parsed : Option (JsNum × JsNum)) (d : Decision),
      dialogManualSave sane parsed = some d →
        ∃ lat lon, parsed = some (lat, lon) ∧ sane lat lon = true ∧
          d = Decision.save (JsVal.number lat) (JsVal.number lon)) ∧
    (∀ (C : Collation) (knownPorts : List PortItem) (name : Str) (lat lon : JsNum),
      managerSaveCoords C knownPorts name (some (lat, lon))
        = upsertPortItem C knownPorts name (JsVal.number lat) (JsVal.number lon)) ∧
    dialogManualSave (fun _ _ => false) (some (JsNum.num 10000000, JsNum.num 10000000))
      = none ∧
    managerSaveCoords codePointCollation [PortItem.bare "Poole".toList] "Poole".toList
      (some (JsNum.num 10000000, JsNum.num 10000000))
      = [PortItem.obj "Poole".toList (deg 10000000) (deg 10000000)] := by
  refine ⟨?_, fun _ _ _ _ _ => rfl, by decide, by decide⟩
  intro sane parsed d h
  unfold dialogManualSave at h
  cases parsed with
  | none => simp at h
  | some p =>
    obtain ⟨lat, lon⟩ := p
    simp only at h
    by_cases hs : sane lat lon = true
    · simp only [hs, Bool.not_true, Bool.false_eq_true, if_false, Option.some.injEq] at h
      exact ⟨lat, lon, rfl, hs, h.symm⟩
    · simp [hs] at h

/-! ## Lemmas on the parsing of dates -/

theorem not_white_of_digit (c : Char) (h : isDigit c = true) : isWhite c = false := by
  unfold isDigit at h
  unfold isWhite
  simp only [Bool.and_eq_true, decide_eq_true_eq] at h
  simp only [Bool.or_eq_false_iff, beq_eq_false_iff_ne, ne_eq, Bool.and_eq_false_imp,
    decide_eq_true_eq, decide_eq_false_iff_not]
  omega

theorem list_length_four {α : Type} (l : List α) (h : l.length = 4) :
    ∃ a b c d, l = [a, b, c, d] := by
  match l, h with
  | [a, b, c, d], _ => exact ⟨a, b, c, d, rfl⟩

theorem list_length_two {α : Type} (l : List α) (h : l.length = 2) :
    ∃ a b, l = [a, b] := by
  match l, h with
  | [a, b], _ => exact ⟨a, b, rfl⟩

theorem parseISODate_sound (iso : Str) (y mo d : Nat)
    (h : parseISODate iso = some (y, mo, d)) :
    IsoDateText iso y mo d ∧ y ≠ 0 ∧ mo ≠ 0 ∧ d ≠ 0 := by
  unfold parseISODate at h
  split at h
  · rename_i y1 y2 y3 y4 h1 m1 m2 h2 d1 d2 rest heq
    split at h
    · rename_i hc
      simp only [List.all_cons, List.all_nil, Bool.and_true, Bool.and_eq_true,
        beq_iff_eq] at hc
      obtain ⟨⟨⟨⟨hy1, hy2, hy3, hy4, hm1, hm2, hd1, hd2⟩, hh1⟩, hh2⟩, hrest⟩ := hc
      by_cases hz : (digitsVal [y1, y2, y3, y4] == 0 || digitsVal [m1, m2] == 0 ||
          digitsVal [d1, d2] == 0) = true
      · simp only [hz, if_true] at h
        cases h
      · simp only [hz, if_false, Option.some.injEq, Prod.mk.injEq] at h
        obtain ⟨rfl, rfl, rfl⟩ := h
        simp only [Bool.or_eq_true, beq_iff_eq, not_or] at hz
        refine ⟨⟨iso.takeWhile isWhite, [y1, y2, y3, y4], [m1, m2], [d1, d2], rest, ?_, ?_,
          ?_, rfl, rfl, rfl, ?_, rfl, rfl, rfl⟩, hz.1.1, hz.1.2, hz.2⟩
        · have := (List.takeWhile_append_dropWhile isWhite iso).symm
          rw [heq, hh1, hh2] at this
          simpa using this
        · intro c hc
          exact (List.mem_takeWhile_imp hc)
        · intro c hc
          exact List.all_eq_true.mp hrest c hc
        · intro c hc
          simp only [List.cons_append, List.nil_append, List.mem_cons, List.mem_singleton,
            List.not_mem_nil, or_false] at hc
          rcases hc with rfl | rfl | rfl | rfl | rfl | rfl | rfl | rfl <;> assumption
    · cases h
  · cases h

theorem parseISODate_complete (iso : Str) (y mo d : Nat) (ht : IsoDateText iso y mo d)
    (hy : y ≠ 0) (hmo : mo ≠ 0) (hd : d ≠ 0) : parseISODate iso = some (y, mo, d) := by
  obtain ⟨pre, ys, ms, ds, post, hiso, hpre, hpost, ly, lm, ld, hdig, ey, em, ed⟩ := ht
  obtain ⟨y1, y2, y3, y4, rfl⟩ := list_length_four ys ly
  obtain ⟨m1, m2, rfl⟩ := list_length_two ms lm
  obtain ⟨d1, d2, rfl⟩ := list_length_two ds ld
  have hy1 : isDigit y1 = true := hdig y1 (by simp)
  have hy2 : isDigit y2 = true := hdig y2 (by simp)
  have hy3 : isDigit y3 = true := hdig y3 (by simp)
  have hy4 : isDigit y4 = true := hdig y4 (by simp)
  have hm1 : isDigit m1 = true := hdig m1 (by simp)
  have hm2 : isDigit m2 = true := hdig m2 (by simp)
  have hd1 : isDigit d1 = true := hdig d1 (by simp)
  have hd2 : isDigit d2 = true := hdig d2 (by simp)
  have hdrop : iso.dropWhile isWhite
      = y1 :: y2 :: y3 :: y4 :: '-' :: m1 :: m2 :: '-' :: d1 :: d2 :: post := by
    rw [hiso]
    simp only [List.append_assoc, List.cons_append, List.nil_append]
    rw [dropWhile_white_append pre _ hpre]
    simp [List.dropWhile_cons, not_white_of_digit y1 hy1]
  unfold parseISODate
  rw [hdrop]
  have hall : post.all isWhite = true := List.all_eq_true.mpr hpost
  simp only [List.all_cons, List.all_nil, hy1, hy2, hy3, hy4, hm1, hm2, hd1, hd2, hall,
    Bool.and_self, beq_self_eq_true, if_true]
  rw [← ey, ← em, ← ed]
  simp [hy, hmo, hd]

theorem calcSunTimes_none_iff
    (sunMinutes : Bool → Nat → Nat → Nat → JsVal → JsVal → Option JsNum)
    (iso : Str) (lat lon : JsVal) :
    calcSunTimes sunMinutes iso lat lon = none ↔
      ∀ y mo d, parseISODate iso = some (y, mo, d) →
        (sunMinutes true y mo d lat lon = none ∨ sunMinutes false y mo d lat lon = none) := by
  unfold calcSunTimes
  cases hp : parseISODate iso with
  | none => simp
  | some p =>
    obtain ⟨y, mo, d⟩ := p
    constructor
    · intro h y2 mo2 d2 he
      simp only [Option.some.injEq, Prod.mk.injEq] at he
      obtain ⟨rfl, rfl, rfl⟩ := he
      cases hr : sunMinutes true y mo d lat lon with
      | none => exact Or.inl rfl
      | some r =>
        cases hs : sunMinutes false y mo d lat lon with
        | none => exact Or.inr rfl
        | some t => simp [hr, hs] at h
    · intro h
      rcases h y mo d rfl with hr | hs
      · simp [hr]
      · cases hr : sunMinutes true y mo d lat lon <;> simp [hs]

/-! ## Lemmas on the parsing of coordinates -/

theorem span_stop {α : Type} (p : α → Bool) (a b : List α) (ha : ∀ c ∈ a, p c = true)
    (hb : ∀ c ∈ b.head?, p c = false) :
    (a ++ b).takeWhile p = a ∧ (a ++ b).dropWhile p = b := by
  rw [List.takeWhile_append_of_pos ha, List.dropWhile_append_of_pos ha]
  cases b with
  | nil => simp
  | cons x xs =>
    have hx : p x = false := hb x (by simp)
    simp [List.takeWhile_cons, List.dropWhile_cons, hx]

theorem span_parts {α : Type} (p : α → Bool) (t : List α) :
    t = t.takeWhile p ++ t.dropWhile p ∧ (∀ c ∈ t.takeWhile p, p c = true) ∧
      (∀ c ∈ (t.dropWhile p).head?, p c = false) := by
  refine ⟨(List.takeWhile_append_dropWhile p t).symm, fun c hc => List.mem_takeWhile_imp hc, ?_⟩
  intro c hc
  have := List.head?_dropWhile_not p t
  cases hd : (t.dropWhile p).head? with
  | none => rw [hd] at hc; simp at hc
  | some x =>
    rw [hd] at hc this
    simp only [Option.mem_def, Option.some.injEq] at hc
    subst hc
    simpa using this

theorem digit_toNat (c : Char) : isDigit c = true ↔ 0x30 ≤ c.toNat ∧ c.toNat ≤ 0x39 := by
  unfold isDigit
  simp

theorem white_toNat (c : Char) (h : isWhite c = true) :
    c.toNat = 0x09 ∨ c.toNat = 0x0A ∨ c.toNat = 0x0B ∨ c.toNat = 0x0C ∨ c.toNat = 0x0D ∨
    c.toNat = 0x20 ∨ 0xA0 ≤ c.toNat := by
  unfold isWhite at h
  simp only [Bool.or_eq_true, beq_iff_eq, Bool.and_eq_true, decide_eq_true_eq] at h
  omega

theorem not_digit_of_sep (c : Char) (h : isSepChar c = true) : isDigit c = false := by
  unfold isSepChar at h
  simp only [Bool.or_eq_true, beq_iff_eq] at h
  rcases h with h | h
  · have := white_toNat c h
    cases hd : isDigit c with
    | false => rfl
    | true => have := (digit_toNat c).mp hd; omega
  · subst h; decide

theorem not_digit_of_tail (c : Char) (h : isTailChar c = true) : isDigit c = false := by
  unfold isTailChar at h
  simp only [Bool.or_eq_true, beq_iff_eq] at h
  rcases h with h | h
  · have := white_toNat c h
    cases hd : isDigit c with
    | false => rfl
    | true => have := (digit_toNat c).mp hd; omega
  · subst h; decide

theorem hemi_cases (c : Char) (h : isHemi c = true) : c = 'N' ∨ c = 'S' ∨ c = 'E' ∨ c = 'W' := by
  unfold isHemi at h
  simpa [or_assoc] using h

theorem not_digit_of_hemi (c : Char) (h : isHemi c = true) : isDigit c = false := by
  rcases hemi_cases c h with rfl | rfl | rfl | rfl <;> decide

theorem not_tail_of_hemi (c : Char) (h : isHemi c = true) : isTailChar c = false := by
  rcases hemi_cases c h with rfl | rfl | rfl | rfl <;> decide

theorem not_white_of_hemi (c : Char) (h : isHemi c = true) : isWhite c = false := by
  rcases hemi_cases c h with rfl | rfl | rfl | rfl <;> decide

theorem not_sep_of_digit (c : Char) (h : isDigit c = true) : isSepChar c = false := by
  cases hs : isSepChar c with
  | false => rfl
  | true => rw [not_digit_of_sep c hs] at h; cases h

theorem trim_fix (l : Str) (hhead : ∀ c ∈ l.head?, isWhite c = false)
    (hlast : ∀ c ∈ l.getLast?, isWhite c = false) : trim l = l := by
  unfold trim
  rw [dropWhile_white_fix l hhead, dropWhile_white_fix l.reverse (by simpa using hlast),
    List.reverse_reverse]

theorem matchDecimal_complete (neg : Bool) (intD fracD : Str) (h : IsDecimalParts intD fracD) :
    matchDecimal (decimalText neg intD fracD) = some (neg, intD, fracD) := by
  obtain ⟨hne, hdig⟩ := h
  have hint : ∀ c ∈ intD, isDigit c = true := fun c hc => hdig c (List.mem_append_left _ hc)
  have hfrac : ∀ c ∈ fracD, isDigit c = true := fun c hc => hdig c (List.mem_append_right _ hc)
  obtain ⟨i0, is, rfl⟩ := List.exists_cons_of_ne_nil hne
  have hi0 : isDigit i0 = true := hint i0 (List.mem_cons_self _ _)
  have hi0m : i0 ≠ '-' := by
    intro hh; rw [hh] at hi0; revert hi0; decide
  -- the text after the sign
  have hstop : ∀ c ∈ (if fracD = [] then [] else '.' :: fracD : Str).head?,
      isDigit c = false := by
    intro c hc
    by_cases hf : fracD = []
    · simp [hf] at hc
    · simp only [hf, if_false, List.head?_cons, Option.mem_def, Option.some.injEq] at hc
      subst hc; decide
  obtain ⟨htake, hdrop⟩ := span_stop isDigit (i0 :: is)
    (if fracD = [] then [] else '.' :: fracD) hint hstop
  have hhead : ((decimalText neg (i0 :: is) fracD).head? == some '-') = neg := by
    cases neg with
    | true => simp [decimalText]
    | false => simp [decimalText, hi0m]
  have hr : (if neg = true then (decimalText neg (i0 :: is) fracD).tail
      else decimalText neg (i0 :: is) fracD)
      = (i0 :: is) ++ (if fracD = [] then [] else '.' :: fracD) := by
    cases neg with
    | true => simp [decimalText]
    | false => simp [decimalText]
  unfold matchDecimal
  simp only [hhead, hr, htake, hdrop]
  by_cases hf : fracD = []
  · simp [hf]
  · have hall : fracD.all isDigit = true := List.all_eq_true.mpr hfrac
    simp [hf, hall]

theorem matchDecimal_sound (t : Str) (neg : Bool) (intD fracD : Str)
    (h : matchDecimal t = some (neg, intD, fracD)) :
    IsDecimalParts intD fracD ∧ t = decimalText neg intD fracD := by
  unfold matchDecimal at h
  simp only at h
  -- the sign and what follows it
  have hsign : t = (if (t.head? == some '-') = true then ['-'] else [])
      ++ (if (t.head? == some '-') = true then t.tail else t) := by
    by_cases hh : (t.head? == some '-') = true
    · simp only [hh, if_true]
      cases t with
      | nil => simp at hh
      | cons c cs =>
        simp only [List.head?_cons, beq_iff_eq, Option.some.injEq] at hh
        simp [hh]
    · simp [hh]
  generalize (if (t.head? == some '-') = true then t.tail else t) = r at h hsign
  generalize (t.head? == some '-') = n at h hsign
  obtain ⟨hparts, htk, _⟩ := span_parts isDigit r
  by_cases hi : (r.takeWhile isDigit == []) = true
  · simp [hi] at h
  · simp only [hi, if_false, Bool.false_eq_true] at h
    have hne : r.takeWhile isDigit ≠ [] := by simpa using hi
    cases hd : r.dropWhile isDigit with
    | nil =>
      rw [hd] at h hparts
      simp only [Option.some.injEq, Prod.mk.injEq] at h
      obtain ⟨rfl, rfl, rfl⟩ := h
      refine ⟨⟨hne, ?_⟩, ?_⟩
      · intro c hc
        simp only [List.append_nil] at hc
        exact htk c hc
      · conv_lhs => rw [hsign, hparts]
        simp [decimalText]
    | cons c fr =>
      rw [hd] at h hparts
      by_cases hc : (c == '.' && fr != [] && fr.all isDigit) = true
      · simp only [hc, if_true, Option.some.injEq, Prod.mk.injEq] at h
        obtain ⟨rfl, rfl, rfl⟩ := h
        simp only [Bool.and_eq_true, beq_iff_eq, bne_iff_ne, ne_eq] at hc
        obtain ⟨⟨hc1, hc2⟩, hc3⟩ := hc
        refine ⟨⟨hne, ?_⟩, ?_⟩
        · intro x hx
          rcases List.mem_append.mp hx with hx | hx
          · exact htk x hx
          · exact List.all_eq_true.mp hc3 x hx
        · conv_lhs => rw [hsign, hparts, hc1]
          simp [decimalText, hc2]
      · simp [hc] at h

theorem head?_gap_hemi (gap : Str) (hemi : Char) (hgap : ∀ c ∈ gap, isTailChar c = true)
    (hh : isHemi hemi = true) :
    ∀ c ∈ (gap ++ [hemi]).head?, isDigit c = false ∧ c ≠ '.' := by
  intro c hc
  have hmem : c ∈ gap ++ [hemi] := List.mem_of_mem_head? hc
  rcases List.mem_append.mp hmem with h | h
  · refine ⟨not_digit_of_tail c (hgap c h), ?_⟩
    intro hdot
    have := hgap c h
    rw [hdot] at this
    revert this; decide
  · have hce : c = hemi := by simpa using h
    subst hce
    refine ⟨not_digit_of_hemi c hh, ?_⟩
    rcases hemi_cases c hh with rfl | rfl | rfl | rfl <;> decide

theorem matchDMM_complete (degD sep minI minF gap : Str) (hemi : Char)
    (h : IsDmmParts degD sep minI minF gap hemi) :
    matchDMM (dmmText degD sep minI minF gap hemi) = some (degD, minI, minF, hemi) := by
  obtain ⟨hd1, hd3, hdeg, hsepne, hsep, hsepc, hm1, hm2, hmin, hgap, hgapc, hh⟩ := h
  have hminI : ∀ c ∈ minI, isDigit c = true := fun c hc => hmin c (List.mem_append_left _ hc)
  have hminF : ∀ c ∈ minF, isDigit c = true := fun c hc => hmin c (List.mem_append_right _ hc)
  have hminIne : minI ≠ [] := by
    intro hh2; rw [hh2] at hm1; simp at hm1
  have htext : dmmText degD sep minI minF gap hemi
      = degD ++ (sep ++ (minI ++ ((if minF = [] then [] else '.' :: minF) ++ (gap ++ [hemi])))) := by
    simp [dmmText, List.append_assoc]
  -- degrees
  obtain ⟨e1, e1d⟩ := span_stop isDigit degD
    (sep ++ (minI ++ ((if minF = [] then [] else '.' :: minF) ++ (gap ++ [hemi])))) hdeg
    (by
      intro c hc
      obtain ⟨s0, ss, rfl⟩ := List.exists_cons_of_ne_nil hsepne
      simp only [List.cons_append, List.head?_cons, Option.mem_def, Option.some.injEq] at hc
      subst hc
      exact not_digit_of_sep _ (hsep _ (List.mem_cons_self _ _)))
  -- separator
  obtain ⟨e2, e2d⟩ := span_stop isSepChar sep
    (minI ++ ((if minF = [] then [] else '.' :: minF) ++ (gap ++ [hemi]))) hsep
    (by
      intro c hc
      obtain ⟨m0, ms, rfl⟩ := List.exists_cons_of_ne_nil hminIne
      simp only [List.cons_append, List.head?_cons, Option.mem_def, Option.some.injEq] at hc
      subst hc
      exact not_sep_of_digit _ (hminI _ (List.mem_cons_self _ _)))
  -- whole minutes
  obtain ⟨e3, e3d⟩ := span_stop isDigit minI
    ((if minF = [] then [] else '.' :: minF) ++ (gap ++ [hemi])) hminI
    (by
      intro c hc
      by_cases hf : minF = []
      · simp only [hf, if_true, List.nil_append] at hc
        exact (head?_gap_hemi gap hemi hgap hh c hc).1
      · simp only [hf, if_false, List.cons_append, List.head?_cons, Option.mem_def,
          Option.some.injEq] at hc
        subst hc; decide)
  -- gap and letter
  obtain ⟨e5, e5d⟩ := span_stop isTailChar gap [hemi] hgap
    (by
      intro c hc
      simp only [List.head?_cons, Option.mem_def, Option.some.injEq] at hc
      subst hc
      exact not_tail_of_hemi _ hh)
  have hlen1 : ¬ (degD.length < 1 ∨ degD.length > 3) := by omega
  have hlen2 : ¬ (minI.length < 1 ∨ minI.length > 2) := by omega
  have hsepc2 : ¬ (sep.filter (fun c => c == '°')).length > 1 := by omega
  have hgapc2 : ¬ (gap.filter (fun c => c == '\'')).length > 1 := by omega
  have c1 : (decide (degD.length < 1) || decide (degD.length > 3)) = false := by
    rw [decide_eq_false (by omega : ¬ degD.length < 1),
      decide_eq_false (by omega : ¬ degD.length > 3)]
    rfl
  have c2 : (sep == [] || decide ((sep.filter (fun c => c == '°')).length > 1)) = false := by
    rw [decide_eq_false (by omega : ¬ (sep.filter (fun c => c == '°')).length > 1)]
    simpa using hsepne
  have c3 : (decide (minI.length < 1) || decide (minI.length > 2)) = false := by
    rw [decide_eq_false (by omega : ¬ minI.length < 1),
      decide_eq_false (by omega : ¬ minI.length > 2)]
    rfl
  have c5 : decide ((gap.filter (fun c => c == '\'')).length > 1) = false :=
    decide_eq_false (by omega)
  unfold matchDMM
  simp only [htext, e1, e1d, e2, e2d, e3, e3d, c1, c2, c3, Bool.false_eq_true, if_false]
  by_cases hf : minF = []
  · have hnp : ((gap ++ [hemi]).head? == some '.') = false := by
      cases hhd : (gap ++ [hemi]).head? with
      | none => rfl
      | some c =>
        have := (head?_gap_hemi gap hemi hgap hh c (by rw [hhd]; rfl)).2
        simpa using this
    subst hf
    simp only [if_true, List.nil_append, hnp, Bool.false_eq_true, if_false, Bool.false_and,
      e5, e5d, c5, hh, hgapc2]
  · obtain ⟨e4, e4d⟩ := span_stop isDigit minF (gap ++ [hemi]) hminF
      (fun c hc => (head?_gap_hemi gap hemi hgap hh c hc).1)
    have hp : (('.' :: (minF ++ (gap ++ [hemi]))).head? == some '.') = true := by simp
    have hfne : (minF == []) = false := by simpa using hf
    simp only [hf, if_false, List.cons_append, hp, if_true, List.tail_cons, e4, e4d, hfne,
      Bool.and_false,
      Bool.true_and, Bool.false_eq_true, e5, e5d, c5, hh, hgapc2]

theorem matchDMM_sound (t degD minI minF : Str) (hemi : Char)
    (h : matchDMM t = some (degD, minI, minF, hemi)) :
    ∃ sep gap, IsDmmParts degD sep minI minF gap hemi ∧
      t = dmmText degD sep minI minF gap hemi := by
  unfold matchDMM at h
  simp only at h
  obtain ⟨p1, q1, _⟩ := span_parts isDigit t
  obtain ⟨p2, q2, _⟩ := span_parts isSepChar (t.dropWhile isDigit)
  obtain ⟨p3, q3, _⟩ := span_parts isDigit ((t.dropWhile isDigit).dropWhile isSepChar)
  generalize t.takeWhile isDigit = D at h p1 q1
  generalize t.dropWhile isDigit = r1 at h p1 p2 q2 p3 q3
  generalize r1.takeWhile isSepChar = S at h p2 q2
  generalize r1.dropWhile isSepChar = r2 at h p2 p3 q3
  generalize r2.takeWhile isDigit = M at h p3 q3
  generalize r2.dropWhile isDigit = r3 at h p3
  by_cases c1 : (decide (D.length < 1) || decide (D.length > 3)) = true
  · rw [if_pos c1] at h; cases h
  rw [if_neg c1] at h
  by_cases c2 : (S == [] || decide ((S.filter (fun c => c == '°')).length > 1)) = true
  · rw [if_pos c2] at h; cases h
  rw [if_neg c2] at h
  by_cases c3 : (decide (M.length < 1) || decide (M.length > 2)) = true
  · rw [if_pos c3] at h; cases h
  rw [if_neg c3] at h
  simp only [Bool.or_eq_true, decide_eq_true_eq, beq_iff_eq, not_or, not_lt] at c1 c2 c3
  -- the decimals of the minutes
  have hfrac : ∃ F r4, r3 = (if F = [] then [] else '.' :: F) ++ r4 ∧
      (∀ c ∈ F, isDigit c = true) ∧
      (if (List.filter (fun c => c == '\'') (r4.takeWhile isTailChar)).length > 1 then none
       else
        match r4.dropWhile isTailChar with
        | [x] => if isHemi x = true then some (D, M, F, x) else none
        | _ => none) = some (degD, minI, minF, hemi) := by
    by_cases hp : (r3.head? == some '.') = true
    · simp only [hp, if_true, Bool.true_and] at h
      by_cases hF : (r3.tail.takeWhile isDigit == []) = true
      · rw [if_pos hF] at h; cases h
      · rw [if_neg hF] at h
        obtain ⟨p4, q4, _⟩ := span_parts isDigit r3.tail
        refine ⟨r3.tail.takeWhile isDigit, r3.tail.dropWhile isDigit, ?_, q4, h⟩
        have hFne : r3.tail.takeWhile isDigit ≠ [] := by simpa using hF
        simp only [hFne, if_false, List.cons_append]
        rw [← p4]
        cases r3 with
        | nil => simp at hp
        | cons x xs =>
          simp only [List.head?_cons, beq_iff_eq, Option.some.injEq] at hp
          simp [hp]
    · simp only [hp, if_false, Bool.false_and, Bool.false_eq_true] at h
      exact ⟨[], r3, by simp, by simp, h⟩
  obtain ⟨F, r4, p4, q4, h4⟩ := hfrac
  obtain ⟨p5, q5, _⟩ := span_parts isTailChar r4
  generalize r4.takeWhile isTailChar = G at h4 p5 q5
  generalize r4.dropWhile isTailChar = r5 at h4 p5
  by_cases c5 : (G.filter (fun c => c == '\'')).length > 1
  · rw [if_pos c5] at h4; cases h4
  rw [if_neg c5] at h4
  match r5, h4, p5 with
  | [x], h4, p5 =>
    by_cases hx : isHemi x = true
    · simp only [hx, if_true, Option.some.injEq, Prod.mk.injEq] at h4
      obtain ⟨rfl, rfl, rfl, rfl⟩ := h4
      refine ⟨S, G, ⟨c1.1, c1.2, q1, c2.1, q2, c2.2, c3.1, c3.2, ?_, q5, by omega, hx⟩, ?_⟩
      · intro c hc
        rcases List.mem_append.mp hc with hc | hc
        · exact q3 c hc
        · exact q4 c hc
      · rw [p1, p2, p3, p4, p5]
        simp [dmmText, List.append_assoc]
    · simp [hx] at h4
  | [], h4, _ => simp at h4
  | _ :: _ :: _, h4, _ => simp at h4

theorem toUpper_fixed (c : Char) (h : ¬ (97 ≤ c.toNat ∧ c.toNat ≤ 122)) : c.toUpper = c := by
  unfold Char.toUpper
  simp only [ge_iff_le]
  rw [if_neg h]

theorem toUpper_digit (c : Char) (h : isDigit c = true) : c.toUpper = c :=
  toUpper_fixed c (by have := (digit_toNat c).mp h; omega)

theorem toUpper_sep (c : Char) (h : isSepChar c = true) : c.toUpper = c := by
  unfold isSepChar at h
  simp only [Bool.or_eq_true, beq_iff_eq] at h
  rcases h with h | h
  · exact toUpper_fixed c (by have := white_toNat c h; omega)
  · subst h; decide

theorem toUpper_tail (c : Char) (h : isTailChar c = true) : c.toUpper = c := by
  unfold isTailChar at h
  simp only [Bool.or_eq_true, beq_iff_eq] at h
  rcases h with h | h
  · exact toUpper_fixed c (by have := white_toNat c h; omega)
  · subst h; decide

theorem map_toUpper_fixed (l : Str) (h : ∀ c ∈ l, c.toUpper = c) : l.map Char.toUpper = l := by
  induction l with
  | nil => rfl
  | cons x xs ih =>
    rw [List.map_cons, h x (List.mem_cons_self _ _),
      ih (fun c hc => h c (List.mem_cons_of_mem _ hc))]

theorem digit_low (c : Char) (h : isDigit c = true) : c.toNat < 181 := by
  have := (digit_toNat c).mp h; omega

theorem decimalText_mem (neg : Bool) (intD fracD : Str) (h : IsDecimalParts intD fracD)
    (c : Char) (hc : c ∈ decimalText neg intD fracD) :
    c = '-' ∨ c = '.' ∨ isDigit c = true := by
  unfold decimalText at hc
  simp only [List.mem_append] at hc
  rcases hc with (hc | hc) | hc
  · by_cases hn : neg = true
    · simp [hn] at hc; exact Or.inl hc
    · simp [hn] at hc
  · exact Or.inr (Or.inr (h.2 c (List.mem_append_left _ hc)))
  · by_cases hf : fracD = []
    · simp [hf] at hc
    · simp only [hf, if_false, List.mem_cons] at hc
      rcases hc with hc | hc
      · exact Or.inr (Or.inl hc)
      · exact Or.inr (Or.inr (h.2 c (List.mem_append_right _ hc)))

theorem decimalText_canon (H : Host) (neg : Bool) (intD fracD : Str)
    (h : IsDecimalParts intD fracD) :
    decimalText neg intD fracD ≠ [] ∧
    H.toUpperCase (trim (decimalText neg intD fracD)) = decimalText neg intD fracD := by
  have hmem := decimalText_mem neg intD fracD h
  have hnw : ∀ c ∈ decimalText neg intD fracD, isWhite c = false := by
    intro c hc
    rcases hmem c hc with rfl | rfl | hd
    · decide
    · decide
    · exact not_white_of_digit c hd
  have hne : decimalText neg intD fracD ≠ [] := by
    obtain ⟨i0, is, hi⟩ := List.exists_cons_of_ne_nil h.1
    intro he
    have : i0 ∈ decimalText neg intD fracD := by
      unfold decimalText; rw [hi]; simp
    rw [he] at this
    simp at this
  refine ⟨hne, ?_⟩
  rw [trim_fix _ (fun c hc => hnw c (List.mem_of_mem_head? hc))
    (fun c hc => hnw c (List.mem_of_mem_getLast? hc))]
  rw [H.toUpperCase_low]
  · apply map_toUpper_fixed
    intro c hc
    rcases hmem c hc with rfl | rfl | hd
    · decide
    · decide
    · exact toUpper_digit c hd
  · intro c hc
    rcases hmem c hc with rfl | rfl | hd
    · decide
    · decide
    · exact digit_low c hd

theorem hemi_letter_cases (h : Char) (hh : h ∈ "NSEWnsew".toList) :
    h = 'N' ∨ h = 'S' ∨ h = 'E' ∨ h = 'W' ∨ h = 'n' ∨ h = 's' ∨ h = 'e' ∨ h = 'w' := by
  simpa using hh

theorem dmmText_trim (degD sep minI minF gap : Str) (h : Char)
    (hh : h ∈ "NSEWnsew".toList) (hp : IsDmmParts degD sep minI minF gap h.toUpper) :
    dmmText degD sep minI minF gap h ≠ [] ∧
    trim (dmmText degD sep minI minF gap h) = dmmText degD sep minI minF gap h := by
  obtain ⟨hd1, _, hdeg, _, hsep, _, _, _, hmin, hgap, _, _⟩ := hp
  have hhw : isWhite h = false := by
    rcases hemi_letter_cases h hh with rfl | rfl | rfl | rfl | rfl | rfl | rfl | rfl <;> decide
  obtain ⟨d0, ds, hdd⟩ : ∃ d0 ds, degD = d0 :: ds := by
    cases degD with
    | nil => simp at hd1
    | cons a as => exact ⟨a, as, rfl⟩
  have hne : dmmText degD sep minI minF gap h ≠ [] := by
    unfold dmmText; rw [hdd]; simp
  refine ⟨hne, ?_⟩
  apply trim_fix
  · intro c hc
    have hd0 : isDigit d0 = true := hdeg d0 (by rw [hdd]; exact List.mem_cons_self _ _)
    unfold dmmText at hc
    rw [hdd] at hc
    simp only [List.cons_append, List.head?_cons, Option.mem_def, Option.some.injEq] at hc
    subst hc
    exact not_white_of_digit _ hd0
  · intro c hc
    unfold dmmText at hc
    rw [List.getLast?_concat] at hc
    simp only [Option.mem_def, Option.some.injEq] at hc
    subst hc
    exact hhw

theorem dmmText_map_upper (degD sep minI minF gap : Str) (h : Char)
    (hp : IsDmmParts degD sep minI minF gap h.toUpper) :
    (dmmText degD sep minI minF gap h).map Char.toUpper
      = dmmText degD sep minI minF gap h.toUpper := by
  obtain ⟨_, _, hdeg, _, hsep, _, _, _, hmin, hgap, _, _⟩ := hp
  unfold dmmText
  simp only [List.map_append, List.map_cons, List.map_nil]
  rw [map_toUpper_fixed degD (fun c hc => toUpper_digit c (hdeg c hc)),
    map_toUpper_fixed sep (fun c hc => toUpper_sep c (hsep c hc)),
    map_toUpper_fixed minI
      (fun c hc => toUpper_digit c (hmin c (List.mem_append_left _ hc))),
    map_toUpper_fixed gap (fun c hc => toUpper_tail c (hgap c hc))]
  by_cases hf : minF = []
  · simp [hf]
  · simp only [hf, if_false, List.map_cons]
    rw [map_toUpper_fixed minF
      (fun c hc => toUpper_digit c (hmin c (List.mem_append_right _ hc)))]
    rfl

/-- On a text of degrees and minutes whose separators lie below U+00B5 the host's
`toUpperCase` is fixed: it changes only the letters a to z. -/
theorem dmmText_host_upper (H : Host) (degD sep minI minF gap : Str) (h : Char)
    (hh : h ∈ "NSEWnsew".toList) (hp : IsDmmParts degD sep minI minF gap h.toUpper)
    (hlow : ∀ c ∈ sep ++ gap, c.toNat < 181) :
    H.toUpperCase (dmmText degD sep minI minF gap h)
      = (dmmText degD sep minI minF gap h).map Char.toUpper := by
  obtain ⟨_, _, hdeg, _, _, _, _, _, hmin, _, _, _⟩ := hp
  have hhw : h.toNat < 181 := by
    rcases hemi_letter_cases h hh with rfl | rfl | rfl | rfl | rfl | rfl | rfl | rfl <;> decide
  apply H.toUpperCase_low
  intro c hc
  unfold dmmText at hc
  simp only [List.mem_append, List.mem_singleton] at hc
  rcases hc with ((((hc | hc) | hc) | hc) | hc) | hc
  · exact digit_low c (hdeg c hc)
  · exact hlow c (List.mem_append_left _ hc)
  · exact digit_low c (hmin c (List.mem_append_left _ hc))
  · by_cases hf : minF = []
    · simp [hf] at hc
    · simp only [hf, if_false, List.mem_cons] at hc
      rcases hc with rfl | hc
      · decide
      · exact digit_low c (hmin c (List.mem_append_right _ hc))
  · exact hlow c (List.mem_append_right _ hc)
  · rw [hc]; exact hhw

theorem dmmText_canon (H : Host) (degD sep minI minF gap : Str) (h : Char)
    (hh : h ∈ "NSEWnsew".toList) (hp : IsDmmParts degD sep minI minF gap h.toUpper)
    (hup : H.toUpperCase (dmmText degD sep minI minF gap h)
      = (dmmText degD sep minI minF gap h).map Char.toUpper) :
    dmmText degD sep minI minF gap h ≠ [] ∧
    H.toUpperCase (trim (dmmText degD sep minI minF gap h))
      = dmmText degD sep minI minF gap h.toUpper := by
  obtain ⟨hne, htrim⟩ := dmmText_trim degD sep minI minF gap h hh hp
  exact ⟨hne, by rw [htrim, hup, dmmText_map_upper degD sep minI minF gap h hp]⟩

theorem dmm_not_decimal (degD sep minI minF gap : Str) (hemi : Char)
    (hp : IsDmmParts degD sep minI minF gap hemi) :
    matchDecimal (dmmText degD sep minI minF gap hemi) = none := by
  cases hm : matchDecimal (dmmText degD sep minI minF gap hemi) with
  | none => rfl
  | some r =>
    obtain ⟨neg, intD, fracD⟩ := r
    obtain ⟨hparts, htext⟩ := matchDecimal_sound _ neg intD fracD hm
    have hmem : hemi ∈ decimalText neg intD fracD := by
      rw [← htext]; unfold dmmText; simp
    have hh : isHemi hemi = true := hp.2.2.2.2.2.2.2.2.2.2.2
    rcases decimalText_mem neg intD fracD hparts hemi hmem with h | h | h
    · rw [h] at hh; exact absurd hh (by decide)
    · rw [h] at hh; exact absurd hh (by decide)
    · rw [not_digit_of_hemi hemi hh] at h; cases h

/-- What `parseCoordPart` returns, in terms of the upper-cased trimmed text. -/
theorem parseCoordPart_eq (H : Host) (s : Str) (isLat : Bool) (hs : s ≠ []) :
    parseCoordPart H s isLat
      = match matchDecimal (H.toUpperCase (trim s)) with
        | some (neg, intD, fracD) => some (decimalValue neg intD fracD)
        | none =>
          match matchDMM (H.toUpperCase (trim s)) with
          | none => none
          | some (degD, minI, minF, hemi) =>
            if inRange isLat (dmmDouble degD minI minF hemi) = true then
              some (dmmDouble degD minI minF hemi)
            else none := by
  unfold parseCoordPart
  have hs2 : (s == []) = false := by simpa using hs
  simp only [hs2, Bool.false_eq_true, if_false]
  cases hd : matchDecimal (H.toUpperCase (trim s)) with
  | some r => rfl
  | none =>
    simp only
    cases hm : matchDMM (H.toUpperCase (trim s)) with
    | none => rfl
    | some r =>
      obtain ⟨degD, minI, minF, hemi⟩ := r
      simp only [inRange]
      cases isLat
      · by_cases h1 : ((dmmDouble degD minI minF hemi).ltInt (-180) ||
            (dmmDouble degD minI minF hemi).gtInt 180) = true <;> simp [h1]
      · by_cases h1 : ((dmmDouble degD minI minF hemi).ltInt (-90) ||
            (dmmDouble degD minI minF hemi).gtInt 90) = true <;> simp [h1]

theorem dmmValue_toRat (degD minI minF : Str) (hemi : Char) :
    (dmmValue degD minI minF hemi).toRat
      = (if hemi = 'S' ∨ hemi = 'W' then -1 else 1) *
          ((digitsVal degD : ℚ) + ((digitsVal (minI ++ minF) : ℚ) / 10 ^ minF.length) / 60) := by
  unfold dmmValue Frac.toRat
  have h10 : (10 : ℚ) ^ minF.length ≠ 0 := pow_ne_zero _ (by norm_num)
  by_cases hs : hemi = 'S' ∨ hemi = 'W'
  · have hb : (hemi == 'S' || hemi == 'W') = true := by simpa using hs
    simp only [hb, if_true, hs]
    push_cast
    field_simp
    ring
  · have hb : (hemi == 'S' || hemi == 'W') = false := by simpa using hs
    simp only [hb, hs, if_false, Bool.false_eq_true]
    push_cast
    field_simp
    ring

theorem decimalValue_toRat (neg : Bool) (intD fracD : Str) :
    (decimalValue neg intD fracD).toRat
      = (if neg = true then -1 else 1) *
          ((digitsVal (intD ++ fracD) : ℚ) / 10 ^ fracD.length) := by
  unfold decimalValue Frac.toRat
  cases neg with
  | true =>
    simp only [if_true]
    push_cast
    ring
  | false =>
    simp only [Bool.false_eq_true, if_false]
    push_cast
    ring

theorem ltInt_iff (f : Frac) (k : Int) (hden : 0 < f.den) :
    f.ltInt k = true ↔ f.toRat < (k : ℚ) := by
  unfold Frac.ltInt Frac.toRat
  have hd : (0 : ℚ) < (f.den : ℚ) := by exact_mod_cast hden
  rw [decide_eq_true_eq, div_lt_iff₀ hd]
  constructor
  · intro h; exact_mod_cast h
  · intro h; exact_mod_cast h

theorem gtInt_iff (f : Frac) (k : Int) (hden : 0 < f.den) :
    f.gtInt k = true ↔ (k : ℚ) < f.toRat := by
  unfold Frac.gtInt Frac.toRat
  have hd : (0 : ℚ) < (f.den : ℚ) := by exact_mod_cast hden
  rw [decide_eq_true_eq, lt_div_iff₀ hd]
  constructor
  · intro h; exact_mod_cast h
  · intro h; exact_mod_cast h

theorem inRange_iff (isLat : Bool) (f : Frac) (hden : 0 < f.den) :
    inRange isLat f = true ↔
      (-(if isLat = true then 90 else 180 : ℚ) ≤ f.toRat ∧
        f.toRat ≤ (if isLat = true then 90 else 180 : ℚ)) := by
  have a1 := ltInt_iff f (-90) hden
  have a2 := gtInt_iff f 90 hden
  have a3 := ltInt_iff f (-180) hden
  have a4 := gtInt_iff f 180 hden
  unfold inRange
  cases isLat with
  | true =>
    simp only [if_true, Bool.not_eq_true', Bool.or_eq_false_iff]
    rw [← Bool.not_eq_true, ← Bool.not_eq_true, a1, a2]
    push_cast
    constructor
    · rintro ⟨h1, h2⟩; exact ⟨not_lt.mp h1, not_lt.mp h2⟩
    · rintro ⟨h1, h2⟩; exact ⟨not_lt.mpr h1, not_lt.mpr h2⟩
  | false =>
    simp only [Bool.false_eq_true, if_false, Bool.not_eq_true', Bool.or_eq_false_iff]
    rw [← Bool.not_eq_true, ← Bool.not_eq_true, a3, a4]
    push_cast
    constructor
    · rintro ⟨h1, h2⟩; exact ⟨not_lt.mp h1, not_lt.mp h2⟩
    · rintro ⟨h1, h2⟩; exact ⟨not_lt.mpr h1, not_lt.mpr h2⟩

theorem dmmValue_den_pos (degD minI minF : Str) (hemi : Char) :
    0 < (dmmValue degD minI minF hemi).den := by
  unfold dmmValue
  simp only
  positivity

/-! ## Lemmas on rounding to a double -/

theorem roundHalfEven_cases (a b : Nat) :
    (roundHalfEven a b = a / b ∧ 2 * (a % b) ≤ b) ∨
    (roundHalfEven a b = a / b + 1 ∧ b ≤ 2 * (a % b)) := by
  unfold roundHalfEven
  simp only
  split
  · left; exact ⟨rfl, by omega⟩
  · split
    · right; exact ⟨rfl, by omega⟩
    · split
      · left; exact ⟨rfl, by omega⟩
      · right; exact ⟨rfl, by omega⟩

theorem roundHalfEven_err (a b : Nat) (hb : 0 < b) :
    |(roundHalfEven a b : ℚ) - (a : ℚ) / b| ≤ 1 / 2 := by
  have hbq : (0 : ℚ) < b := by exact_mod_cast hb
  have hdm : ((b * (a / b) + a % b : Nat) : ℚ) = (a : ℚ) := by
    exact_mod_cast congrArg (Nat.cast : Nat → ℚ) (Nat.div_add_mod a b)
  push_cast at hdm
  have ha : (a : ℚ) / b = ((a / b : Nat) : ℚ) + ((a % b : Nat) : ℚ) / b := by
    rw [← hdm]; field_simp; ring
  rw [abs_le, ha]
  rcases roundHalfEven_cases a b with ⟨h1, h2⟩ | ⟨h1, h2⟩
  · rw [h1]
    have h3 : ((a % b : Nat) : ℚ) / b ≤ 1 / 2 := by
      rw [div_le_iff₀ hbq]
      have : ((2 * (a % b) : Nat) : ℚ) ≤ (b : ℚ) := by exact_mod_cast h2
      push_cast at this
      linarith
    have h4 : (0 : ℚ) ≤ ((a % b : Nat) : ℚ) / b := by positivity
    constructor <;> linarith
  · rw [h1]
    have h3 : 1 / 2 ≤ ((a % b : Nat) : ℚ) / b := by
      rw [le_div_iff₀ hbq]
      have : (b : ℚ) ≤ ((2 * (a % b) : Nat) : ℚ) := by exact_mod_cast h2
      push_cast at this
      linarith
    have h4 : ((a % b : Nat) : ℚ) / b ≤ 1 := by
      rw [div_le_iff₀ hbq]
      have : a % b < b := Nat.mod_lt a hb
      have : ((a % b : Nat) : ℚ) ≤ (b : ℚ) := by exact_mod_cast this.le
      linarith
    push_cast
    constructor <;> linarith

theorem roundHalfEven_le (a b N : Nat) (hb : 0 < b) (h : a ≤ N * b) :
    roundHalfEven a b ≤ N := by
  have hq : a / b ≤ N := Nat.div_le_of_le_mul (by rw [Nat.mul_comm]; exact h)
  rcases roundHalfEven_cases a b with ⟨h1, _⟩ | ⟨h1, h2⟩
  · rw [h1]; exact hq
  · rw [h1]
    by_contra hc
    have hqN : a / b = N := by omega
    have hdm := Nat.div_add_mod a b
    rw [hqN, Nat.mul_comm] at hdm
    have : 0 < a % b := by omega
    omega

theorem binaryPlacesFrom_ge (n d : Nat) (hx : n < 2 ^ 11 * d) :
    ∀ fuel j : Nat, 42 ≤ j + fuel → 42 ≤ binaryPlacesFrom n d fuel j := by
  intro fuel
  induction fuel with
  | zero => intro j hj; simpa [binaryPlacesFrom] using hj
  | succ f ih =>
    intro j hj
    simp only [binaryPlacesFrom]
    split
    · rename_i hc
      by_contra hlt
      have hj2 : j ≤ 41 := by omega
      have h1 : n * 2 ^ j ≤ n * 2 ^ 41 :=
        Nat.mul_le_mul_left _ (Nat.pow_le_pow_right (by norm_num) hj2)
      have h2 : n * 2 ^ 41 < 2 ^ 11 * d * 2 ^ 41 :=
        Nat.mul_lt_mul_of_pos_right hx (by positivity)
      have h3 : 2 ^ 11 * d * 2 ^ 41 = 2 ^ 52 * d := by ring
      omega
    · exact ih (j + 1) (by omega)

theorem binaryPlaces_ge (n d : Nat) (hx : n < 2 ^ 11 * d) :
    42 ≤ binaryPlaces n d :=
  binaryPlacesFrom_ge n d hx 1074 0 (by norm_num)

theorem doubleOfRatio_den_pos (n d : Nat) : 0 < (doubleOfRatio n d).den := by
  unfold doubleOfRatio
  split
  · decide
  split
  · simp only
    have hg : Nat.gcd (roundHalfEven (n * 2 ^ binaryPlaces n d) d) (2 ^ binaryPlaces n d)
        ∣ 2 ^ binaryPlaces n d := Nat.gcd_dvd_right _ _
    exact Nat.div_pos (Nat.le_of_dvd (by positivity) hg)
      (Nat.gcd_pos_of_pos_right _ (by positivity))
  · exact Nat.one_pos

theorem doubleOfRatio_num_nonneg (n d : Nat) : 0 ≤ (doubleOfRatio n d).num := by
  unfold doubleOfRatio
  split
  · decide
  split
  · simp only
    exact Int.natCast_nonneg _
  · simp only
    exact Int.natCast_nonneg _

theorem doubleOfRatio_toRat (n d : Nat) (hn : n ≠ 0) (hx : n < 2 ^ 53 * d) :
    (doubleOfRatio n d).toRat
      = (roundHalfEven (n * 2 ^ binaryPlaces n d) d : ℚ) / 2 ^ binaryPlaces n d := by
  unfold doubleOfRatio Frac.toRat
  simp only [hn, if_false, hx, if_true]
  have hg1 := Nat.gcd_dvd_left (roundHalfEven (n * 2 ^ binaryPlaces n d) d)
    (2 ^ binaryPlaces n d)
  have hg2 := Nat.gcd_dvd_right (roundHalfEven (n * 2 ^ binaryPlaces n d) d)
    (2 ^ binaryPlaces n d)
  have hg0 : Nat.gcd (roundHalfEven (n * 2 ^ binaryPlaces n d) d) (2 ^ binaryPlaces n d)
      ≠ 0 := (Nat.gcd_pos_of_pos_right _ (by positivity)).ne'
  have hgq : ((Nat.gcd (roundHalfEven (n * 2 ^ binaryPlaces n d) d)
      (2 ^ binaryPlaces n d) : Nat) : ℚ) ≠ 0 := by exact_mod_cast hg0
  rw [Int.cast_natCast, Nat.cast_div hg1 hgq, Nat.cast_div hg2 hgq]
  push_cast
  field_simp

/-- The double nearest to a number below 2048 is off from it by at most `2 ^ (-43)`. -/
theorem doubleOfRatio_err (n d : Nat) (hd : 0 < d) (hx : n < 2 ^ 11 * d) :
    |(doubleOfRatio n d).toRat - (n : ℚ) / d| ≤ 1 / 2 ^ 43 := by
  by_cases hn : n = 0
  · subst hn
    simp [doubleOfRatio, Frac.toRat]
  · rw [doubleOfRatio_toRat n d hn (by omega)]
    have hk := binaryPlaces_ge n d hx
    have he := roundHalfEven_err (n * 2 ^ binaryPlaces n d) d hd
    have hp : (0 : ℚ) < 2 ^ binaryPlaces n d := by positivity
    have hdq : (0 : ℚ) < d := by exact_mod_cast hd
    have hrew : (roundHalfEven (n * 2 ^ binaryPlaces n d) d : ℚ) / 2 ^ binaryPlaces n d
        - (n : ℚ) / d
        = ((roundHalfEven (n * 2 ^ binaryPlaces n d) d : ℚ)
            - ((n * 2 ^ binaryPlaces n d : Nat) : ℚ) / d) / 2 ^ binaryPlaces n d := by
      push_cast
      field_simp
      ring
    rw [hrew, abs_div, abs_of_pos hp, div_le_iff₀ hp]
    have hpow : (2 : ℚ) ^ 42 ≤ 2 ^ binaryPlaces n d :=
      pow_le_pow_right₀ (by norm_num) hk
    calc |(roundHalfEven (n * 2 ^ binaryPlaces n d) d : ℚ)
            - ((n * 2 ^ binaryPlaces n d : Nat) : ℚ) / d| ≤ 1 / 2 := he
      _ = 1 / 2 ^ 43 * 2 ^ 42 := by norm_num
      _ ≤ 1 / 2 ^ 43 * 2 ^ binaryPlaces n d :=
        mul_le_mul_of_nonneg_left hpow (by positivity)

/-- Rounding to a double does not pass a whole number below `2 ^ 53`. -/
theorem doubleOfRatio_le (n d N : Nat) (hd : 0 < d) (hN : N < 2 ^ 53) (h : n ≤ N * d) :
    (doubleOfRatio n d).toRat ≤ N := by
  by_cases hn : n = 0
  · subst hn
    simp [doubleOfRatio, Frac.toRat]
  · have hx : n < 2 ^ 53 * d :=
      lt_of_le_of_lt h (Nat.mul_lt_mul_of_pos_right hN hd)
    rw [doubleOfRatio_toRat n d hn hx]
    have hp : (0 : ℚ) < 2 ^ binaryPlaces n d := by positivity
    rw [div_le_iff₀ hp]
    have h2 : n * 2 ^ binaryPlaces n d ≤ (N * 2 ^ binaryPlaces n d) * d := by
      calc n * 2 ^ binaryPlaces n d ≤ (N * d) * 2 ^ binaryPlaces n d :=
            Nat.mul_le_mul_right _ h
        _ = (N * 2 ^ binaryPlaces n d) * d := by ring
    have := roundHalfEven_le _ d _ hd h2
    exact_mod_cast this

theorem doubleOfRatio_nonneg (n d : Nat) : 0 ≤ (doubleOfRatio n d).toRat := by
  unfold Frac.toRat
  have h1 := doubleOfRatio_num_nonneg n d
  have h2 : (0 : ℚ) ≤ ((doubleOfRatio n d).num : ℚ) := by exact_mod_cast h1
  positivity

/-- The fraction that the next operation starts from: the numerator as a natural
number, over the denominator times `c`. -/
theorem doubleOfRatio_cast (n d : Nat) :
    (((doubleOfRatio n d).num.toNat : Nat) : ℚ) / ((doubleOfRatio n d).den : ℚ)
      = (doubleOfRatio n d).toRat := by
  unfold Frac.toRat
  have h1 := doubleOfRatio_num_nonneg n d
  have : (((doubleOfRatio n d).num.toNat : Nat) : Int) = (doubleOfRatio n d).num :=
    Int.toNat_of_nonneg h1
  have h3 : (((doubleOfRatio n d).num.toNat : Nat) : ℚ) = ((doubleOfRatio n d).num : ℚ) := by
    exact_mod_cast congrArg (Int.cast : Int → ℚ) this
  rw [h3]

theorem doubleOfRatio_le_rat (n d N : Nat) (hd : 0 < d) (hN : N < 2 ^ 53)
    (h : (n : ℚ) / d ≤ N) :
    (doubleOfRatio n d).toRat ≤ N := by
  apply doubleOfRatio_le n d N hd hN
  have hdq : (0 : ℚ) < d := by exact_mod_cast hd
  rw [div_le_iff₀ hdq] at h
  exact_mod_cast h

theorem doubleOfRatio_err_rat (n d : Nat) (hd : 0 < d) (h : (n : ℚ) / d ≤ 2047) :
    |(doubleOfRatio n d).toRat - (n : ℚ) / d| ≤ 1 / 2 ^ 43 := by
  apply doubleOfRatio_err n d hd
  have hdq : (0 : ℚ) < d := by exact_mod_cast hd
  rw [div_le_iff₀ hdq] at h
  have h2 : n ≤ 2047 * d := by exact_mod_cast h
  omega

theorem digitsVal_fold_lt (ds : Str) (hds : ∀ c ∈ ds, isDigit c = true) :
    ∀ acc : Nat, ds.foldl (fun acc c => 10 * acc + (c.toNat - 0x30)) acc
      < (acc + 1) * 10 ^ ds.length := by
  induction ds with
  | nil => intro acc; simp
  | cons c cs ih =>
    intro acc
    simp only [List.foldl_cons, List.length_cons]
    have hc := (digit_toNat c).mp (hds c (List.mem_cons_self _ _))
    have h1 := ih (fun x hx => hds x (List.mem_cons_of_mem _ hx)) (10 * acc + (c.toNat - 0x30))
    have h2 : (10 * acc + (c.toNat - 0x30) + 1) * 10 ^ cs.length
        ≤ (acc + 1) * 10 ^ (cs.length + 1) := by
      have : 10 * acc + (c.toNat - 0x30) + 1 ≤ (acc + 1) * 10 := by omega
      calc (10 * acc + (c.toNat - 0x30) + 1) * 10 ^ cs.length
          ≤ ((acc + 1) * 10) * 10 ^ cs.length := Nat.mul_le_mul_right _ this
        _ = (acc + 1) * 10 ^ (cs.length + 1) := by ring
    omega

theorem digitsVal_lt (ds : Str) (hds : ∀ c ∈ ds, isDigit c = true) :
    digitsVal ds < 10 ^ ds.length := by
  have := digitsVal_fold_lt ds hds 0
  simpa [digitsVal] using this

/-- The minutes of a text of degrees and minutes are below 100, the degrees below
1000. -/
theorem dmm_parts_bounds (degD minI minF : Str) (hdeg : degD.length ≤ 3)
    (hdegd : ∀ c ∈ degD, isDigit c = true) (hmin : minI.length ≤ 2)
    (hmind : ∀ c ∈ minI ++ minF, isDigit c = true) :
    digitsVal degD < 1000 ∧ digitsVal (minI ++ minF) < 100 * 10 ^ minF.length := by
  constructor
  · have h1 := digitsVal_lt degD hdegd
    have h2 : 10 ^ degD.length ≤ 10 ^ 3 := Nat.pow_le_pow_right (by norm_num) hdeg
    omega
  · have h1 := digitsVal_lt (minI ++ minF) hmind
    rw [List.length_append, Nat.pow_add] at h1
    have h2 : 10 ^ minI.length ≤ 10 ^ 2 := Nat.pow_le_pow_right (by norm_num) hmin
    have h3 : 10 ^ minI.length * 10 ^ minF.length ≤ 10 ^ 2 * 10 ^ minF.length :=
      Nat.mul_le_mul_right _ h2
    omega

theorem dmmSum_den_pos (degD minI minF : Str) : 0 < (dmmSum degD minI minF).den :=
  doubleOfRatio_den_pos _ _

theorem dmmDouble_den_pos (degD minI minF : Str) (hemi : Char) :
    0 < (dmmDouble degD minI minF hemi).den := by
  unfold dmmDouble
  simp only
  split
  · exact dmmSum_den_pos _ _ _
  · exact dmmSum_den_pos _ _ _

theorem dmmDouble_toRat (degD minI minF : Str) (hemi : Char) :
    (dmmDouble degD minI minF hemi).toRat
      = (if hemi = 'S' ∨ hemi = 'W' then -1 else 1) * (dmmSum degD minI minF).toRat := by
  unfold dmmDouble Frac.toRat
  by_cases hs : hemi = 'S' ∨ hemi = 'W'
  · have hb : (hemi == 'S' || hemi == 'W') = true := by simpa using hs
    simp only [hb, if_true, hs]
    push_cast
    ring
  · have hb : (hemi == 'S' || hemi == 'W') = false := by simpa using hs
    simp only [hb, hs, if_false, Bool.false_eq_true]
    ring

/-- The three roundings of `dmmSum`, with the fractions they start from. -/
theorem dmmSum_steps (degD minI minF : Str) :
    ∃ mins q : Frac,
      mins = doubleOfRatio (digitsVal (minI ++ minF)) (10 ^ minF.length) ∧
      q = doubleOfRatio mins.num.toNat (mins.den * 60) ∧
      dmmSum degD minI minF = doubleOfRatio (digitsVal degD * q.den + q.num.toNat) q.den ∧
      0 < mins.den ∧ 0 < q.den ∧
      ((mins.num.toNat : Nat) : ℚ) / ((mins.den * 60 : Nat) : ℚ) = mins.toRat / 60 ∧
      ((digitsVal degD * q.den + q.num.toNat : Nat) : ℚ) / (q.den : ℚ)
        = (digitsVal degD : ℚ) + q.toRat ∧
      0 ≤ mins.toRat ∧ 0 ≤ q.toRat := by
  refine ⟨_, _, rfl, rfl, rfl, doubleOfRatio_den_pos _ _, doubleOfRatio_den_pos _ _, ?_, ?_,
    doubleOfRatio_nonneg _ _, doubleOfRatio_nonneg _ _⟩
  · rw [← doubleOfRatio_cast]
    have := doubleOfRatio_den_pos (digitsVal (minI ++ minF)) (10 ^ minF.length)
    have h : ((doubleOfRatio (digitsVal (minI ++ minF)) (10 ^ minF.length)).den : ℚ) ≠ 0 := by
      exact_mod_cast this.ne'
    push_cast
    field_simp
  · rw [← doubleOfRatio_cast]
    have := doubleOfRatio_den_pos
      (doubleOfRatio (digitsVal (minI ++ minF)) (10 ^ minF.length)).num.toNat
      ((doubleOfRatio (digitsVal (minI ++ minF)) (10 ^ minF.length)).den * 60)
    have h : ((doubleOfRatio
        (doubleOfRatio (digitsVal (minI ++ minF)) (10 ^ minF.length)).num.toNat
        ((doubleOfRatio (digitsVal (minI ++ minF)) (10 ^ minF.length)).den * 60)).den : ℚ)
        ≠ 0 := by
      exact_mod_cast this.ne'
    push_cast
    field_simp

/-- The double that the code computes for `D + M/60` is off from it by at most
`2 ^ (-41)`. -/
theorem dmmSum_err (degD minI minF : Str) (hdeg : degD.length ≤ 3)
    (hdegd : ∀ c ∈ degD, isDigit c = true) (hmin : minI.length ≤ 2)
    (hmind : ∀ c ∈ minI ++ minF, isDigit c = true) :
    |(dmmSum degD minI minF).toRat
        - ((digitsVal degD : ℚ) + ((digitsVal (minI ++ minF) : ℚ) / 10 ^ minF.length) / 60)|
      ≤ 1 / 2 ^ 41 := by
  obtain ⟨hD, hM⟩ := dmm_parts_bounds degD minI minF hdeg hdegd hmin hmind
  obtain ⟨mins, q, hmins, hq, hv, hmd, hqd, hc1, hc2, hm0, hq0⟩ := dmmSum_steps degD minI minF
  have h10 : 0 < 10 ^ minF.length := by positivity
  have h10q : (0 : ℚ) < 10 ^ minF.length := by positivity
  have hMq : ((digitsVal (minI ++ minF) : Nat) : ℚ) / ((10 ^ minF.length : Nat) : ℚ) ≤ 100 := by
    rw [div_le_iff₀ (by exact_mod_cast h10)]
    exact_mod_cast hM.le
  have e1 := doubleOfRatio_err_rat (digitsVal (minI ++ minF)) (10 ^ minF.length) h10
    (by linarith)
  have b1 := doubleOfRatio_le_rat (digitsVal (minI ++ minF)) (10 ^ minF.length) 100 h10
    (by norm_num) (by exact_mod_cast hMq)
  rw [← hmins] at e1 b1
  have hmd60 : 0 < mins.den * 60 := by positivity
  have hin2 : ((mins.num.toNat : Nat) : ℚ) / ((mins.den * 60 : Nat) : ℚ) ≤ 2 := by
    rw [hc1]; push_cast at b1; linarith
  have e2 := doubleOfRatio_err_rat mins.num.toNat (mins.den * 60) hmd60 (by linarith)
  have b2 := doubleOfRatio_le_rat mins.num.toNat (mins.den * 60) 2 hmd60
    (by norm_num) (by exact_mod_cast hin2)
  rw [← hq, hc1] at e2
  rw [← hq] at b2
  have hDq : ((digitsVal degD : Nat) : ℚ) ≤ 999 := by exact_mod_cast (by omega : digitsVal degD ≤ 999)
  have hin3 : ((digitsVal degD * q.den + q.num.toNat : Nat) : ℚ) / (q.den : ℚ) ≤ 2047 := by
    rw [hc2]; push_cast at b2; linarith
  have e3 := doubleOfRatio_err_rat (digitsVal degD * q.den + q.num.toNat) q.den hqd hin3
  rw [← hv, hc2] at e3
  push_cast at e1
  rw [abs_le] at e1 e2 e3 ⊢
  have hpow : (1 : ℚ) / 2 ^ 41 = 4 * (1 / 2 ^ 43) := by norm_num
  have hpos : (0 : ℚ) < 1 / 2 ^ 43 := by positivity
  constructor <;> linarith [e1.1, e1.2, e2.1, e2.2, e3.1, e3.2]

/-- When `D + M/60` is at most a whole number up to 180, so is the double that the
code computes for it. -/
theorem dmmSum_le (degD minI minF : Str) (B : Nat) (hB : B ≤ 180)
    (h : (digitsVal degD : ℚ) + ((digitsVal (minI ++ minF) : ℚ) / 10 ^ minF.length) / 60 ≤ B) :
    (dmmSum degD minI minF).toRat ≤ B := by
  obtain ⟨mins, q, hmins, hq, hv, hmd, hqd, hc1, hc2, hm0, hq0⟩ := dmmSum_steps degD minI minF
  have h10 : 0 < 10 ^ minF.length := by positivity
  have hM0 : (0 : ℚ) ≤ (digitsVal (minI ++ minF) : ℚ) / 10 ^ minF.length := by positivity
  have hDB : digitsVal degD ≤ B := by
    have : ((digitsVal degD : Nat) : ℚ) ≤ (B : ℚ) := by linarith
    exact_mod_cast this
  have hsub : ((B - digitsVal degD : Nat) : ℚ) = (B : ℚ) - (digitsVal degD : ℚ) :=
    Nat.cast_sub hDB
  have b1 := doubleOfRatio_le_rat (digitsVal (minI ++ minF)) (10 ^ minF.length)
    (60 * (B - digitsVal degD)) h10 (by omega) (by push_cast; rw [hsub]; linarith)
  rw [← hmins] at b1
  have hmd60 : 0 < mins.den * 60 := by positivity
  have b2 := doubleOfRatio_le_rat mins.num.toNat (mins.den * 60) (B - digitsVal degD) hmd60
    (by omega) (by rw [hc1]; push_cast at b1 ⊢; rw [hsub] at b1 ⊢; linarith)
  rw [← hq] at b2
  have b3 := doubleOfRatio_le_rat (digitsVal degD * q.den + q.num.toNat) q.den B hqd
    (by omega) (by rw [hc2]; rw [hsub] at b2; linarith)
  rw [← hv] at b3
  exact b3

theorem dmmSum_nonneg (degD minI minF : Str) : 0 ≤ (dmmSum degD minI minF).toRat :=
  doubleOfRatio_nonneg _ _

/-- The double of the code is off from the exact value by at most `2 ^ (-41)`. -/
theorem dmmDouble_err (degD minI minF : Str) (hemi : Char) (hdeg : degD.length ≤ 3)
    (hdegd : ∀ c ∈ degD, isDigit c = true) (hmin : minI.length ≤ 2)
    (hmind : ∀ c ∈ minI ++ minF, isDigit c = true) :
    |(dmmDouble degD minI minF hemi).toRat - (dmmValue degD minI minF hemi).toRat|
      ≤ 1 / 2 ^ 41 := by
  rw [dmmDouble_toRat, dmmValue_toRat]
  have h := dmmSum_err degD minI minF hdeg hdegd hmin hmind
  by_cases hs : hemi = 'S' ∨ hemi = 'W'
  · simp only [hs, if_true]
    rw [abs_le] at h ⊢
    constructor <;> linarith [h.1, h.2]
  · simp only [hs, if_false]
    rw [abs_le] at h ⊢
    constructor <;> linarith [h.1, h.2]

/-- When the exact value is in range, so is the double of the code. -/
theorem dmmDouble_inRange (isLat : Bool) (degD minI minF : Str) (hemi : Char)
    (h : inRange isLat (dmmValue degD minI minF hemi) = true) :
    inRange isLat (dmmDouble degD minI minF hemi) = true := by
  rw [inRange_iff isLat _ (dmmValue_den_pos _ _ _ _), dmmValue_toRat] at h
  rw [inRange_iff isLat _ (dmmDouble_den_pos _ _ _ _), dmmDouble_toRat]
  have h0 := dmmSum_nonneg degD minI minF
  have hM0 : (0 : ℚ) ≤ (digitsVal degD : ℚ)
      + ((digitsVal (minI ++ minF) : ℚ) / 10 ^ minF.length) / 60 := by positivity
  cases isLat with
  | true =>
    simp only [if_true] at h ⊢
    have hle := dmmSum_le degD minI minF 90 (by norm_num) (by
      by_cases hs : hemi = 'S' ∨ hemi = 'W'
      · simp only [hs, if_true] at h; push_cast; linarith [h.1]
      · simp only [hs, if_false] at h; push_cast; linarith [h.2])
    push_cast at hle
    by_cases hs : hemi = 'S' ∨ hemi = 'W'
    · simp only [hs, if_true]; constructor <;> linarith
    · simp only [hs, if_false]; constructor <;> linarith
  | false =>
    simp only [Bool.false_eq_true, if_false] at h ⊢
    have hle := dmmSum_le degD minI minF 180 (by norm_num) (by
      by_cases hs : hemi = 'S' ∨ hemi = 'W'
      · simp only [hs, if_true] at h; push_cast; linarith [h.1]
      · simp only [hs, if_false] at h; push_cast; linarith [h.2])
    push_cast at hle
    by_cases hs : hemi = 'S' ∨ hemi = 'W'
    · simp only [hs, if_true]; constructor <;> linarith
    · simp only [hs, if_false]; constructor <;> linarith

theorem parse_decimal (H : Host) (isLat neg : Bool) (intD fracD : Str)
    (h : IsDecimalParts intD fracD) :
    parseCoordPart H (decimalText neg intD fracD) isLat
      = some (decimalValue neg intD fracD) := by
  obtain ⟨hne, hcanon⟩ := decimalText_canon H neg intD fracD h
  rw [parseCoordPart_eq H _ isLat hne, hcanon, matchDecimal_complete neg intD fracD h]

theorem parse_dmm (H : Host) (isLat : Bool) (degD sep minI minF gap : Str) (h : Char)
    (hh : h ∈ "NSEWnsew".toList) (hp : IsDmmParts degD sep minI minF gap h.toUpper)
    (hup : H.toUpperCase (dmmText degD sep minI minF gap h)
      = (dmmText degD sep minI minF gap h).map Char.toUpper) :
    parseCoordPart H (dmmText degD sep minI minF gap h) isLat
      = if inRange isLat (dmmDouble degD minI minF h.toUpper) = true then
          some (dmmDouble degD minI minF h.toUpper)
        else none := by
  obtain ⟨hne, hcanon⟩ := dmmText_canon H degD sep minI minF gap h hh hp hup
  rw [parseCoordPart_eq H _ isLat hne, hcanon, dmm_not_decimal _ _ _ _ _ _ hp,
    matchDMM_complete _ _ _ _ _ _ hp]

theorem parse_sound (H : Host) (isLat : Bool) (s : Str) (v : Frac)
    (h : parseCoordPart H s isLat = some v) :
    (∃ neg intD fracD, IsDecimalParts intD fracD ∧
      H.toUpperCase (trim s) = decimalText neg intD fracD ∧
      v = decimalValue neg intD fracD) ∨
    (∃ degD sep minI minF gap hemi, IsDmmParts degD sep minI minF gap hemi ∧
      H.toUpperCase (trim s) = dmmText degD sep minI minF gap hemi ∧
      v = dmmDouble degD minI minF hemi ∧ inRange isLat v = true) := by
  have hs : s ≠ [] := by
    intro he
    rw [he] at h
    simp [parseCoordPart] at h
  rw [parseCoordPart_eq H s isLat hs] at h
  cases hd : matchDecimal (H.toUpperCase (trim s)) with
  | some r =>
    obtain ⟨neg, intD, fracD⟩ := r
    rw [hd] at h
    simp only [Option.some.injEq] at h
    obtain ⟨hparts, htext⟩ := matchDecimal_sound _ neg intD fracD hd
    exact Or.inl ⟨neg, intD, fracD, hparts, htext, h.symm⟩
  | none =>
    rw [hd] at h
    simp only at h
    cases hm : matchDMM (H.toUpperCase (trim s)) with
    | none => rw [hm] at h; cases h
    | some r =>
      obtain ⟨degD, minI, minF, hemi⟩ := r
      rw [hm] at h
      simp only at h
      by_cases hr : inRange isLat (dmmDouble degD minI minF hemi) = true
      · rw [if_pos hr] at h
        simp only [Option.some.injEq] at h
        obtain ⟨sep, gap, hparts, htext⟩ := matchDMM_sound _ degD minI minF hemi hm
        exact Or.inr ⟨degD, sep, minI, minF, gap, hemi, hparts, htext, h.symm, by rw [← h]; exact hr⟩
      · rw [if_neg hr] at h; cases h

/-- C17: a text in decimal notation is returned as its value without any range test:
`parseCoordPart("123.4", true)` is 123.4, above 90, `parseCoordPart("-200", false)` is
-200, and `parseLatLon("123.4", "0")` is not `null`.  Only a value that did not come
from decimal notation is within 90 (latitude) or 180 (longitude) of zero. -/
theorem C17_decimal_skips_range_check (H : Host) :
    parseCoordPart H "123.4".toList true = some { num := 1234, den := 10 } ∧
    (90 : ℚ) < ({ num := 1234, den := 10 } : Frac).toRat ∧
    parseCoordPart H "-200".toList false = some { num := -200, den := 1 } ∧
    ({ num := -200, den := 1 } : Frac).toRat < (-180 : ℚ) ∧
    parseLatLon H "123.4".toList "0".toList
      = some ({ num := 1234, den := 10 }, { num := 0, den := 1 }) ∧
    (∀ (isLat : Bool) (s : Str) (v : Frac),
      matchDecimal (H.toUpperCase (trim s)) = none → parseCoordPart H s isLat = some v →
        -(if isLat = true then 90 else 180 : ℚ) ≤ v.toRat ∧
          v.toRat ≤ (if isLat = true then 90 else 180 : ℚ)) := by
  have h1 : parseCoordPart H "123.4".toList true = some { num := 1234, den := 10 } :=
    parse_decimal H true false "123".toList "4".toList ⟨by decide, by decide⟩
  have h2 : parseCoordPart H "-200".toList false = some { num := -200, den := 1 } :=
    parse_decimal H false true "200".toList [] ⟨by decide, by decide⟩
  have h3 : parseCoordPart H "0".toList false = some { num := 0, den := 1 } :=
    parse_decimal H false false "0".toList [] ⟨by decide, by decide⟩
  refine ⟨h1, by norm_num [Frac.toRat], h2, by norm_num [Frac.toRat], ?_, ?_⟩
  · unfold parseLatLon
    rw [h1, h3]
  · intro isLat s v hnd hv
    rcases parse_sound H isLat s v hv with ⟨neg, intD, fracD, hparts, htext, _⟩ |
      ⟨degD, sep, minI, minF, gap, hemi, _, _, hval, hr⟩
    · rw [htext, matchDecimal_complete neg intD fracD hparts] at hnd
      cases hnd
    · exact (inRange_iff isLat v (by rw [hval]; exact dmmDouble_den_pos _ _ _ _)).mp hr

/-- C18 (as the code has it): `parseCoordPart` returns the value of a signed decimal
text.  For a text of degrees `D` (1 to 3 digits), a degree sign or white space, minutes
`M` (1 or 2 digits and decimals), an optional apostrophe or white space and a hemisphere
letter in either case, on a host whose `toUpperCase` changes only the letters a to z in
that text (as every host does when the separators lie below U+00B5), it returns the
double that the code computes for `D + M/60`, negated for S and W, which is off from
the exact value by at most `2 ^ (-41)`, when that double is within 90 of zero for a
latitude and within 180 for a longitude, as it is whenever the exact value is, and
`NaN` when it is not.  And whenever `parseCoordPart` returns a number, the upper-cased
trimmed text has one of these two forms. -/
theorem C18_parse_formats (H : Host) (isLat : Bool) :
    (∀ (neg : Bool) (intD fracD : Str), IsDecimalParts intD fracD →
      parseCoordPart H (decimalText neg intD fracD) isLat
        = some (decimalValue neg intD fracD) ∧
      (decimalValue neg intD fracD).toRat
        = (if neg = true then -1 else 1) *
            ((digitsVal (intD ++ fracD) : ℚ) / 10 ^ fracD.length)) ∧
    (∀ (degD sep minI minF gap : Str) (h : Char), h ∈ "NSEWnsew".toList →
      IsDmmParts degD sep minI minF gap h.toUpper →
      H.toUpperCase (dmmText degD sep minI minF gap h)
        = (dmmText degD sep minI minF gap h).map Char.toUpper →
      parseCoordPart H (dmmText degD sep minI minF gap h) isLat
        = (if inRange isLat (dmmDouble degD minI minF h.toUpper) = true then
            some (dmmDouble degD minI minF h.toUpper)
          else none) ∧
      |(dmmDouble degD minI minF h.toUpper).toRat - (dmmValue degD minI minF h.toUpper).toRat|
        ≤ 1 / 2 ^ 41 ∧
      (dmmValue degD minI minF h.toUpper).toRat
        = (if h.toUpper = 'S' ∨ h.toUpper = 'W' then -1 else 1) *
            ((digitsVal degD : ℚ) + ((digitsVal (minI ++ minF) : ℚ) / 10 ^ minF.length) / 60) ∧
      (inRange isLat (dmmDouble degD minI minF h.toUpper) = true ↔
        -(if isLat = true then 90 else 180 : ℚ) ≤ (dmmDouble degD minI minF h.toUpper).toRat ∧
          (dmmDouble degD minI minF h.toUpper).toRat ≤ (if isLat = true then 90 else 180 : ℚ)) ∧
      (-(if isLat = true then 90 else 180 : ℚ) ≤ (dmmValue degD minI minF h.toUpper).toRat ∧
          (dmmValue degD minI minF h.toUpper).toRat ≤ (if isLat = true then 90 else 180 : ℚ) →
        inRange isLat (dmmDouble degD minI minF h.toUpper) = true)) ∧
    (∀ (degD sep minI minF gap : Str) (h : Char), h ∈ "NSEWnsew".toList →
      IsDmmParts degD sep minI minF gap h.toUpper → (∀ c ∈ sep ++ gap, c.toNat < 181) →
      H.toUpperCase (dmmText degD sep minI minF gap h)
        = (dmmText degD sep minI minF gap h).map Char.toUpper) ∧
    (∀ (s : Str) (v : Frac), parseCoordPart H s isLat = some v →
      (∃ neg intD fracD, IsDecimalParts intD fracD ∧
        H.toUpperCase (trim s) = decimalText neg intD fracD ∧
        v = decimalValue neg intD fracD) ∨
      (∃ degD sep minI minF gap hemi, IsDmmParts degD sep minI minF gap hemi ∧
        H.toUpperCase (trim s) = dmmText degD sep minI minF gap hemi ∧
        v = dmmDouble degD minI minF hemi ∧ inRange isLat v = true)) := by
  refine ⟨?_, ?_, ?_, parse_sound H isLat⟩
  · intro neg intD fracD h
    exact ⟨parse_decimal H isLat neg intD fracD h, decimalValue_toRat neg intD fracD⟩
  · intro degD sep minI minF gap h hh hp hup
    refine ⟨parse_dmm H isLat degD sep minI minF gap h hh hp hup,
      dmmDouble_err degD minI minF h.toUpper hp.2.1 hp.2.2.1 hp.2.2.2.2.2.2.2.1
        hp.2.2.2.2.2.2.2.2.1,
      dmmValue_toRat degD minI minF h.toUpper,
      inRange_iff isLat _ (dmmDouble_den_pos _ _ _ _), ?_⟩
    intro hr
    exact dmmDouble_inRange isLat degD minI minF h.toUpper
      ((inRange_iff isLat _ (dmmValue_den_pos _ _ _ _)).mpr hr)
  · intro degD sep minI minF gap h hh hp hlow
    exact dmmText_host_upper H degD sep minI minF gap h hh hp hlow

/-- C18, at the two inputs of the claim: "50°45.123'N" and "50 45.123 n" both give the
double next to 50 + 45.123/60, which is 892839505735503 / 2^44; and for
"90 0.0000000000000001 N" the sum rounds to 90, which is within range. -/
theorem C18_parse_formats_witness :
    parseCoordPart codePointHost "50°45.123'N".toList true
      = some { num := 892839505735503, den := 17592186044416 } ∧
    parseCoordPart codePointHost "50 45.123 n".toList true
      = some { num := 892839505735503, den := 17592186044416 } ∧
    parseCoordPart codePointHost "50 45.123".toList true = none ∧
    parseCoordPart codePointHost "90 0.0000000000000001 N".toList true
      = some { num := 90, den := 1 } ∧
    parseCoordPart codePointHost (dmmText "50".toList " ".toList "45".toList "123".toList
        " ".toList 'n') true
      = (if inRange true (dmmDouble "50".toList "45".toList "123".toList 'N') = true then
          some (dmmDouble "50".toList "45".toList "123".toList 'N')
        else none) ∧
    |(dmmDouble "50".toList "45".toList "123".toList 'N').toRat
        - (dmmValue "50".toList "45".toList "123".toList 'N').toRat| ≤ 1 / 2 ^ 41 :=
  ⟨by decide, by decide, by decide, by decide,
   ((C18_parse_formats codePointHost true).2.1 "50".toList " ".toList "45".toList
      "123".toList " ".toList 'n' (by decide)
      ⟨by decide, by decide, by decide, by decide, by decide, by decide, by decide,
        by decide, by decide, by decide, by decide, by decide⟩ rfl).1,
   ((C18_parse_formats codePointHost true).2.1 "50".toList " ".toList "45".toList
      "123".toList " ".toList 'n' (by decide)
      ⟨by decide, by decide, by decide, by decide, by decide, by decide, by decide,
        by decide, by decide, by decide, by decide, by decide⟩ rfl).2.1⟩

/-- C18 (as stated) fails for a value out of range: "95°00'N" is degrees 95, minutes 00
and the letter N, so `D + M/60` is 95, but as a latitude `parseCoordPart` returns `NaN`
for it (as a longitude it returns 95). -/
theorem C18_out_of_range_counterexample :
    "95°00'N".toList = dmmText "95".toList "°".toList "00".toList [] "'".toList 'N' ∧
    (dmmValue "95".toList "00".toList [] 'N').toRat = 95 ∧
    parseCoordPart codePointHost "95°00'N".toList true = none ∧
    parseCoordPart codePointHost "95°00'N".toList false = some { num := 95, den := 1 } := by
  refine ⟨by decide, ?_, by decide, by decide⟩
  rw [dmmValue_toRat]
  have h1 : digitsVal "95".toList = 95 := by decide
  have h2 : digitsVal ("00".toList ++ []) = 0 := by decide
  have h3 : ¬ (('N' : Char) = 'S' ∨ ('N' : Char) = 'W') := by decide
  rw [h1, h2, if_neg h3]
  norm_num

/-- C19 (as the code has it): when the text does not have the form of four digits, two
digits and two digits joined by hyphens (white space around it allowed) with year, month
and day all different from zero, `parseISODate` returns `null` and so does
`calcSunTimes`, for every `lat` and `lon` and whatever the solar computation would
give. -/
theorem C19_malformed_date_gives_null
    (sunMinutes : Bool → Nat → Nat → Nat → JsVal → JsVal → Option JsNum)
    (iso : Str) (lat lon : JsVal)
    (h : ¬ ∃ y mo d, IsoDateText iso y mo d ∧ y ≠ 0 ∧ mo ≠ 0 ∧ d ≠ 0) :
    parseISODate iso = none ∧ calcSunTimes sunMinutes iso lat lon = none := by
  have hp : parseISODate iso = none := by
    cases hq : parseISODate iso with
    | none => rfl
    | some r =>
      obtain ⟨y, mo, d⟩ := r
      obtain ⟨ht, hy, hmo, hd⟩ := parseISODate_sound iso y mo d hq
      exact absurd ⟨y, mo, d, ht, hy, hmo, hd⟩ h
  refine ⟨hp, ?_⟩
  unfold calcSunTimes
  rw [hp]

/-- C19, at concrete inputs: the text "2024-6-21" has a one-digit month, and
"2024-00-10" has month zero; `calcSunTimes` is `null` for both. -/
theorem C19_malformed_date_gives_null_witness :
    calcSunTimes (fun _ _ _ _ _ _ => some (JsNum.num 300)) "2024-6-21".toList
      (deg 50758000) (deg (-1540000)) = none ∧
    calcSunTimes (fun _ _ _ _ _ _ => some (JsNum.num 300)) "2024-00-10".toList
      (deg 50758000) (deg (-1540000)) = none ∧
    calcSunTimes (fun _ _ _ _ _ _ => some (JsNum.num 300)) "2024-06-21".toList
      (deg 50758000) (deg (-1540000)) = some (JsNum.num 300, JsNum.num 300) :=
  ⟨(C19_malformed_date_gives_null (fun _ _ _ _ _ _ => some (JsNum.num 300))
      "2024-6-21".toList (deg 50758000) (deg (-1540000))
      (fun ⟨y, mo, d, ht, hy, hmo, hd⟩ =>
        Option.noConfusion
          ((parseISODate_complete _ y mo d ht hy hmo hd).symm.trans
            (by decide : parseISODate "2024-6-21".toList = none)))).2,
   by decide, by decide⟩

/-- C19 (as stated) fails for a well-formed text that names an impossible date:
`parseISODate` accepts "2024-02-30" and "2024-13-01" as they stand, and `calcSunTimes`
is `null` for them only when the solar computation for that year, month and day is;
so it is not `null` for every solar computation, `lat` and `lon`. -/
theorem C19_impossible_date_counterexample :
    parseISODate "2024-02-30".toList = some (2024, 2, 30) ∧
    parseISODate "2024-13-01".toList = some (2024, 13, 1) ∧
    (∀ (sunMinutes : Bool → Nat → Nat → Nat → JsVal → JsVal → Option JsNum)
        (lat lon : JsVal),
      calcSunTimes sunMinutes "2024-02-30".toList lat lon = none ↔
        (sunMinutes true 2024 2 30 lat lon = none ∨
          sunMinutes false 2024 2 30 lat lon = none)) ∧
    ¬ (∀ (sunMinutes : Bool → Nat → Nat → Nat → JsVal → JsVal → Option JsNum)
        (lat lon : JsVal),
      calcSunTimes sunMinutes "2024-02-30".toList lat lon = none) := by
  have hp : parseISODate "2024-02-30".toList = some (2024, 2, 30) := by decide
  refine ⟨hp, by decide, ?_, ?_⟩
  · intro sunMinutes lat lon
    rw [calcSunTimes_none_iff]
    constructor
    · intro h; exact h 2024 2 30 hp
    · intro h y mo d he
      rw [hp] at he
      simp only [Option.some.injEq, Prod.mk.injEq] at he
      obtain ⟨rfl, rfl, rfl⟩ := he
      exact h
  · intro h
    have := h (fun _ _ _ _ _ _ => some (JsNum.num 300)) (deg 50758000) (deg (-1540000))
    revert this
    decide

/-! ## Lemmas on the MRU list -/

theorem likely_trim (n : Str) : isLikelyRealPortName (trim n) = isLikelyRealPortName n := by
  unfold isLikelyRealPortName
  simp only [trim_trim]

theorem find_trim (l : List PortItem) (n : Str) :
    findPortItemByName l (trim n) = findPortItemByName l n := by
  unfold findPortItemByName
  simp only [trim_trim]

theorem remember_skip (s : Ports) (name : Str)
    (h : findPortItemByName s.knownPorts name = none ∨ isLikelyRealPortName name = false) :
    rememberPort s name = s := by
  unfold rememberPort
  simp only [likely_trim, find_trim]
  rcases h with h | h
  · rw [h]
    split <;> rfl
  · simp [h]

theorem remember_run (s : Ports) (name : Str) (h1 : isLikelyRealPortName name = true)
    (h2 : findPortItemByName s.knownPorts name ≠ none) :
    rememberPort s name
      = cleanPortsInPlace
          { knownPorts := s.knownPorts
            recentPorts :=
              (trim name :: s.recentPorts.filter (fun p => p != trim name)).take
                PORTS_RECENT_LIMIT } := by
  unfold rememberPort
  simp only [likely_trim, find_trim, h1]
  cases hf : findPortItemByName s.knownPorts name with
  | none => exact absurd hf h2
  | some x =>
    simp only [Bool.not_true, Bool.false_eq_true, if_false]
    split
    · rfl
    · rename_i hlen
      rw [List.take_of_length_le (by omega)]

theorem remember_cases (s : Ports) (name : Str) :
    rememberPort s name = s ∨
    (isLikelyRealPortName name = true ∧ findPortItemByName s.knownPorts name ≠ none ∧
      rememberPort s name
        = cleanPortsInPlace
            { knownPorts := s.knownPorts
              recentPorts :=
                (trim name :: s.recentPorts.filter (fun p => p != trim name)).take
                  PORTS_RECENT_LIMIT }) := by
  by_cases h1 : isLikelyRealPortName name = true
  · by_cases h2 : findPortItemByName s.knownPorts name = none
    · exact Or.inl (remember_skip s name (Or.inl h2))
    · exact Or.inr ⟨h1, h2, remember_run s name h1 h2⟩
  · exact Or.inl (remember_skip s name (Or.inr (by simpa using h1)))

theorem filter_likely_fix (l : List Str) (h : ∀ r ∈ l, isLikelyRealPortName r = true) :
    l.filter (fun p => isLikelyRealPortName p) = l :=
  List.filter_eq_self.mpr h

/-- The MRU list after a call that is not skipped, when the names it held pass the
filter. -/
theorem remember_recent (s : Ports) (name : Str) (h1 : isLikelyRealPortName name = true)
    (h2 : findPortItemByName s.knownPorts name ≠ none)
    (h3 : ∀ r ∈ s.recentPorts, isLikelyRealPortName r = true) :
    (rememberPort s name).recentPorts
      = (trim name :: s.recentPorts.filter (fun p => p != trim name)).take
          PORTS_RECENT_LIMIT := by
  rw [remember_run s name h1 h2]
  unfold cleanPortsInPlace
  simp only
  apply filter_likely_fix
  intro r hr
  have hr2 := List.mem_of_mem_take hr
  rcases List.mem_cons.mp hr2 with rfl | hr3
  · rw [likely_trim]; exact h1
  · exact h3 r (List.mem_filter.mp hr3).1

theorem find_filter_likely (l : List PortItem) (name : Str)
    (h1 : isLikelyRealPortName name = true) :
    findPortItemByName (l.filter (fun p => isLikelyRealPortName (portName p))) name
      = findPortItemByName l name := by
  unfold findPortItemByName
  simp only
  split
  · rfl
  · induction l with
    | nil => rfl
    | cons a as ih =>
      by_cases ha : isLikelyRealPortName (portName a) = true
      · simp only [List.filter_cons, ha, if_true, List.find?_cons, ih]
      · have hne : (portName a == trim name) = false := by
          rw [beq_eq_false_iff_ne]
          intro e
          rw [e, likely_trim] at ha
          exact ha h1
        simp only [List.filter_cons, ha, if_false, List.find?_cons, ih, hne,
          Bool.false_eq_true]

theorem remember_known (s : Ports) (name : Str) :
    (rememberPort s name).knownPorts = s.knownPorts ∨
    (rememberPort s name).knownPorts
      = s.knownPorts.filter (fun p => isLikelyRealPortName (portName p)) := by
  rcases remember_cases s name with h | ⟨_, _, h⟩
  · left; rw [h]
  · right; rw [h]; rfl

theorem find_remember (s : Ports) (name m : Str) (hm : isLikelyRealPortName m = true) :
    findPortItemByName (rememberPort s name).knownPorts m
      = findPortItemByName s.knownPorts m := by
  rcases remember_known s name with h | h
  · rw [h]
  · rw [h, find_filter_likely _ _ hm]

theorem take_append_take {α : Type} (a b : List α) (k : Nat) :
    (a ++ b.take k).take k = (a ++ b).take k := by
  rw [List.take_append_eq_append_take, List.take_append_eq_append_take, List.take_take]
  congr 2
  omega

theorem filter_ne_fix (l : List Str) (x : Str) (h : x ∉ l) :
    l.filter (fun p => p != x) = l := by
  apply List.filter_eq_self.mpr
  intro r hr
  simp only [bne_iff_ne, ne_eq]
  intro e
  exact h (e ▸ hr)

/-- The MRU list after a run of calls for names that are in the Directory, pass the
filter, differ from one another and are not yet in the list. -/
theorem rememberAll_recent (names : List Str) :
    ∀ s : Ports, (∀ r ∈ s.recentPorts, isLikelyRealPortName r = true) →
      (∀ n ∈ names, isLikelyRealPortName n = true ∧
        findPortItemByName s.knownPorts n ≠ none) →
      (names.map trim).Nodup → (∀ n ∈ names, trim n ∉ s.recentPorts) →
      (rememberAll s names).recentPorts
        = ((names.map trim).reverse ++ s.recentPorts).take PORTS_RECENT_LIMIT ∨
      (names = [] ∧ (rememberAll s names).recentPorts = s.recentPorts) := by
  induction names with
  | nil =>
    intro s _ _ _ _
    exact Or.inr ⟨rfl, rfl⟩
  | cons n rest ih =>
    intro s h3 hn hnd hfresh
    left
    have h1 := (hn n (List.mem_cons_self _ _)).1
    have h2 := (hn n (List.mem_cons_self _ _)).2
    have hrec := remember_recent s n h1 h2 h3
    rw [filter_ne_fix _ _ (hfresh n (List.mem_cons_self _ _))] at hrec
    simp only [List.map_cons, List.nodup_cons] at hnd
    have hstep : rememberAll s (n :: rest) = rememberAll (rememberPort s n) rest := rfl
    rw [hstep]
    have h3b : ∀ r ∈ (rememberPort s n).recentPorts, isLikelyRealPortName r = true := by
      intro r hr
      rw [hrec] at hr
      rcases List.mem_cons.mp (List.mem_of_mem_take hr) with rfl | hr3
      · rw [likely_trim]; exact h1
      · exact h3 r hr3
    have hnb : ∀ m ∈ rest, isLikelyRealPortName m = true ∧
        findPortItemByName (rememberPort s n).knownPorts m ≠ none := by
      intro m hm
      have := hn m (List.mem_cons_of_mem _ hm)
      exact ⟨this.1, by rw [find_remember s n m this.1]; exact this.2⟩
    have hfb : ∀ m ∈ rest, trim m ∉ (rememberPort s n).recentPorts := by
      intro m hm hr
      rw [hrec] at hr
      rcases List.mem_cons.mp (List.mem_of_mem_take hr) with e | hr3
      · exact hnd.1 (e ▸ List.mem_map_of_mem trim hm)
      · exact hfresh m (List.mem_cons_of_mem _ hm) hr3
    rcases ih (rememberPort s n) h3b hnb hnd.2 hfb with h | ⟨he, h⟩
    · rw [h, hrec, take_append_take]
      simp
    · rw [h, hrec, he]
      simp

theorem remember_recent_shape (s : Ports) (name : Str)
    (h1 : isLikelyRealPortName name = true)
    (h2 : findPortItemByName s.knownPorts name ≠ none) :
    (rememberPort s name).recentPorts
      = trim name ::
          (((s.recentPorts.filter (fun p => p != trim name)).take 19).filter
            (fun p => isLikelyRealPortName p)) := by
  rw [remember_run s name h1 h2]
  unfold cleanPortsInPlace PORTS_RECENT_LIMIT
  simp only [List.take_succ_cons]
  rw [List.filter_cons_of_pos (by rw [likely_trim]; exact h1)]

theorem recent_length_le (s : Ports) (name : Str) :
    (rememberPort s name).recentPorts.length ≤ 20 ∨ rememberPort s name = s := by
  rcases remember_cases s name with h | ⟨h1, h2, _⟩
  · exact Or.inr h
  · left
    rw [remember_recent_shape s name h1 h2, List.length_cons]
    have := List.length_filter_le (fun p => isLikelyRealPortName p)
      ((s.recentPorts.filter (fun p => p != trim name)).take 19)
    have := List.length_take_le 19 (s.recentPorts.filter (fun p => p != trim name))
    omega

/-- C22 (as the code has it): a call of `rememberPort` either leaves the state as it
was (the name is not in the Directory or does not pass the filter) or leaves at most 20
entries in `recentPorts`, so a list of at most 20 entries stays so; and from an empty MRU
list, calls for names that are in the Directory, pass the filter and differ (as trimmed)
leave the trimmed names, the last added first, cut to the first 20: 20 entries when more
than 20 names were added, with no duplicates. -/
theorem C22_mru_bound (s : Ports) (names : List Str) (hempty : s.recentPorts = [])
    (hn : ∀ n ∈ names, isLikelyRealPortName n = true ∧
      findPortItemByName s.knownPorts n ≠ none)
    (hnd : (names.map trim).Nodup) :
    (∀ (t : Ports) (name : Str),
      (rememberPort t name).recentPorts.length ≤ 20 ∨ rememberPort t name = t) ∧
    (∀ (t : Ports) (name : Str), t.recentPorts.length ≤ 20 →
      (rememberPort t name).recentPorts.length ≤ 20) ∧
    (rememberAll s names).recentPorts = ((names.map trim).reverse).take 20 ∧
    (20 < names.length → (rememberAll s names).recentPorts.length = 20) ∧
    (rememberAll s names).recentPorts.Nodup := by
  have hmain : (rememberAll s names).recentPorts = ((names.map trim).reverse).take 20 := by
    rcases rememberAll_recent names s (by rw [hempty]; simp) hn hnd
      (by rw [hempty]; simp) with h | ⟨he, h⟩
    · rw [h, hempty, List.append_nil]; rfl
    · rw [h, hempty, he]; rfl
  refine ⟨recent_length_le, ?_, hmain, ?_, ?_⟩
  · intro t name ht
    rcases recent_length_le t name with h | h
    · exact h
    · rw [h]; exact ht
  · intro hlen
    rw [hmain, List.length_take, List.length_reverse, List.length_map]
    omega
  · rw [hmain]
    exact (List.take_sublist _ _).nodup (List.nodup_reverse.mpr hnd)

/-- C22, at a concrete input: from a Directory of the 21 names "Port A" to "Port U" and
an empty MRU list, one call for each name in turn leaves 20 entries, "Port U" first and
"Port B" last. -/
theorem C22_mru_bound_witness :
    (rememberAll { knownPorts := exampleNames.map PortItem.bare, recentPorts := [] }
        exampleNames).recentPorts.length = 20 ∧
    (rememberAll { knownPorts := exampleNames.map PortItem.bare, recentPorts := [] }
        exampleNames).recentPorts = (exampleNames.drop 1).reverse :=
  ⟨(C22_mru_bound { knownPorts := exampleNames.map PortItem.bare, recentPorts := [] }
      exampleNames rfl (by decide) (by decide)).2.2.2.1 (by decide),
   by decide⟩

/-- C22 (as stated) fails for a call that is skipped: with 21 names in `recentPorts`
and the name "Ryde", which is not in the Directory, `rememberPort` leaves the 21
entries. -/
theorem C22_skipped_call_counterexample :
    (rememberPort { knownPorts := exampleNames.map PortItem.bare, recentPorts := exampleNames }
        "Ryde".toList).recentPorts.length = 21 := by
  decide

/-- C23 (as the code has it): for a name that is in the Directory and passes the filter,
and a list `recentPorts` without duplicates, after `rememberPort(name)` the trimmed name
is the first entry and occurs once, the list has no duplicates, and the entries after
the first are entries of the old list in their old order; when the old entries all pass
the filter, they are the old entries other than the name, cut to the first 19. -/
theorem C23_move_to_front (s : Ports) (name : Str) (hnd : s.recentPorts.Nodup)
    (h1 : isLikelyRealPortName name = true)
    (h2 : findPortItemByName s.knownPorts name ≠ none) :
    (rememberPort s name).recentPorts.head? = some (trim name) ∧
    (rememberPort s name).recentPorts.count (trim name) = 1 ∧
    (rememberPort s name).recentPorts.Nodup ∧
    (rememberPort s name).recentPorts.tail.Sublist s.recentPorts ∧
    (rememberPort s name).recentPorts.tail
      = ((s.recentPorts.filter (fun p => p != trim name)).take 19).filter
          (fun p => isLikelyRealPortName p) ∧
    ((∀ r ∈ s.recentPorts, isLikelyRealPortName r = true) →
      (rememberPort s name).recentPorts.tail
        = (s.recentPorts.filter (fun p => p != trim name)).take 19) := by
  have hshape := remember_recent_shape s name h1 h2
  have hsub : (((s.recentPorts.filter (fun p => p != trim name)).take 19).filter
      (fun p => isLikelyRealPortName p)).Sublist s.recentPorts :=
    (List.filter_sublist _).trans ((List.take_sublist _ _).trans (List.filter_sublist _))
  have hnot : trim name ∉ ((s.recentPorts.filter (fun p => p != trim name)).take 19).filter
      (fun p => isLikelyRealPortName p) := by
    intro hm
    have := List.mem_of_mem_take (List.mem_filter.mp hm).1
    simpa using (List.mem_filter.mp this).2
  have hnd2 : (rememberPort s name).recentPorts.Nodup := by
    rw [hshape]
    exact List.nodup_cons.mpr ⟨hnot, hsub.nodup hnd⟩
  refine ⟨by rw [hshape]; rfl, ?_, hnd2, by rw [hshape]; exact hsub, by rw [hshape]; rfl, ?_⟩
  · rw [hshape, List.count_cons_self, List.count_eq_zero_of_not_mem hnot]
  · intro h3
    rw [hshape, List.tail_cons]
    apply filter_likely_fix
    intro r hr
    exact h3 r (List.mem_filter.mp (List.mem_of_mem_take hr)).1

/-- C23, at a concrete input: with "Cowes", "Poole" in the MRU list, the call for
" Poole " leaves "Poole", "Cowes". -/
theorem C23_move_to_front_witness :
    (rememberPort
        { knownPorts := [PortItem.bare "Cowes".toList, PortItem.bare "Poole".toList]
          recentPorts := ["Cowes".toList, "Poole".toList] }
        " Poole ".toList).recentPorts.tail
      = (["Cowes".toList, "Poole".toList].filter (fun p => p != trim " Poole ".toList)).take 19 ∧
    (rememberPort
        { knownPorts := [PortItem.bare "Cowes".toList, PortItem.bare "Poole".toList]
          recentPorts := ["Cowes".toList, "Poole".toList] }
        " Poole ".toList).recentPorts = ["Poole".toList, "Cowes".toList] :=
  ⟨(C23_move_to_front
      { knownPorts := [PortItem.bare "Cowes".toList, PortItem.bare "Poole".toList]
        recentPorts := ["Cowes".toList, "Poole".toList] }
      " Poole ".toList (by decide) (by decide) (by decide)).2.2.2.2.2 (by decide),
   by decide⟩

/-- C23 (as stated) fails when the MRU list holds a name that the filter rejects: with
"Cw", "Cowes" in the list (no duplicates, 2 entries), the call for "Poole" leaves
"Poole", "Cowes"; the entry "Cw" is dropped though the limit of 20 is not exceeded. -/
theorem C23_rejected_entry_counterexample :
    ["Cw".toList, "Cowes".toList].Nodup ∧
    isLikelyRealPortName "Cw".toList = false ∧
    isLikelyRealPortName "Poole".toList = true ∧
    findPortItemByName [PortItem.bare "Cowes".toList, PortItem.bare "Poole".toList]
      "Poole".toList = some (PortItem.bare "Poole".toList) ∧
    (rememberPort
        { knownPorts := [PortItem.bare "Cowes".toList, PortItem.bare "Poole".toList]
          recentPorts := ["Cw".toList, "Cowes".toList] }
        "Poole".toList).recentPorts = ["Poole".toList, "Cowes".toList] := by
  decide

/-- C24: when `findPortItemByName` finds no record of the name, or the filter rejects
it, `rememberPort(name)` leaves `knownPorts` and `recentPorts` as they were; in every
case the records of `knownPorts` afterwards are records that were there before, in
their old order, and an entry of `recentPorts` afterwards was there before or is the
trimmed name, which is then the name of a record of the Directory. -/
theorem C24_remember_only_known (s : Ports) (name : Str) :
    ((findPortItemByName s.knownPorts name = none ∨ isLikelyRealPortName name = false) →
      rememberPort s name = s) ∧
    (rememberPort s name).knownPorts.Sublist s.knownPorts ∧
    (∀ p ∈ (rememberPort s name).knownPorts, p ∈ s.knownPorts) ∧
    (∀ r ∈ (rememberPort s name).recentPorts,
      r ∈ s.recentPorts ∨ (r = trim name ∧ ∃ p ∈ s.knownPorts, portName p = r)) := by
  have hsub : (rememberPort s name).knownPorts.Sublist s.knownPorts := by
    rcases remember_known s name with h | h
    · rw [h]
    · rw [h]; exact List.filter_sublist _
  refine ⟨remember_skip s name, hsub, fun p hp => hsub.subset hp, ?_⟩
  intro r hr
  rcases remember_cases s name with h | ⟨h1, h2, _⟩
  · rw [h] at hr; exact Or.inl hr
  · rw [remember_recent_shape s name h1 h2] at hr
    rcases List.mem_cons.mp hr with rfl | hr2
    · right
      refine ⟨rfl, ?_⟩
      cases hf : findPortItemByName s.knownPorts name with
      | none => exact absurd hf h2
      | some x =>
        obtain ⟨_, hx⟩ := findPortItemByName_some _ _ _ hf
        exact ⟨x, List.mem_of_find?_eq_some hx, by simpa using List.find?_some hx⟩
    · left
      exact (List.mem_filter.mp (List.mem_of_mem_take (List.mem_filter.mp hr2).1)).1

/-- C24, at a concrete input: "Ryde" is not in the Directory, and the call for it
leaves the state as it was. -/
theorem C24_remember_only_known_witness :
    rememberPort
        { knownPorts := [PortItem.bare "Cowes".toList], recentPorts := ["Cowes".toList] }
        "Ryde".toList
      = { knownPorts := [PortItem.bare "Cowes".toList], recentPorts := ["Cowes".toList] } :=
  (C24_remember_only_known
    { knownPorts := [PortItem.bare "Cowes".toList], recentPorts := ["Cowes".toList] }
    "Ryde".toList).1 (Or.inl (by decide))

/-! ## Lemmas on the suggestions -/

theorem startsWith_iff (s q : Str) : startsWith s q = true ↔ ∃ post, s = q ++ post := by
  induction s generalizing q with
  | nil =>
    cases q with
    | nil => simp [startsWith]
    | cons d ds => simp [startsWith]
  | cons c cs ih =>
    cases q with
    | nil => simp [startsWith]
    | cons d ds =>
      simp only [startsWith, Bool.and_eq_true, beq_iff_eq, ih, List.cons_append,
        List.cons.injEq]
      constructor
      · rintro ⟨rfl, post, rfl⟩
        exact ⟨post, rfl, rfl⟩
      · rintro ⟨post, rfl, rfl⟩
        exact ⟨rfl, post, rfl⟩

theorem includes_iff (s q : Str) :
    includes s q = true ↔ ∃ pre post, s = pre ++ q ++ post := by
  induction s with
  | nil =>
    simp only [includes, startsWith_iff]
    constructor
    · rintro ⟨post, h⟩
      exact ⟨[], post, by simpa using h⟩
    · rintro ⟨pre, post, h⟩
      have h2 := h.symm
      simp only [List.append_eq_nil] at h2
      exact ⟨[], by simp [h2.1.2]⟩
  | cons c cs ih =>
    simp only [includes, Bool.or_eq_true, startsWith_iff, ih]
    constructor
    · rintro (⟨post, h⟩ | ⟨pre, post, h⟩)
      · exact ⟨[], post, by simpa using h⟩
      · exact ⟨c :: pre, post, by simp [h]⟩
    · rintro ⟨pre, post, h⟩
      cases pre with
      | nil => exact Or.inl ⟨post, by simpa using h⟩
      | cons a as =>
        simp only [List.cons_append, List.cons.injEq] at h
        exact Or.inr ⟨as, post, by simpa using h.2⟩

theorem mem_firstDistinct (l : List Str) (x : Str) : x ∈ firstDistinct l ↔ x ∈ l := by
  induction l with
  | nil => simp [firstDistinct]
  | cons a as ih =>
    simp only [firstDistinct, List.mem_cons, List.mem_filter, ih, bne_iff_ne, ne_eq]
    by_cases h : x = a
    · simp [h]
    · simp [h]

theorem firstDistinct_sublist (l : List Str) : (firstDistinct l).Sublist l := by
  induction l with
  | nil => exact List.Sublist.slnil
  | cons a as ih =>
    simp only [firstDistinct]
    exact List.Sublist.cons₂ a ((List.filter_sublist _).trans ih)

theorem firstDistinct_nodup (l : List Str) : (firstDistinct l).Nodup := by
  induction l with
  | nil => exact List.nodup_nil
  | cons a as ih =>
    simp only [firstDistinct]
    refine List.nodup_cons.mpr ⟨?_, (List.filter_sublist _).nodup ih⟩
    intro h
    simpa using (List.mem_filter.mp h).2

theorem firstDistinct_of_nodup (l : List Str) (h : l.Nodup) : firstDistinct l = l := by
  induction l with
  | nil => rfl
  | cons a as ih =>
    obtain ⟨h1, h2⟩ := List.nodup_cons.mp h
    simp only [firstDistinct, ih h2]
    congr 1
    apply List.filter_eq_self.mpr
    intro r hr
    simp only [bne_iff_ne, ne_eq]
    intro e
    exact h1 (e ▸ hr)

theorem collectUnique_spec (list : List PortItem) :
    ∀ seen out : List Str, (∀ x, x ∈ seen ↔ x ∈ out) → out.length < 6 →
      collectUnique list seen out
        = (out ++ (firstDistinct (list.map portName)).filter
            (fun y => !out.contains y)).take 6 := by
  induction list with
  | nil =>
    intro seen out _ hlen
    simp only [collectUnique, List.map_nil, firstDistinct, List.filter_nil, List.append_nil]
    rw [List.take_of_length_le (by omega)]
  | cons p rest ih =>
    intro seen out hso hlen
    simp only [collectUnique, List.map_cons, firstDistinct]
    by_cases hin : portName p ∈ out
    · have hs : seen.contains (portName p) = true := by
        simpa using (hso _).mpr hin
      have ho : out.contains (portName p) = true := by simpa using hin
      simp only [hs, Bool.not_true, Bool.false_eq_true, if_false, ge_iff_le]
      rw [if_neg (by omega), ih seen out hso hlen]
      rw [List.filter_cons_of_neg (by simp [hin]), List.filter_filter]
      congr 2
      apply List.filter_congr
      intro y _
      by_cases hy : y ∈ out
      · simp [hy]
      · have : y ≠ portName p := fun e => hy (e ▸ hin)
        simp [hy, this]
    · have hs : seen.contains (portName p) = false := by
        simpa using fun h => hin ((hso _).mp h)
      have ho : out.contains (portName p) = false := by simpa using hin
      simp only [hs, Bool.not_false, if_true, ge_iff_le, List.length_append,
        List.length_singleton]
      rw [List.filter_cons_of_pos (by simp [hin]), List.filter_filter]
      by_cases h6 : 6 ≤ out.length + 1
      · rw [if_pos h6]
        have hl : (out ++ [portName p]).length = 6 := by
          simp only [List.length_append, List.length_singleton]; omega
        have : out ++ portName p :: List.filter
            (fun a => (!out.contains a) && (a != portName p))
            (firstDistinct (List.map portName rest))
          = (out ++ [portName p]) ++ List.filter
            (fun a => (!out.contains a) && (a != portName p))
            (firstDistinct (List.map portName rest)) := by simp
        rw [this, List.take_append_eq_append_take, hl, List.take_of_length_le (by omega)]
        simp
      · rw [if_neg h6]
        rw [ih (portName p :: seen) (out ++ [portName p])
          (by intro x; simp only [List.mem_cons, List.mem_append, List.mem_singleton, hso]
              tauto)
          (by simp only [List.length_append, List.length_singleton]; omega)]
        congr 1
        rw [List.append_assoc, List.singleton_append]
        congr 2
        apply List.filter_congr
        intro y _
        by_cases hy : y ∈ out
        · simp [hy]
        · by_cases hy2 : y = portName p
          · simp [hy, hy2]
          · simp [hy, hy2]

/-- The loop of `getPortSuggestions` returns the first 6 distinct names of the list. -/
theorem collectUnique_eq (list : List PortItem) :
    collectUnique list [] [] = (firstDistinct (list.map portName)).take 6 := by
  rw [collectUnique_spec list [] [] (fun _ => Iff.rfl) (by decide)]
  simp

theorem suggestLe_iff (H : Host) (q : Str) (a b : PortItem) :
    suggestLe H q a b ↔ ranksBefore H q (portName a) (portName b) := by
  unfold suggestLe suggestCompare ranksBefore
  cases ha : startsWith (H.toLowerCase (portName a)) q <;>
    cases hb : startsWith (H.toLowerCase (portName b)) q <;> simp [ha, hb]

theorem ranksBefore_total (H : Host) (q x y : Str) :
    ranksBefore H q x y ∨ ranksBefore H q y x := by
  unfold ranksBefore
  cases hx : startsWith (H.toLowerCase x) q <;>
    cases hy : startsWith (H.toLowerCase y) q
  · by_cases h : H.localeCompare (H.toLowerCase x) (H.toLowerCase y) = Ordering.gt
    · right; right
      refine ⟨rfl, ?_⟩
      rw [(H.swap _ _).mp h]; decide
    · left; right; exact ⟨rfl, h⟩
  · right; left; exact ⟨rfl, rfl⟩
  · left; left; exact ⟨rfl, rfl⟩
  · by_cases h : H.localeCompare (H.toLowerCase x) (H.toLowerCase y) = Ordering.gt
    · right; right
      refine ⟨rfl, ?_⟩
      rw [(H.swap _ _).mp h]; decide
    · left; right; exact ⟨rfl, h⟩

theorem ranksBefore_trans (H : Host) (q x y z : Str) (hxy : ranksBefore H q x y)
    (hyz : ranksBefore H q y z) : ranksBefore H q x z := by
  unfold ranksBefore at *
  rcases hxy with ⟨h1, h2⟩ | ⟨h1, h2⟩ <;> rcases hyz with ⟨h3, h4⟩ | ⟨h3, h4⟩
  · rw [h2] at h3; cases h3
  · left; exact ⟨h1, by rw [← h3]; exact h2⟩
  · left; exact ⟨by rw [h1]; exact h3, h4⟩
  · right; exact ⟨h1.trans h3, H.trans _ _ _ h2 h4⟩

instance (H : Host) (q : Str) : IsTotal PortItem (suggestLe H q) :=
  ⟨fun a b => by
    rw [suggestLe_iff, suggestLe_iff]
    exact ranksBefore_total H q _ _⟩

instance (H : Host) (q : Str) : IsTrans PortItem (suggestLe H q) :=
  ⟨fun a b c hab hbc => by
    rw [suggestLe_iff] at *
    exact ranksBefore_trans H q _ _ _ hab hbc⟩

theorem toLowerCase_nil (H : Host) : H.toLowerCase [] = [] := by
  rw [H.toLowerCase_ascii [] (by simp)]
  rfl

theorem suggestions_of_query (H : Host) (s : Ports) (query : Str)
    (hq : H.toLowerCase (trim query) ≠ []) :
    getPortSuggestions H s query
      = (firstDistinct ((matchesSorted H s (H.toLowerCase (trim query))).map portName)).take 6 := by
  unfold getPortSuggestions matchesSorted
  simp only [hq, if_false]
  exact collectUnique_eq _

theorem suggestions_of_blank (H : Host) (s : Ports) (query : Str) (hq : trim query = []) :
    getPortSuggestions H s query
      = if s.recentPorts ≠ [] then (firstDistinct s.recentPorts).take 6
        else (firstDistinct (s.knownPorts.map portName)).take 6 := by
  unfold getPortSuggestions
  simp only [hq, toLowerCase_nil, if_true]
  rw [collectUnique_eq]
  by_cases h : s.recentPorts = []
  · simp [h]
  · have : s.recentPorts.length ≠ 0 := by
      intro e; exact h (List.length_eq_zero.mp e)
    simp only [this, ne_eq, not_false_eq_true, if_true, h, List.map_map]
    congr 2
    induction s.recentPorts with
    | nil => rfl
    | cons a as ih => simp [portName, ih]

theorem suggestions_shape (H : Host) (s : Ports) (query : Str) :
    ∃ l : List Str, getPortSuggestions H s query = (firstDistinct l).take 6 := by
  unfold getPortSuggestions
  exact ⟨_, collectUnique_eq _⟩

theorem matchesSorted_pairwise (H : Host) (s : Ports) (q : Str) :
    ((matchesSorted H s q).map portName).Pairwise (ranksBefore H q) := by
  rw [List.pairwise_map]
  have h := List.sorted_insertionSort (suggestLe H q)
    (s.knownPorts.filter (fun p => includes (H.toLowerCase (portName p)) q))
  exact List.Pairwise.imp (fun hab => (suggestLe_iff H q _ _).mp hab) h

theorem mem_matchesSorted (H : Host) (s : Ports) (q : Str) (p : PortItem) :
    p ∈ matchesSorted H s q ↔
      p ∈ s.knownPorts ∧ includes (H.toLowerCase (portName p)) q = true := by
  unfold matchesSorted
  rw [(List.perm_insertionSort _ _).mem_iff, List.mem_filter]

theorem pairwise_take_drop {α : Type} (R : α → α → Prop) (l : List α) (k : Nat)
    (h : l.Pairwise R) (x y : α) (hx : x ∈ l.take k) (hy : y ∈ l.drop k) : R x y := by
  have h2 : (l.take k ++ l.drop k).Pairwise R := by rw [List.take_append_drop]; exact h
  exact (List.pairwise_append.mp h2).2.2 x hx y hy

/-- C25: for every query and every state, `getPortSuggestions` returns at most 6 names,
and no name twice. -/
theorem C25_suggestions_bounded_distinct (H : Host) (s : Ports) (query : Str) :
    (getPortSuggestions H s query).length ≤ 6 ∧ (getPortSuggestions H s query).Nodup := by
  obtain ⟨l, h⟩ := suggestions_shape H s query
  rw [h]
  exact ⟨by rw [List.length_take]; omega,
    (List.take_sublist _ _).nodup (firstDistinct_nodup l)⟩

/-- C26: for a blank query `getPortSuggestions` returns the first 6 distinct names of
`recentPorts` in their order when that list is not empty, and otherwise the first 6
distinct names of `knownPorts` in the order of `knownPorts`, which it does not sort:
they are in alphabetical order when `knownPorts` is sorted, and for the Directory
"Poole", "Cowes" the result is "Poole", "Cowes". -/
theorem C26_blank_query_keeps_directory_order (H : Host) :
    (∀ (s : Ports) (query : Str), trim query = [] → s.recentPorts ≠ [] →
      getPortSuggestions H s query = (firstDistinct s.recentPorts).take 6) ∧
    (∀ (s : Ports) (query : Str), trim query = [] → s.recentPorts = [] →
      getPortSuggestions H s query = (firstDistinct (s.knownPorts.map portName)).take 6) ∧
    (∀ (s : Ports) (query : Str), trim query = [] → s.recentPorts = [] →
      s.knownPorts.Sorted (portLe H.toCollation) →
      (getPortSuggestions H s query).Pairwise
        (fun x y => H.localeCompare x y ≠ Ordering.gt)) ∧
    getPortSuggestions H
        { knownPorts := [PortItem.bare "Poole".toList, PortItem.bare "Cowes".toList]
          recentPorts := [] } [] = ["Poole".toList, "Cowes".toList] ∧
    getPortSuggestions codePointHost
        { knownPorts := [PortItem.bare "Poole".toList, PortItem.bare "Cowes".toList]
          recentPorts := [] } "  ".toList = ["Poole".toList, "Cowes".toList] ∧
    codePointHost.localeCompare "Poole".toList "Cowes".toList = Ordering.gt := by
  refine ⟨?_, ?_, ?_, ?_, by decide, by decide⟩
  · intro s query hq hr
    rw [suggestions_of_blank H s query hq, if_pos hr]
  · intro s query hq hr
    rw [suggestions_of_blank H s query hq, if_neg (by simp [hr])]
  · intro s query hq hr hs
    rw [suggestions_of_blank H s query hq, if_neg (by simp [hr])]
    have h1 : (s.knownPorts.map portName).Pairwise
        (fun x y => H.localeCompare x y ≠ Ordering.gt) := by
      rw [List.pairwise_map]
      exact hs
    exact List.Pairwise.sublist ((List.take_sublist _ _).trans (firstDistinct_sublist _)) h1
  · rw [suggestions_of_blank H _ [] (by decide), if_neg (by simp)]
    decide

/-- C27: for a query whose trimmed, lower-cased form `q` is not empty, every name that
`getPortSuggestions` returns is the name of a record of `knownPorts` whose lower-cased
form contains `q`; of two returned names the earlier one starts with `q` whenever the
later one does, and when both or neither start with `q` the lower-cased earlier one is
not after the lower-cased later one in the collation; and a record whose lower-cased
name contains `q` is left out only when 6 names are returned, each ranking before or
level with it. -/
theorem C27_query_ranking (H : Host) (s : Ports) (query : Str)
    (hq : H.toLowerCase (trim query) ≠ []) :
    (∀ x ∈ getPortSuggestions H s query,
      (∃ p ∈ s.knownPorts, portName p = x) ∧
      ∃ pre post, H.toLowerCase x = pre ++ H.toLowerCase (trim query) ++ post) ∧
    (getPortSuggestions H s query).Pairwise
      (fun x y =>
        (startsWith (H.toLowerCase y) (H.toLowerCase (trim query)) = true →
          startsWith (H.toLowerCase x) (H.toLowerCase (trim query)) = true) ∧
        (startsWith (H.toLowerCase x) (H.toLowerCase (trim query))
            = startsWith (H.toLowerCase y) (H.toLowerCase (trim query)) →
          H.localeCompare (H.toLowerCase x) (H.toLowerCase y) ≠ Ordering.gt)) ∧
    (∀ p ∈ s.knownPorts,
      (∃ pre post, H.toLowerCase (portName p) = pre ++ H.toLowerCase (trim query) ++ post) →
      portName p ∉ getPortSuggestions H s query →
        (getPortSuggestions H s query).length = 6 ∧
        ∀ x ∈ getPortSuggestions H s query,
          ranksBefore H (H.toLowerCase (trim query)) x (portName p)) := by
  rw [suggestions_of_query H s query hq]
  have hsub : ((firstDistinct ((matchesSorted H s (H.toLowerCase (trim query))).map
      portName)).take 6).Sublist
      ((matchesSorted H s (H.toLowerCase (trim query))).map portName) :=
    (List.take_sublist _ _).trans (firstDistinct_sublist _)
  have hpw := matchesSorted_pairwise H s (H.toLowerCase (trim query))
  refine ⟨?_, ?_, ?_⟩
  · intro x hx
    obtain ⟨p, hp, hpx⟩ := List.mem_map.mp (hsub.subset hx)
    obtain ⟨hp1, hp2⟩ := (mem_matchesSorted H s _ p).mp hp
    exact ⟨⟨p, hp1, hpx⟩, by rw [← hpx]; exact (includes_iff _ _).mp hp2⟩
  · refine List.Pairwise.imp ?_ (List.Pairwise.sublist hsub hpw)
    intro x y hxy
    unfold ranksBefore at hxy
    rcases hxy with ⟨h1, h2⟩ | ⟨h1, h2⟩
    · exact ⟨fun _ => h1, fun e => by rw [h1, h2] at e; cases e⟩
    · exact ⟨fun hy => by rw [h1]; exact hy, fun _ => h2⟩
  · intro p hp hinc hout
    have hmem : portName p ∈
        firstDistinct ((matchesSorted H s (H.toLowerCase (trim query))).map portName) := by
      rw [mem_firstDistinct]
      exact List.mem_map_of_mem portName
        ((mem_matchesSorted H s _ p).mpr ⟨hp, (includes_iff _ _).mpr hinc⟩)
    have hdrop : portName p ∈
        (firstDistinct ((matchesSorted H s (H.toLowerCase (trim query))).map portName)).drop
          6 := by
      have h2 := hmem
      rw [← List.take_append_drop 6
        (firstDistinct ((matchesSorted H s (H.toLowerCase (trim query))).map portName))] at h2
      rcases List.mem_append.mp h2 with h3 | h3
      · exact absurd h3 hout
      · exact h3
    refine ⟨?_, ?_⟩
    · rw [List.length_take]
      have : 0 < ((firstDistinct ((matchesSorted H s (H.toLowerCase (trim query))).map
          portName)).drop 6).length := List.length_pos_of_mem hdrop
      rw [List.length_drop] at this
      omega
    · intro x hx
      exact pairwise_take_drop _ _ 6 (List.Pairwise.sublist (firstDistinct_sublist _) hpw) x _ hx hdrop

/-- C27, at a concrete input: for the query " CO " and the Directory "Cowes", "Calais",
"East Cowes", "Cobh", the names returned are "Cobh", "Cowes", "East Cowes". -/
theorem C27_query_ranking_witness :
    getPortSuggestions codePointHost
        { knownPorts := [PortItem.bare "Cowes".toList, PortItem.bare "Calais".toList,
            PortItem.bare "East Cowes".toList, PortItem.bare "Cobh".toList]
          recentPorts := ["Calais".toList] } " CO ".toList
      = ["Cobh".toList, "Cowes".toList, "East Cowes".toList] ∧
    ∀ x ∈ getPortSuggestions codePointHost
        { knownPorts := [PortItem.bare "Cowes".toList, PortItem.bare "Calais".toList,
            PortItem.bare "East Cowes".toList, PortItem.bare "Cobh".toList]
          recentPorts := ["Calais".toList] } " CO ".toList,
      (∃ p ∈ [PortItem.bare "Cowes".toList, PortItem.bare "Calais".toList,
            PortItem.bare "East Cowes".toList, PortItem.bare "Cobh".toList],
          portName p = x) ∧
      ∃ pre post, codePointHost.toLowerCase x
        = pre ++ codePointHost.toLowerCase (trim " CO ".toList) ++ post :=
  ⟨by decide,
   (C27_query_ranking codePointHost
      { knownPorts := [PortItem.bare "Cowes".toList, PortItem.bare "Calais".toList,
          PortItem.bare "East Cowes".toList, PortItem.bare "Cobh".toList]
        recentPorts := ["Calais".toList] } " CO ".toList (by decide)).1⟩

/-- C28 (as the code has it): for the Directory "Cowes", "Calais", "Canterbury" and the
query "ca", on every host whose collation puts "calais" before "canterbury", the names
"Calais" and "Canterbury" match and "Cowes" does not, and `getPortSuggestions` returns
"Calais", "Canterbury". -/
theorem C28_example_ordering (H : Host)
    (h : H.localeCompare "calais".toList "canterbury".toList = Ordering.lt) :
    includes (H.toLowerCase "Calais".toList) (H.toLowerCase (trim "ca".toList)) = true ∧
    includes (H.toLowerCase "Canterbury".toList) (H.toLowerCase (trim "ca".toList)) = true ∧
    includes (H.toLowerCase "Cowes".toList) (H.toLowerCase (trim "ca".toList)) = false ∧
    getPortSuggestions H
        { knownPorts := [PortItem.bare "Cowes".toList, PortItem.bare "Calais".toList,
            PortItem.bare "Canterbury".toList]
          recentPorts := [] } "ca".toList
      = ["Calais".toList, "Canterbury".toList] := by
  have e0 : H.toLowerCase (trim "ca".toList) = "ca".toList := by
    rw [show trim "ca".toList = "ca".toList by decide, H.toLowerCase_ascii _ (by decide)]
    decide
  have e1 : H.toLowerCase "Cowes".toList = "cowes".toList := by
    rw [H.toLowerCase_ascii _ (by decide)]; decide
  have e2 : H.toLowerCase "Calais".toList = "calais".toList := by
    rw [H.toLowerCase_ascii _ (by decide)]; decide
  have e3 : H.toLowerCase "Canterbury".toList = "canterbury".toList := by
    rw [H.toLowerCase_ascii _ (by decide)]; decide
  refine ⟨by rw [e0, e2]; decide, by rw [e0, e3]; decide, by rw [e0, e1]; decide, ?_⟩
  have hle : suggestLe H "ca".toList (PortItem.bare "Calais".toList)
      (PortItem.bare "Canterbury".toList) := by
    rw [suggestLe_iff]
    right
    simp only [portName, e2, e3, h]
    exact ⟨by decide, by decide⟩
  rw [suggestions_of_query H _ _ (by rw [e0]; decide), e0]
  unfold matchesSorted
  have hf : List.filter (fun p => includes (H.toLowerCase (portName p)) "ca".toList)
      [PortItem.bare "Cowes".toList, PortItem.bare "Calais".toList,
        PortItem.bare "Canterbury".toList]
      = [PortItem.bare "Calais".toList, PortItem.bare "Canterbury".toList] := by
    simp only [List.filter_cons, List.filter_nil, portName, e1, e2, e3]
    decide
  simp only [hf, List.insertionSort, List.orderedInsert, hle, if_true]
  decide

/-- C28, on the host that compares by code point. -/
theorem C28_example_ordering_witness :
    getPortSuggestions codePointHost
        { knownPorts := [PortItem.bare "Cowes".toList, PortItem.bare "Calais".toList,
            PortItem.bare "Canterbury".toList]
          recentPorts := [] } "ca".toList
      = ["Calais".toList, "Canterbury".toList] :=
  (C28_example_ordering codePointHost (by decide)).2.2.2

/-- C28 (as stated) fails: the lower-cased name "cowes" does not contain "ca", so for
the query "ca" the name "Cowes" is not returned; the three names are returned in the
order of the claim for the query "c". -/
theorem C28_cowes_counterexample :
    includes (codePointHost.toLowerCase "Cowes".toList)
      (codePointHost.toLowerCase (trim "ca".toList)) = false ∧
    "Cowes".toList ∉ getPortSuggestions codePointHost
        { knownPorts := [PortItem.bare "Cowes".toList, PortItem.bare "Calais".toList,
            PortItem.bare "Canterbury".toList]
          recentPorts := [] } "ca".toList ∧
    getPortSuggestions codePointHost
        { knownPorts := [PortItem.bare "Cowes".toList, PortItem.bare "Calais".toList,
            PortItem.bare "Canterbury".toList]
          recentPorts := [] } "ca".toList
      ≠ ["Calais".toList, "Canterbury".toList, "Cowes".toList] ∧
    getPortSuggestions codePointHost
        { knownPorts := [PortItem.bare "Cowes".toList, PortItem.bare "Calais".toList,
            PortItem.bare "Canterbury".toList]
          recentPorts := [] } "c".toList
      = ["Calais".toList, "Canterbury".toList, "Cowes".toList] := by
  decide

/-! ## The MRU list within the Directory -/

theorem names_kept_upsert (C : Collation) (l : List PortItem) (name : Str) (lat lon : JsVal) :
    ∀ p ∈ l, ∃ p2 ∈ upsertPortItem C l name lat lon, portName p2 = portName p := by
  intro p hp
  by_cases hn : trim name = []
  · exact ⟨p, by simpa [upsertPortItem, hn] using hp, rfl⟩
  · cases hf : l.find? (fun p => portName p == trim name) with
    | none =>
      rw [upsert_of_not_find C l name lat lon hn hf]
      exact ⟨p, ((sortPorts_perm C _).mem_iff).mpr (List.mem_append_left _ hp), rfl⟩
    | some x =>
      obtain ⟨pre, post, hl, _, hxn, hup⟩ := upsert_of_find C l name lat lon hn x hf
      rw [hup]
      rw [hl] at hp
      rcases List.mem_append.mp hp with h | h
      · exact ⟨p, ((sortPorts_perm C _).mem_iff).mpr (List.mem_append_left _ h), rfl⟩
      · rcases List.mem_cons.mp h with rfl | h
        · exact ⟨storedItem (trim name) lat lon p,
            ((sortPorts_perm C _).mem_iff).mpr
              (List.mem_append_right _ (List.mem_cons_self _ _)),
            by rw [portName_storedItem _ _ _ _ hxn, hxn]⟩
        · exact ⟨p, ((sortPorts_perm C _).mem_iff).mpr
            (List.mem_append_right _ (List.mem_cons_of_mem _ h)), rfl⟩

theorem within_clean (s : Ports) (h : recentWithinDirectory s) :
    recentWithinDirectory (cleanPortsInPlace s) := by
  intro r hr
  obtain ⟨hr1, hr2⟩ := List.mem_filter.mp hr
  obtain ⟨p, hp, hpn⟩ := h r hr1
  exact ⟨p, List.mem_filter.mpr ⟨hp, by rw [hpn]; exact hr2⟩, hpn⟩

/-- C30: when every name in `recentPorts` is the name of a record in `knownPorts`, this
holds again after `upsertPortItem`, after `deletePort`, after `rememberPort` and after
`cleanPortsInPlace`, whatever the arguments. -/
theorem C30_recent_within_directory (C : Collation) (s : Ports) (name : Str)
    (lat lon : JsVal) (h : recentWithinDirectory s) :
    recentWithinDirectory
      { knownPorts := upsertPortItem C s.knownPorts name lat lon
        recentPorts := s.recentPorts } ∧
    recentWithinDirectory (deletePort s name) ∧
    recentWithinDirectory (rememberPort s name) ∧
    recentWithinDirectory (cleanPortsInPlace s) := by
  refine ⟨?_, ?_, ?_, within_clean s h⟩
  · intro r hr
    obtain ⟨p, hp, hpn⟩ := h r hr
    obtain ⟨p2, hp2, hpn2⟩ := names_kept_upsert C s.knownPorts name lat lon p hp
    exact ⟨p2, hp2, hpn2.trans hpn⟩
  · unfold deletePort
    simp only
    split
    · exact h
    · intro r hr
      obtain ⟨hr1, hr2⟩ := List.mem_filter.mp hr
      obtain ⟨p, hp, hpn⟩ := h r hr1
      exact ⟨p, List.mem_filter.mpr ⟨hp, by rw [hpn]; exact hr2⟩, hpn⟩
  · rcases remember_cases s name with he | ⟨_, h2, he⟩
    · rw [he]; exact h
    · rw [he]
      apply within_clean
      intro r hr
      rcases List.mem_cons.mp (List.mem_of_mem_take hr) with rfl | hr2
      · cases hf : findPortItemByName s.knownPorts name with
        | none => exact absurd hf h2
        | some x =>
          obtain ⟨_, hx⟩ := findPortItemByName_some _ _ _ hf
          exact ⟨x, List.mem_of_find?_eq_some hx, by simpa using List.find?_some hx⟩
      · exact h r (List.mem_filter.mp hr2).1

/-- C30, at a concrete input: with "Cowes" and "Poole" in the Directory and in the MRU
list, deleting "Poole" leaves "Cowes" in both. -/
theorem C30_recent_within_directory_witness :
    recentWithinDirectory
      { knownPorts := [PortItem.bare "Cowes".toList, PortItem.bare "Poole".toList]
        recentPorts := ["Poole".toList, "Cowes".toList] } ∧
    deletePort
        { knownPorts := [PortItem.bare "Cowes".toList, PortItem.bare "Poole".toList]
          recentPorts := ["Poole".toList, "Cowes".toList] } "Poole".toList
      = { knownPorts := [PortItem.bare "Cowes".toList], recentPorts := ["Cowes".toList] } ∧
    recentWithinDirectory
      (deletePort
        { knownPorts := [PortItem.bare "Cowes".toList, PortItem.bare "Poole".toList]
          recentPorts := ["Poole".toList, "Cowes".toList] } "Poole".toList) :=
  ⟨by decide, by decide,
   (C30_recent_within_directory codePointCollation
      { knownPorts := [PortItem.bare "Cowes".toList, PortItem.bare "Poole".toList]
        recentPorts := ["Poole".toList, "Cowes".toList] }
      "Poole".toList JsVal.null JsVal.null (by decide)).2.1⟩

end Steeler
